import Mathlib

/-!
Verification of the MGIS automated framework (PDF keyword-context extraction,
masking, and Q&A generation pipeline).

The Python sources are shallowly embedded:
* `ContentMasker.mask_sensitive_info` (src/processing/pdf_processor.py) is a
  pipeline of ten `re.sub` calls; we embed a small backtracking regex engine
  covering exactly the constructs those ten patterns use (word boundaries,
  literals, case-insensitive literals, character classes with counted greedy
  repetition, concatenation, ordered alternation) and transcribe each pattern
  as an AST.  Character classes follow Python `re` on ASCII text (`\w` is
  alphanumeric or underscore, `\s` is ASCII whitespace, `\d` is an ASCII
  digit); this is the standard ASCII reading of the patterns.
* Dict-shaped parser output (pages, blocks, lines, spans) becomes structures
  with `Option` fields for optional keys; Python exceptions (IndexError,
  TypeError) become `Except String`.
-/

namespace MGIS

/-- Decidable equality for `Except`, used to evaluate embedded Python
functions (whose exceptions are `Except.error`) on concrete inputs. -/
instance {ε α : Type} [DecidableEq ε] [DecidableEq α] : DecidableEq (Except ε α) :=
  fun x y =>
    match x, y with
    | Except.ok a, Except.ok b =>
      if h : a = b then isTrue (by rw [h]) else isFalse (fun hc => h (by injection hc))
    | Except.error a, Except.error b =>
      if h : a = b then isTrue (by rw [h]) else isFalse (fun hc => h (by injection hc))
    | Except.ok _, Except.error _ => isFalse (fun hc => Except.noConfusion hc)
    | Except.error _, Except.ok _ => isFalse (fun hc => Except.noConfusion hc)

/-- Python `\w` on ASCII text: letters, digits, underscore. -/
def isWordChar (c : Char) : Bool := c.isAlphanum || c = '_'

/-- Python `\s` on ASCII text. -/
def pyIsSpace (c : Char) : Bool :=
  c = ' ' || c = '\t' || c = '\n' || c = '\r' || c = '\x0b' || c = '\x0c'

/-- Regular-expression syntax actually used by the masking rules.
`cls p lo hi` is a greedy counted repetition of a single-character class
(`hi = none` meaning unbounded), covering `+`, `*`, `?`, `{m,n}` on classes. -/
inductive Rx where
  | eps : Rx
  | wb : Rx
  | lit (ci : Bool) (c : Char) : Rx
  | str (ci : Bool) (cs : List Char) : Rx
  | cls (p : Char → Bool) (lo : Nat) (hi : Option Nat) : Rx
  | cat (r1 r2 : Rx) : Rx
  | alt (r1 r2 : Rx) : Rx

/-- Is the first character of `s` a word character (false for empty `s`)? -/
def headIsWord : List Char → Bool
  | [] => false
  | c :: _ => isWordChar c

/-- Python `\b`: the previous and next positions disagree on word-ness. -/
def boundaryOk (prevW : Bool) (s : List Char) : Bool := prevW != headIsWord s

/-- Length of the maximal prefix of `s` inside class `p`. -/
def clsRun (p : Char → Bool) : List Char → Nat
  | [] => 0
  | c :: cs => if p c then clsRun p cs + 1 else 0

/-- Word-ness of the last of the first `k` characters of `s`
(the word-ness state after consuming `k` characters, starting from `prevW`). -/
def lastWordness (prevW : Bool) (s : List Char) (k : Nat) : Bool :=
  if k = 0 then prevW else isWordChar (s.getD (k - 1) ' ')

/-- Character comparison, optionally case-insensitive (Python `re.IGNORECASE`). -/
def charEq (ci : Bool) (a b : Char) : Bool :=
  if ci then a.toLower == b.toLower else a == b

/-- Does `cs` (a literal) match a prefix of `s`, modulo case-insensitivity? -/
def strMatch (ci : Bool) : List Char → List Char → Bool
  | [], _ => true
  | _ :: _, [] => false
  | c :: cs, d :: ds => charEq ci c d && strMatch ci cs ds

/-- The descending list `[top, top-1, ..., lo]` (empty if `lo > top`):
the order in which a greedy repetition offers its lengths. -/
def downFrom (top lo : Nat) : List Nat :=
  (List.range' lo (top + 1 - lo)).reverse

/-- All ways `r` can match a prefix of `s`, in backtracking priority order
(the head is the match Python's engine selects at this position).  Each
result is the consumed length paired with the word-ness of the last
consumed character (`prevW` if nothing was consumed), which is the `\b`
context for whatever follows. -/
def matchLens : Rx → Bool → List Char → List (Nat × Bool)
  | .eps, prevW, _ => [(0, prevW)]
  | .wb, prevW, s => if boundaryOk prevW s then [(0, prevW)] else []
  | .lit ci c, _prevW, s =>
    match s with
    | [] => []
    | d :: _ => if charEq ci c d then [(1, isWordChar d)] else []
  | .str _ [], prevW, _s => [(0, prevW)]
  | .str ci (c :: cs), prevW, s =>
    if strMatch ci (c :: cs) s then
      [((c :: cs).length, lastWordness prevW s (c :: cs).length)]
    else []
  | .cls p lo hi, prevW, s =>
    let run := clsRun p s
    let top := match hi with | none => run | some h => min run h
    (downFrom top lo).map (fun k => (k, lastWordness prevW s k))
  | .cat r1 r2, prevW, s =>
    (matchLens r1 prevW s).flatMap (fun nw1 =>
      (matchLens r2 nw1.2 (s.drop nw1.1)).map (fun nw2 => (nw1.1 + nw2.1, nw2.2)))
  | .alt r1 r2, prevW, s => matchLens r1 prevW s ++ matchLens r2 prevW s

/-- The scanning loop of `re.sub` with explicit fuel (each step consumes at
least one character, so `s.length` fuel always suffices; see `subScan`). -/
def subScanF (r : Rx) (tok : List Char) : Nat → Bool → List Char → List Char
  | 0, _, s => s
  | _ + 1, _, [] => []
  | fuel + 1, prevW, c :: cs =>
    match (matchLens r prevW (c :: cs)).head? with
    | some (n + 1, w) => tok ++ subScanF r tok fuel w (cs.drop n)
    | _ => c :: subScanF r tok fuel (isWordChar c) cs

/-- `re.sub(r, tok, s)`: scan left to right, replace each leftmost
non-overlapping match by `tok`, resume after the match with the matched
text's final character as boundary context.  A (never occurring for the
masking rules) empty match is treated as no match to keep the scan moving. -/
def subScan (r : Rx) (tok : List Char) (prevW : Bool) (s : List Char) : List Char :=
  subScanF r tok s.length prevW s

/-- Sequential composition of literals. -/
def catL (rs : List Rx) : Rx := rs.foldr Rx.cat Rx.eps

/-- A regex that never matches (empty alternation base case). -/
def deadRx : Rx := Rx.cls (fun _ => false) 1 (some 1)

/-- Ordered alternation of a list of branches. -/
def altL (rs : List Rx) : Rx := rs.foldr Rx.alt deadRx

/-- `r?` (greedy option). -/
def Rx.opt (r : Rx) : Rx := Rx.alt r Rx.eps

/-- `\d{k}`. -/
def dEx (k : Nat) : Rx := Rx.cls Char.isDigit k (some k)

/-- `\d+`. -/
def dPlus : Rx := Rx.cls Char.isDigit 1 none

/-- `\s*`. -/
def wsStar : Rx := Rx.cls pyIsSpace 0 none

/-- `\s+`. -/
def wsPlus : Rx := Rx.cls pyIsSpace 1 none

/-- `[\w\.-]` (the e-mail local/domain class). -/
def emailCls (c : Char) : Bool := isWordChar c || c = '.' || c = '-'

/-- `[\s.-]` (phone separators). -/
def sepCls (c : Char) : Bool := pyIsSpace c || c = '.' || c = '-'

/-- `[A-Za-z0-9\s,.-]` (street-address middle class). -/
def addrCls (c : Char) : Bool :=
  c.isAlpha || c.isDigit || pyIsSpace c || c = ',' || c = '.' || c = '-'

/-- `[A-Za-z\s]` (city-name class). -/
def alphaSpaceCls (c : Char) : Bool := c.isAlpha || pyIsSpace c

/-- `re.sub(r'\b[\w\.-]+@[\w\.-]+\.\w+\b', '[EMAIL]', text)` -/
def rxEmail : Rx :=
  catL [Rx.wb, Rx.cls emailCls 1 none, Rx.lit false '@', Rx.cls emailCls 1 none,
        Rx.lit false '.', Rx.cls isWordChar 1 none, Rx.wb]

/-- `re.sub(r'\b(\+\d{1,2}\s?)?\(?\d{3}\)?[\s.-]?\d{3}[\s.-]?\d{4}\b', '[PHONE]', text)` -/
def rxPhone : Rx :=
  catL [Rx.wb,
        Rx.opt (catL [Rx.lit false '+', Rx.cls Char.isDigit 1 (some 2),
                      Rx.cls pyIsSpace 0 (some 1)]),
        Rx.opt (Rx.lit false '('), dEx 3, Rx.opt (Rx.lit false ')'),
        Rx.cls sepCls 0 (some 1), dEx 3, Rx.cls sepCls 0 (some 1), dEx 4, Rx.wb]

/-- `re.sub(r'\b\d{3}-\d{2}-\d{4}\b', '[SSN]', text)` -/
def rxSSN : Rx :=
  catL [Rx.wb, dEx 3, Rx.lit false '-', dEx 2, Rx.lit false '-', dEx 4, Rx.wb]

/-- The street-type alternation of the address rule, in source order
(`Street|St|Avenue|Ave|Road|Rd|Boulevard|Blvd|Lane|Ln|Drive|Dr|Court|Ct|Circle|Cir|Way|Parkway|Pkwy|Highway|Hwy|Suite|Ste|Unit|#`). -/
def streetAlt : Rx :=
  altL ([("Street"), ("St"), ("Avenue"), ("Ave"), ("Road"), ("Rd"),
         ("Boulevard"), ("Blvd"), ("Lane"), ("Ln"), ("Drive"), ("Dr"),
         ("Court"), ("Ct"), ("Circle"), ("Cir"), ("Way"), ("Parkway"),
         ("Pkwy"), ("Highway"), ("Hwy"), ("Suite"), ("Ste"), ("Unit"),
         ("#")].map (fun w => Rx.str true w.toList))

/-- The address rule (with `re.IGNORECASE`, under which `[A-Z]{2}` accepts any
two letters):
`\b\d+\s+([A-Za-z0-9\s,.-]+\s+)(Street|...|#)\.?\s*,?\s*([A-Za-z\s]+,\s*[A-Z]{2}\s*\d{5}(-\d{4})?)\b` -/
def rxAddress : Rx :=
  catL [Rx.wb, dPlus, wsPlus, Rx.cls addrCls 1 none, wsPlus, streetAlt,
        Rx.opt (Rx.lit false '.'), wsStar, Rx.opt (Rx.lit false ','), wsStar,
        Rx.cls alphaSpaceCls 1 none, Rx.lit false ',', wsStar,
        Rx.cls Char.isAlpha 2 (some 2), wsStar, dEx 5,
        Rx.opt (catL [Rx.lit false '-', dEx 4]), Rx.wb]

/-- `re.sub(r'\b\d{5}(-\d{4})?\b', '[ZIP]', text)` -/
def rxZip : Rx :=
  catL [Rx.wb, dEx 5, Rx.opt (catL [Rx.lit false '-', dEx 4]), Rx.wb]

/-- `re.sub(r'\b\d{5,10}\b', '[POLICY_NUMBER]', text)` -/
def rxPolicy : Rx := catL [Rx.wb, Rx.cls Char.isDigit 5 (some 10), Rx.wb]

/-- `(Jan|Feb|Mar|Apr|May|Jun|Jul|Aug|Sep|Oct|Nov|Dec)` (case-sensitive). -/
def monthAlt : Rx :=
  altL ([("Jan"), ("Feb"), ("Mar"), ("Apr"), ("May"), ("Jun"), ("Jul"),
         ("Aug"), ("Sep"), ("Oct"), ("Nov"), ("Dec")].map
        (fun w => Rx.str false w.toList))

/-- `re.sub(r'\b(Jan|...|Dec)[a-z]* \d{1,2},? \d{4}\b', '[DATE]', text)` -/
def rxDateName : Rx :=
  catL [Rx.wb, monthAlt, Rx.cls Char.isLower 0 none, Rx.lit false ' ',
        Rx.cls Char.isDigit 1 (some 2), Rx.opt (Rx.lit false ','),
        Rx.lit false ' ', dEx 4, Rx.wb]

/-- `re.sub(r'\b\d{1,2}/\d{1,2}/\d{2,4}\b', '[DATE]', text)` -/
def rxDateNum : Rx :=
  catL [Rx.wb, Rx.cls Char.isDigit 1 (some 2), Rx.lit false '/',
        Rx.cls Char.isDigit 1 (some 2), Rx.lit false '/',
        Rx.cls Char.isDigit 2 (some 4), Rx.wb]

/-- `re.sub(r'\b\d+\s*(day|week|month|year)s?\b', '[TIME_PERIOD]', text)` -/
def rxTime : Rx :=
  catL [Rx.wb, dPlus, wsStar,
        altL ([("day"), ("week"), ("month"), ("year")].map
              (fun w => Rx.str false w.toList)),
        Rx.opt (Rx.lit false 's'), Rx.wb]

/-- `re.sub(rf'\b{company}\b', '[COMPANY_NAME]', text, flags=re.IGNORECASE)` -/
def rxCompany (company : String) : Rx :=
  catL [Rx.wb, Rx.str true company.toList, Rx.wb]

/-- `ContentMasker.company_names`. -/
def companyNames : List String := [("Unum"), ("Hartford"), ("Lincoln")]

/-- The ten masking rules of `ContentMasker.mask_sensitive_info`, in source
order, paired with their replacement tokens. -/
def maskRules : List (Rx × List Char) :=
  [(rxEmail, ("[EMAIL]").toList),
   (rxPhone, ("[PHONE]").toList),
   (rxSSN, ("[SSN]").toList),
   (rxAddress, ("[ADDRESS]").toList),
   (rxZip, ("[ZIP]").toList),
   (rxPolicy, ("[POLICY_NUMBER]").toList),
   (rxDateName, ("[DATE]").toList),
   (rxDateNum, ("[DATE]").toList),
   (rxTime, ("[TIME_PERIOD]").toList)] ++
  companyNames.map (fun company => (rxCompany company, ("[COMPANY_NAME]").toList))

/-- `ContentMasker.mask_sensitive_info` on character lists. -/
def maskChars (s : List Char) : List Char :=
  maskRules.foldl (fun acc rt => subScan rt.1 rt.2 false acc) s

/-- `ContentMasker.mask_sensitive_info`. -/
def mask_sensitive_info (s : String) : String :=
  String.mk (maskChars s.toList)

/-! ## Document structure (the external parser's pages → blocks → lines → spans)

Dict keys that the code reads with `.get` (and that the parser contract marks
optional) are `Option` fields; `span["text"]` is a direct (contract-required)
access, so `text` is a plain field.  Python `IndexError`s surface as
`Except.error`. -/

/-- One text span: `{"text": ..., "size": ..., "flags": ...}`. -/
structure Span where
  text : String
  size : Option Int
  flags : Option Nat
deriving Repr, DecidableEq

/-- One line: `{"spans": [...]}`, the `"spans"` key possibly missing. -/
structure Line where
  spans : Option (List Span)
deriving Repr, DecidableEq

/-- One block: `{"lines": [...]}`, the `"lines"` key possibly missing. -/
structure Block where
  lines : Option (List Line)
deriving Repr, DecidableEq

/-- The empty dict `{}` used by the source as a default line (`.get("lines", [{}])`). -/
def defaultLine : Line := ⟨none⟩

/-- The empty dict `{}` used by the source as a default span (`.get("spans", [{}])`). -/
def defaultSpan : Span := ⟨(""), none, none⟩

/-- Python `str.split(sep)` for a one-character separator: split at every
occurrence, keeping empty pieces. -/
def pySplitCh (sep : Char) (s : String) : List String :=
  (s.toList.splitOnP (fun c => c = sep)).map String.mk

/-- Python `str.endswith(suffix)`. -/
def pyEndsWith (s suffix : String) : Bool :=
  suffix.toList.isSuffixOf s.toList

/-- Python `str.startswith(prefix)`. -/
def pyStartsWith (s pfx : String) : Bool :=
  pfx.toList.isPrefixOf s.toList

/-- Python slicing `s[n:]`. -/
def pyDrop (s : String) (n : Nat) : String := String.mk (s.toList.drop n)

/-- Python `str.lower()` on ASCII text. -/
def pyLower (s : String) : String := String.mk (s.toList.map Char.toLower)

/-- Scanning loop of Python `str.replace` (non-overlapping, left to right);
`s.length` fuel suffices since each step consumes at least one character. -/
def pyReplaceF (pat repl : List Char) : Nat → List Char → List Char
  | 0, s => s
  | _ + 1, [] => []
  | fuel + 1, c :: cs =>
    if pat.isPrefixOf (c :: cs) && !pat.isEmpty then
      repl ++ pyReplaceF pat repl fuel ((c :: cs).drop pat.length)
    else c :: pyReplaceF pat repl fuel cs

/-- Python `str.replace(pat, repl)` (for the non-empty patterns used here). -/
def pyReplace (s pat repl : String) : String :=
  String.mk (pyReplaceF pat.toList repl.toList s.toList.length s.toList)

/-- Stable insertion of `x` into `l` (before the first element not `≤ x`). -/
def insertLe {α : Type} (le : α → α → Bool) (x : α) : List α → List α
  | [] => [x]
  | y :: ys => if le y x then y :: insertLe le x ys else x :: y :: ys

/-- Python `sorted(l, key=...)` as a stable insertion sort (`sorted` is
stable; for a total preorder any stable sort computes the same list). -/
def pySorted {α : Type} (le : α → α → Bool) (l : List α) : List α :=
  l.foldl (fun acc x => insertLe le x acc) []

/-- Python `str.strip()` (ASCII whitespace). -/
def pyStrip (s : String) : String :=
  String.mk (((s.toList.dropWhile pyIsSpace).reverse.dropWhile pyIsSpace).reverse)

/-- Python `str.rstrip()` (ASCII whitespace). -/
def pyRstrip (s : String) : String :=
  String.mk ((s.toList.reverse.dropWhile pyIsSpace).reverse)

/-- Python `str.isupper()` on ASCII text: at least one cased character and no
lowercase one. -/
def pyIsUpper (s : String) : Bool :=
  s.toList.any (fun c => c.isAlpha) && s.toList.all (fun c => !c.isLower)

/-- Python substring test `needle in hay`. -/
def strContains (hay needle : String) : Bool :=
  decide (needle.toList <:+: hay.toList)

/-- `" ".join(...)`. -/
def joinSpace (ps : List String) : String := String.intercalate (" ") ps

/-- The text of one line: `" ".join(span["text"] for span in line["spans"]).strip()`. -/
def spansText (spans : List Span) : String :=
  pyStrip (joinSpace (spans.map (fun sp => sp.text)))

/-- Does the (stripped, in context non-empty) text end a sentence:
`text.rstrip()[-1] in '.!?'`. -/
def sentenceEnd (t : String) : Bool :=
  match (pyRstrip t).toList.getLast? with
  | some c => c = '.' || c = '!' || c = '?'
  | none => false

/-- The sentence-grouping loop of `PDFProcessor._get_block_text`:
state is (collected sentences, current sentence fragments). -/
def assembleLines : List Line → List String → List String → List String
  | [], sentences, current =>
    if current.isEmpty then sentences else sentences ++ [joinSpace current]
  | l :: ls, sentences, current =>
    match l.spans with
    | none => assembleLines ls sentences current
    | some [] => assembleLines ls sentences current
    | some (sp :: sps) =>
      let text := spansText (sp :: sps)
      if text = ("") then assembleLines ls sentences current
      else if sentenceEnd text then
        assembleLines ls (sentences ++ [joinSpace (current ++ [text])]) []
      else assembleLines ls sentences (current ++ [text])

/-- `PDFProcessor._get_block_text`. -/
def getBlockText (b : Block) : String :=
  match b.lines with
  | none => ("")
  | some lines => joinSpace (assembleLines lines [] [])

/-- `PDFProcessor._is_header`.  The `spans[0]` subscript raises `IndexError`
when the span list is empty and the earlier disjuncts did not short-circuit. -/
def isHeader (text : String) (spans : List Span) : Except String Bool :=
  if text = ("") then Except.ok false
  else if pyIsUpper text then Except.ok true
  else if pyEndsWith (pyRstrip text) (":") then Except.ok true
  else
    match spans.head? with
    | none => Except.error ("IndexError: list index out of range")
    | some sp0 => Except.ok (decide (sp0.size.getD 0 > 12) || (sp0.flags.getD 0 &&& 16 != 0))

/-- The header check applied to a following block inside
`PDFProcessor._find_keyword_context`:
`self._is_header(next_block_text.split('\n')[0],
  blocks[current_block_idx + i].get("lines", [{}])[0].get("spans", [{}]))`. -/
def forwardHeaderCheck (nb : Block) (t : String) : Except String Bool :=
  let firstLine := (pySplitCh '\n' t).headD ("")
  let linesD := nb.lines.getD [defaultLine]
  match linesD.head? with
  | none => Except.error ("IndexError: list index out of range")
  | some l0 => isHeader firstLine (l0.spans.getD [defaultSpan])

/-- The forward-extension loop `for i in range(1, 4)` of
`PDFProcessor._find_keyword_context`, returning the appended parts.
`fuel` counts the remaining iterations (3 at the start, `i` starts at 1). -/
def forwardParts (blocks : List Block) (idx : Nat) : Nat → Nat → Except String (List String)
  | _, 0 => Except.ok []
  | i, fuel + 1 =>
    if idx + i < blocks.length then
      let nb := blocks.getD (idx + i) ⟨none⟩
      let t := getBlockText nb
      if t = ("") then forwardParts blocks idx (i + 1) fuel
      else
        match forwardHeaderCheck nb t with
        | Except.error e => Except.error e
        | Except.ok true => Except.ok [t]
        | Except.ok false =>
          match forwardParts blocks idx (i + 1) fuel with
          | Except.error e => Except.error e
          | Except.ok rest => Except.ok (t :: rest)
    else forwardParts blocks idx (i + 1) fuel

/-- `PDFProcessor._find_keyword_context`. -/
def findKeywordContext (blocks : List Block) (keyword : String) (idx : Nat) :
    Except String (Option String) :=
  match blocks.get? idx with
  | none => Except.error ("IndexError: list index out of range")
  | some currentBlock =>
    let currentText := getBlockText currentBlock
    if ¬ strContains currentText keyword then Except.ok none
    else
      let prevParts :=
        if idx > 0 then
          let previousText := getBlockText (blocks.getD (idx - 1) ⟨none⟩)
          if previousText = ("") then [] else [previousText]
        else []
      match forwardParts blocks idx 1 3 with
      | Except.error e => Except.error e
      | Except.ok nextParts =>
        Except.ok (some (joinSpace (prevParts ++ [currentText] ++ nextParts)))

/-! ## Document ids, number-to-words, findings -/

/-- Decimal digit characters with explicit fuel (any `fuel > n` suffices
since `n / 10 < n`). -/
def natDecimalF : Nat → Nat → List Char
  | 0, _ => []
  | fuel + 1, n =>
    if n < 10 then [Char.ofNat (48 + n)]
    else natDecimalF fuel (n / 10) ++ [Char.ofNat (48 + n % 10)]

/-- Decimal digit characters of `n` (Python `str(n)`). -/
def natDecimal (n : Nat) : List Char := natDecimalF (n + 1) n

/-- Python `str(n)` for a natural number. -/
def natToStr (n : Nat) : String := String.mk (natDecimal n)

/-- Python `f"{n:03d}"`: the decimal digits zero-padded to width 3. -/
def pad3 (n : Nat) : String :=
  String.mk (List.replicate (3 - (natDecimal n).length) '0' ++ natDecimal n)

/-- The id string produced by `PDFProcessor._generate_doc_id` for counter
value `n`: `f"doc_{n:03d}"`. -/
def docIdOf (n : Nat) : String := ("doc_") ++ pad3 n

/-- `PDFProcessor._generate_doc_id` as a state transition on `file_counter`. -/
def genDocId (counter : Nat) : String × Nat := (docIdOf counter, counter + 1)

/-- The ids handed out by `k` successive `_generate_doc_id` calls starting
from counter value `c`. -/
def runIds (k c : Nat) : List String :=
  match k with
  | 0 => []
  | k + 1 => (genDocId c).1 :: runIds k (genDocId c).2

/-- Python `str.isdigit()` on ASCII text. -/
def pyIsDigitStr (s : String) : Bool :=
  !s.isEmpty && s.toList.all (fun c => c.isDigit)

/-- Python `int(s)` on a digit string. -/
def toNatDec (s : String) : Nat :=
  s.toList.foldl (fun acc c => 10 * acc + (c.toNat - 48)) 0

/-- Python `str.split()` (no argument): split on whitespace runs, dropping
empty pieces. -/
def pySplitWs (s : String) : List String :=
  (s.toList.splitOnP pyIsSpace).map String.mk |>.filter (fun w => w ≠ (""))

/-- `PDFProcessor._convert_numbers_to_words`; `n2w` is the external
`num2words` library function. -/
def convertNumbersToWords (n2w : Nat → String) (text : String) : String :=
  joinSpace ((pySplitWs text).map
    (fun w => if pyIsDigitStr w then n2w (toNatDec w) else w))

/-- A `Finding` record, i.e. the metadata dict built by
`PDFProcessor._create_metadata` (flattened: `location` and `content`
sub-dicts inlined). -/
structure Finding where
  source_file : String
  page_number : String
  line_number : String
  selected_text : String
  full_extracted_part : String
  extraction_timestamp : String
deriving Repr, DecidableEq

/-- `PDFProcessor._create_metadata`; `now` is the external
`datetime.now().isoformat()` value. -/
def createMetadata (n2w : Nat → String) (now : String) (docId : String)
    (page line : Nat) (selectedText fullContent : String) : Finding :=
  { source_file := docId
    page_number := convertNumbersToWords n2w (natToStr page)
    line_number := convertNumbersToWords n2w (natToStr line)
    selected_text := mask_sensitive_info selectedText
    full_extracted_part := mask_sensitive_info fullContent
    extraction_timestamp := now }

/-- The findings dict `keyword → list of findings` with Python dict insertion
order. -/
abbrev Findings : Type := List (String × List Finding)

/-- `d[k].append(x)` on an insertion-ordered dict of lists, preceded by
`if k not in d: d[k] = []`: extend the first entry with key `k`, or append
a fresh singleton entry. -/
def appendAssoc {α : Type} (m : List (String × List α)) (k : String) (x : α) :
    List (String × List α) :=
  match m with
  | [] => [(k, [x])]
  | p :: ps => if p.1 = k then (p.1, p.2 ++ [x]) :: ps else p :: appendAssoc ps k x

/-- `findings[keyword].append(f)` preceded by
`if keyword not in findings: findings[keyword] = []`. -/
def addFinding (fs : Findings) (kw : String) (f : Finding) : Findings :=
  appendAssoc fs kw f

/-- The keyword loop of `process_single_pdf` for one line of text. -/
def processLineKeywords (blocks : List Block) (keywords : List String)
    (n2w : Nat → String) (now docId : String) (pageNum blockNum lineNum : Nat)
    (text : String) (fs : Findings) : Except String Findings :=
  match keywords with
  | [] => Except.ok fs
  | kw :: kws =>
    match findKeywordContext blocks kw blockNum with
    | Except.error e => Except.error e
    | Except.ok ctx =>
      let fs' :=
        match ctx with
        | some c =>
          if c = ("") then fs
          else addFinding fs kw (createMetadata n2w now docId pageNum lineNum text c)
        | none => fs
      processLineKeywords blocks kws n2w now docId pageNum blockNum lineNum text fs'

/-- The line loop of `process_single_pdf` (`enumerate(block["lines"], 1)`). -/
def processBlockLines (blocks : List Block) (keywords : List String)
    (n2w : Nat → String) (now docId : String) (pageNum blockNum : Nat) :
    List Line → Nat → Findings → Except String Findings
  | [], _, fs => Except.ok fs
  | l :: ls, lineNum, fs =>
    match l.spans with
    | none => processBlockLines blocks keywords n2w now docId pageNum blockNum ls (lineNum + 1) fs
    | some [] => processBlockLines blocks keywords n2w now docId pageNum blockNum ls (lineNum + 1) fs
    | some (sp :: sps) =>
      let text := pyStrip (joinSpace ((sp :: sps).map (fun x => x.text)))
      match processLineKeywords blocks keywords n2w now docId pageNum blockNum lineNum text fs with
      | Except.error e => Except.error e
      | Except.ok fs' =>
        processBlockLines blocks keywords n2w now docId pageNum blockNum ls (lineNum + 1) fs'

/-- The block loop of `process_single_pdf` (`enumerate(blocks)`), skipping
blocks without a `"lines"` key. -/
def processPageBlocks (blocks : List Block) (keywords : List String)
    (n2w : Nat → String) (now docId : String) (pageNum : Nat) :
    List Block → Nat → Findings → Except String Findings
  | [], _, fs => Except.ok fs
  | b :: bs, blockNum, fs =>
    match b.lines with
    | none => processPageBlocks blocks keywords n2w now docId pageNum bs (blockNum + 1) fs
    | some lines =>
      match processBlockLines blocks keywords n2w now docId pageNum blockNum lines 1 fs with
      | Except.error e => Except.error e
      | Except.ok fs' =>
        processPageBlocks blocks keywords n2w now docId pageNum bs (blockNum + 1) fs'

/-- The page loop of `process_single_pdf` (`enumerate(doc, 1)`); a page is its
block list. -/
def processPages (keywords : List String) (n2w : Nat → String) (now docId : String) :
    List (List Block) → Nat → Findings → Except String Findings
  | [], _, fs => Except.ok fs
  | pg :: pgs, pageNum, fs =>
    match processPageBlocks pg keywords n2w now docId pageNum pg 0 fs with
    | Except.error e => Except.error e
    | Except.ok fs' => processPages keywords n2w now docId pgs (pageNum + 1) fs'

/-- `PDFProcessor.process_single_pdf`: assigns a fresh document id and scans
every page/block/line/keyword; returns the findings and the updated
`file_counter`.  A raised `IndexError` from the context search propagates. -/
def process_single_pdf (keywords : List String) (n2w : Nat → String)
    (now : String) (counter : Nat) (doc : List (List Block)) :
    Except String (Findings × Nat) :=
  let (docId, counter') := genDocId counter
  match processPages keywords n2w now docId doc 1 [] with
  | Except.error e => Except.error e
  | Except.ok fs => Except.ok (fs, counter')

/-! ## QA generation (src/processing/qa_generator.py) -/

/-- The two prompt variants (`PromptType = Literal['default', 'alternative']`). -/
inductive PromptType where
  | dflt : PromptType
  | alternative : PromptType
deriving Repr, DecidableEq

/-- The string value of a prompt type. -/
def PromptType.name : PromptType → String
  | .dflt => ("default")
  | .alternative => ("alternative")

/-- One generated question/answer pair. -/
structure QAPair where
  question : String
  answer : String
deriving Repr, DecidableEq

/-- Python truthiness of an optional string (`None` and `''` are falsy). -/
def optTruthy (o : Option String) : Bool := o.getD ("") ≠ ("")

/-- The per-variant acceptance rule of `QAGenerator.parse_qa_response`:
`prompt_type == 'alternative' or (prompt_type == 'default' and
current_q.endswith('?') and ('based on' in current_q or 'as per' in current_q)
and current_a.endswith(')'))`. -/
def validPair (pt : PromptType) (q a : String) : Bool :=
  match pt with
  | .alternative => true
  | .dflt =>
    pyEndsWith q ("?") && (strContains q ("based on") || strContains q ("as per")) &&
    pyEndsWith a (")")

/-- Flush a pending pair: appended only when both parts are truthy and the
variant's rule accepts them (`if current_q and current_a: if ...`). -/
def flushPair (pt : PromptType) (q a : Option String) : List QAPair :=
  match q, a with
  | some qs, some an =>
    if qs ≠ ("") && an ≠ ("") && validPair pt qs an then [⟨qs, an⟩] else []
  | _, _ => []

/-- The non-empty stripped lines of the response
(`[line.strip() for line in response_text.split('\n') if line.strip()]`). -/
def parseLines (t : String) : List String :=
  ((pySplitCh '\n' t).map pyStrip).filter (fun l => l ≠ (""))

/-- The line loop of `QAGenerator.parse_qa_response` with its pending
question/answer state. -/
def parseLoop (pt : PromptType) :
    List String → Option String → Option String → List QAPair → List QAPair
  | [], q, a, acc => acc ++ flushPair pt q a
  | l :: ls, q, a, acc =>
    if pyStartsWith l ("Q:") then
      parseLoop pt ls (some (pyStrip (pyDrop l 2))) none (acc ++ flushPair pt q a)
    else if pyStartsWith l ("A:") then
      parseLoop pt ls q (some (pyStrip (pyDrop l 2))) acc
    else parseLoop pt ls q a acc

/-- `QAGenerator.parse_qa_response`. -/
def parse_qa_response (t : String) (pt : PromptType) : List QAPair :=
  parseLoop pt (parseLines t) none none []

/-- A pending pair as a validation-free candidate: kept exactly when both
parts are truthy (the `if current_q and current_a` test). -/
def scanFlush (q a : Option String) : List (String × String) :=
  match q, a with
  | some qs, some an => if qs ≠ ("") && an ≠ ("") then [(qs, an)] else []
  | _, _ => []

/-- The candidate pairs the line scan forms, before any validation: the same
loop with every flushed pair kept.  (Specification-side companion used to
state variant asymmetry.) -/
def scanLoop : List String → Option String → Option String →
    List (String × String) → List (String × String)
  | [], q, a, acc => acc ++ scanFlush q a
  | l :: ls, q, a, acc =>
    if pyStartsWith l ("Q:") then
      scanLoop ls (some (pyStrip (pyDrop l 2))) none (acc ++ scanFlush q a)
    else if pyStartsWith l ("A:") then
      scanLoop ls q (some (pyStrip (pyDrop l 2))) acc
    else scanLoop ls q a acc

/-- The candidate (question, answer) pairs of a response text. -/
def scannedPairs (t : String) : List (String × String) :=
  scanLoop (parseLines t) none none []

/-! ### Prompt construction (`QAGenerator.generate_prompt`) -/

/-- The `'content'` sub-dict of an occurrence, with its `.get`-defaulted keys. -/
structure OccContent where
  selected_text : Option String
  full_extracted_part : Option String
deriving Repr, DecidableEq

/-- One occurrence dict as `generate_prompt` reads it.  `page` is `some p`
exactly when `'location' in occurrence and 'page_number' in
occurrence['location']`; `content` is present when `'content' in occurrence`. -/
structure Occurrence where
  page : Option String
  content : Option OccContent
deriving Repr, DecidableEq

/-- The distinct page values in occurrence order (the set `pages`; Python's
set iteration order is unspecified, `sorted` below determinizes it up to
equal sort keys). -/
def pagesOf (content : List Occurrence) : List String :=
  content.foldl
    (fun acc occ =>
      match occ.page with
      | some p => if acc.contains p then acc else acc ++ [p]
      | none => acc) []

/-- The merged occurrence texts: full context if non-empty after stripping,
else the stripped selected text, skipping empty results. -/
def mergedContentOf (content : List Occurrence) : List String :=
  content.foldl
    (fun acc occ =>
      match occ.content with
      | some c =>
        let selectedText := pyStrip (c.selected_text.getD (""))
        let fullContext := pyStrip (c.full_extracted_part.getD (""))
        let contentText := if fullContext ≠ ("") then fullContext else selectedText
        if contentText ≠ ("") then acc ++ [contentText] else acc
      | none => acc) []

/-- Python string `≤` (code-point lexicographic). -/
def pyStrLe (a b : String) : Bool := decide (a ≤ b)

/-- `sorted(pages, key=lambda x: int(str(x)) if str(x).isdigit() else x)`.
All-numeric values sort by integer key, all-non-numeric by string key; a mix
of the two makes Python's sort compare an `int` with a `str` and raise
`TypeError`. -/
def sortPages (ps : List String) : Except String (List String) :=
  if ps.all (fun p => pyIsDigitStr p) then
    Except.ok (pySorted (fun a b => toNatDec a ≤ toNatDec b) ps)
  else if ps.all (fun p => !pyIsDigitStr p) then
    Except.ok (pySorted pyStrLe ps)
  else
    Except.error ("TypeError: '<' not supported between instances of 'str' and 'int'")

/-- `", ".join(sorted(pages, key=...)[:2])`. -/
def computeFormattedPages (content : List Occurrence) : Except String String :=
  match sortPages (pagesOf content) with
  | Except.error e => Except.error e
  | Except.ok sorted => Except.ok (String.intercalate (", ") (sorted.take 2))

/-- Python `str.format` restricted to the four named fields the template
uses (simultaneous-substitution edge cases of `format` do not arise for the
fields' values). -/
def pyFormat4 (template keyword policyDocName formattedPages content : String) : String :=
  pyReplace (pyReplace (pyReplace (pyReplace template ("{keyword}") keyword)
    ("{policy_doc_name}") policyDocName) ("{formatted_pages}") formattedPages)
    ("{content}") content

/-- `self.config.prompts[prompt_type]`: dict subscript, `KeyError` if absent. -/
def promptTemplate (prompts : List (String × String)) (pt : PromptType) :
    Except String String :=
  match prompts.lookup pt.name with
  | some t => Except.ok t
  | none => Except.error (("KeyError: ") ++ pt.name)

/-- `QAGenerator.generate_prompt`. -/
def generate_prompt (prompts : List (String × String)) (policyDocName keyword : String)
    (content : List Occurrence) (pt : PromptType) : Except String String :=
  match computeFormattedPages content with
  | Except.error e => Except.error e
  | Except.ok formattedPages =>
    match promptTemplate prompts pt with
    | Except.error e => Except.error e
    | Except.ok template =>
      Except.ok (pyFormat4 template keyword policyDocName formattedPages
        (String.intercalate (" ") (mergedContentOf content)))

/-! ### The retry loop (`QAGenerator.generate_qa_pairs`) -/

/-- One attempt's externally-determined outcome: an HTTP reply (status code
and the `response` field of the JSON body), or a raised
timeout/connection/other error. -/
inductive AttemptOutcome where
  | response (status : Nat) (body : String) : AttemptOutcome
  | timeout : AttemptOutcome
  | connectionError : AttemptOutcome
  | otherError (msg : String) : AttemptOutcome
deriving Repr, DecidableEq

/-- Does the attempt fail (anything except a 200 reply whose stripped
`response` text is non-empty)? -/
def attemptFails : AttemptOutcome → Bool
  | .response status body => status ≠ 200 || pyStrip body = ("")
  | _ => true

/-- The `while retry_count < retries` loop of `generate_qa_pairs`.
`fuel = retries - rc` counts the remaining iterations; returns the parsed
pairs, the backoff sleeps issued (`time.sleep(retry_delay * (retry_count + 1))`
after the increment), and the number of requests issued. -/
def genAttemptLoop (delay : Nat) (pt : PromptType) (oracle : Nat → AttemptOutcome) :
    Nat → Nat → List Nat → Nat → List QAPair × List Nat × Nat
  | _, 0, sleeps, attempts => ([], sleeps, attempts)
  | rc, fuel + 1, sleeps, attempts =>
    let next :=
      if 1 ≤ fuel then
        genAttemptLoop delay pt oracle (rc + 1) fuel
          (sleeps ++ [delay * (rc + 2)]) (attempts + 1)
      else ([], sleeps, attempts + 1)
    match oracle rc with
    | .response status body =>
      if status = 200 then
        let qaText := pyStrip body
        if qaText ≠ ("") then (parse_qa_response qaText pt, sleeps, attempts + 1)
        else next
      else next
    | _ => next

/-- `QAGenerator.generate_qa_pairs`: empty occurrences short-circuit to `[]`;
otherwise the prompt is built (its errors propagate) and the retry loop runs. -/
def generate_qa_pairs (prompts : List (String × String)) (retries delay : Nat)
    (oracle : Nat → AttemptOutcome) (policyDocName keyword : String)
    (occurrences : List Occurrence) (pt : PromptType) :
    Except String (List QAPair × List Nat × Nat) :=
  if occurrences.isEmpty then Except.ok ([], [], 0)
  else
    match generate_prompt prompts policyDocName keyword occurrences pt with
    | Except.error e => Except.error e
    | Except.ok _prompt => Except.ok (genAttemptLoop delay pt oracle 0 retries [] 0)

/-! ### The per-document driver (`QAGenerator.process_document_keywords`) -/

/-- Python `int(s)` on a string: digits only in our modelling, `ValueError`
otherwise. -/
def pyInt (s : String) : Except String Nat :=
  if pyIsDigitStr s then Except.ok (toNatDec s)
  else Except.error (("ValueError: invalid literal for int: ") ++ s)

/-- `QAGenerator._get_policy_doc_name`:
`num = int(doc_id.split('_')[1]); return f"[POLICY_DOC_{num:03d}]"`. -/
def getPolicyDocName (docId : String) : Except String String :=
  match (pySplitCh '_' docId).get? 1 with
  | none => Except.error ("IndexError: list index out of range")
  | some piece =>
    match pyInt piece with
    | Except.error e => Except.error e
    | Except.ok num => Except.ok ((("[POLICY_DOC_")) ++ pad3 num ++ ("]"))

/-- The `{qa_pairs, content, original_filename}` bundle stored per keyword. -/
structure KeywordBundle where
  qa_pairs : List QAPair
  content : List Occurrence
  original_filename : String
deriving Repr, DecidableEq

/-- Assoc update-or-insert (`d[k] = v` on an insertion-ordered dict):
overwrite the first entry with key `k`, or append. -/
def setAssoc {β : Type} (m : List (String × β)) (k : String) (v : β) :
    List (String × β) :=
  match m with
  | [] => [(k, v)]
  | p :: ps => if p.1 = k then (k, v) :: ps else p :: setAssoc ps k v

/-- `set.add` (insertion-ordered model of the checkpoint set). -/
def setAdd (l : List String) (k : String) : List String :=
  if l.contains k then l else l ++ [k]

/-- The mutable state `process_document_keywords` touches: the checkpoint
completed-set `processed_sections` and the prompt type's output manager
(`qa_text`, `qa_json`; `doc_stats` and the file writes of
`save_doc_outputs` are I/O-only and carry no further control flow). -/
structure PdkState where
  processed_sections : List String
  qa_text : List (String × List String)
  qa_json : List (String × List (String × KeywordBundle))
deriving Repr, DecidableEq

/-- `QAOutputManager.add_qa_pair`. -/
def addQaPair (st : PdkState) (docId entry : String) : PdkState :=
  { st with qa_text := appendAssoc st.qa_text docId entry }

/-- `QAOutputManager.add_keyword_content`. -/
def addKeywordContent (st : PdkState) (policyDocName keyword : String)
    (qaPairs : List QAPair) (content : List Occurrence) (originalFilename : String) :
    PdkState :=
  let existing := (st.qa_json.lookup policyDocName).getD []
  { st with
    qa_json := setAssoc st.qa_json policyDocName
      (setAssoc existing keyword ⟨qaPairs, content, originalFilename⟩) }

/-- The findings dict lookup `findings[keyword]` (called under a
`keyword in findings` guard). -/
def findingsGet (findings : List (String × List Occurrence)) (kw : String) :
    List Occurrence :=
  (findings.lookup kw).getD []

/-- The keyword loop of `QAGenerator.process_document_keywords`.  Also
returns the trace of generation-service submissions as
(checkpoint key, number of requests issued) pairs. -/
def pdkLoop (prompts : List (String × String)) (retries delay : Nat)
    (oracle : String → Nat → AttemptOutcome) (docId policyDocName : String)
    (findings : List (String × List Occurrence)) (originalFilename : String)
    (pt : PromptType) :
    List String → PdkState → List (String × Nat) →
    Except String (PdkState × List (String × Nat))
  | [], st, trace => Except.ok (st, trace)
  | kw :: kws, st, trace =>
    if ¬ (findings.map Prod.fst).contains kw then
      pdkLoop prompts retries delay oracle docId policyDocName findings
        originalFilename pt kws st trace
    else
      let checkpointKey := docId ++ ("|") ++ kw ++ ("|") ++ pt.name
      if st.processed_sections.contains checkpointKey then
        pdkLoop prompts retries delay oracle docId policyDocName findings
          originalFilename pt kws st trace
      else
        let occurrences := findingsGet findings kw
        if occurrences.isEmpty then
          pdkLoop prompts retries delay oracle docId policyDocName findings
            originalFilename pt kws st trace
        else
          match generate_qa_pairs prompts retries delay (oracle checkpointKey)
              policyDocName kw occurrences pt with
          | Except.error e => Except.error e
          | Except.ok (qaPairs, _sleeps, attempts) =>
          let trace' := trace ++ [(checkpointKey, attempts)]
          if qaPairs.isEmpty then
            pdkLoop prompts retries delay oracle docId policyDocName findings
              originalFilename pt kws st trace'
          else
            let st' := addKeywordContent st policyDocName kw qaPairs occurrences
              originalFilename
            let st'' := qaPairs.foldl
              (fun s qa => addQaPair s docId
                ((("Q: ")) ++ qa.question ++ ("\nA: ") ++ qa.answer)) st'
            let st''' := { st'' with
              processed_sections := setAdd st''.processed_sections checkpointKey }
            pdkLoop prompts retries delay oracle docId policyDocName findings
              originalFilename pt kws st''' trace'

/-- `QAGenerator.process_document_keywords` (the `save_doc_outputs` call at
the end writes files and statistics only). -/
def process_document_keywords (cfgKeywords : List String)
    (prompts : List (String × String)) (retries delay : Nat)
    (oracle : String → Nat → AttemptOutcome) (docId : String)
    (findings : List (String × List Occurrence)) (originalFilename : String)
    (pt : PromptType) (st : PdkState) :
    Except String (PdkState × List (String × Nat)) :=
  match getPolicyDocName docId with
  | Except.error e => Except.error e
  | Except.ok policyDocName =>
    pdkLoop prompts retries delay oracle docId policyDocName findings
      originalFilename pt cfgKeywords st []

/-! ## Configuration and the pipeline entry point
(src/utils/config_manager.py, src/utils/storage.py, src/main.py) -/

/-- The storage section of the configuration (fields the validator and the
factory read). -/
structure StorageConfig where
  provider : String
  project_id : Option String
  bucket_name : Option String
  credentials_path : Option String
deriving Repr, DecidableEq

/-- The parsed configuration fields the pipeline reads. -/
structure Config where
  keywords : List String
  prompts : List (String × String)
  storage : StorageConfig
  ollama_retries : Nat
  ollama_retry_delay : Nat
deriving Repr, DecidableEq

/-- `ConfigurationManager.validate`: every raised `ValueError` is caught and
turned into `False`. -/
def configValidate (c : Config) : Bool :=
  if c.keywords.isEmpty then false
  else if (c.prompts.lookup ("default")).getD ("") = ("") then false
  else if ¬ (c.storage.provider = ("local") ∨ c.storage.provider = ("gcp")) then false
  else if c.storage.provider = ("gcp") &&
          (!optTruthy c.storage.project_id || !optTruthy c.storage.bucket_name) then false
  else true

/-- A constructed storage provider (`LocalStorageProvider` /
`GCPStorageProvider`). -/
inductive Provider where
  | localP : Provider
  | gcpP (projectId bucketName : String) (credentialsPath : Option String) : Provider
deriving Repr, DecidableEq

/-- `StorageFactory.create_provider`: raises `ValueError` for an unsupported
provider, or for `gcp` without project/bucket. -/
def createProvider (sc : StorageConfig) : Except String Provider :=
  let p := pyLower sc.provider
  if p = ("local") then Except.ok Provider.localP
  else if p = ("gcp") then
    if !optTruthy sc.project_id || !optTruthy sc.bucket_name then
      Except.error ("ValueError: GCP storage requires project_id and bucket_name")
    else Except.ok (Provider.gcpP (sc.project_id.getD ("")) (sc.bucket_name.getD (""))
                    sc.credentials_path)
  else Except.error (("ValueError: Unsupported storage provider: ") ++ p)

/-- Observable pipeline operations: a document entering extraction
(`process_single_pdf` invoked), or a generation submission for a processing
unit (with the number of HTTP requests it issued). -/
inductive RunEvent where
  | extraction (path : String) : RunEvent
  | generation (key : String) (attempts : Nat) : RunEvent
deriving Repr, DecidableEq

/-- View of an extraction `Finding` as the occurrence dict `generate_prompt`
reads (the same dict in Python). -/
def findingToOccurrence (f : Finding) : Occurrence :=
  ⟨some f.page_number, some ⟨some f.selected_text, some f.full_extracted_part⟩⟩

/-- The findings map with its records viewed as occurrences. -/
def findingsToOcc (fs : Findings) : List (String × List Occurrence) :=
  fs.map (fun p => (p.1, p.2.map findingToOccurrence))

/-- `QAGenerator.process_content` on a single-file result (the findings dict
produced by `process_single_pdf`): empty input returns with a warning; a
result containing some configured keyword is wrapped as document `doc_001`
and processed with both prompt variants (shared checkpoint set, one output
manager per variant); otherwise the loop subscripts a list with `'findings'`
and raises `TypeError`.  Events record generation submissions (partial
traces of a run aborted by a raised error are dropped). -/
def process_content_single (cfg : Config) (oracle : String → Nat → AttemptOutcome)
    (masked : Findings) : List RunEvent × Except String Unit :=
  if masked.isEmpty then ([], Except.ok ())
  else if ¬ (masked.map Prod.fst).contains ("findings") ∧
          cfg.keywords.any (fun k => (masked.map Prod.fst).contains k) then
    let findings := findingsToOcc masked
    match process_document_keywords cfg.keywords cfg.prompts cfg.ollama_retries
      cfg.ollama_retry_delay oracle ("doc_001") findings ("single_file.pdf")
      PromptType.dflt ⟨[], [], []⟩ with
    | Except.error e => ([], Except.error e)
    | Except.ok (st1, tr1) =>
      match process_document_keywords cfg.keywords cfg.prompts cfg.ollama_retries
        cfg.ollama_retry_delay oracle ("doc_001") findings ("single_file.pdf")
        PromptType.alternative ⟨st1.processed_sections, [], []⟩ with
      | Except.error e => ([], Except.error e)
      | Except.ok (_st2, tr2) =>
        ((tr1 ++ tr2).map (fun p => RunEvent.generation p.1 p.2), Except.ok ())
  else
    ([], Except.error ("TypeError: list indices must be integers or slices, not str"))

/-- `main` on the `--single-file` path (no `--keyword`): construct the
configuration manager (parse assumed successful; `validate` is never
called), construct `PDFProcessor` — whose `__init__` calls
`StorageFactory.create_provider` — and `QAGenerator`, then extract and
generate.  Returns the operation trace and the final outcome (a raised
error is logged and re-raised). -/
def mainSingleFile (cfg : Config) (n2w : Nat → String) (now : String)
    (oracle : String → Nat → AttemptOutcome) (inputPath : String)
    (doc : List (List Block)) : List RunEvent × Except String Unit :=
  match createProvider cfg.storage with
  | Except.error e => ([], Except.error e)
  | Except.ok _provider =>
    match process_single_pdf cfg.keywords n2w now 1 doc with
    | Except.error e => ([RunEvent.extraction inputPath], Except.error e)
    | Except.ok (fs, _counter) =>
      let (evs, res) := process_content_single cfg oracle fs
      (RunEvent.extraction inputPath :: evs, res)

/-! ## C2: masked selected text -/

/-- A document whose matched block contains a whitespace-only line with a
non-empty span list: that line is scanned (its span list is truthy), its
stripped text is empty, and the block-level keyword test still succeeds. -/
def c2Doc : List (List Block) :=
  [[Block.mk (some [Line.mk (some [Span.mk ("   ") none none]),
                    Line.mk (some [Span.mk ("coverage applies.") none none])])]]

/-- C2 counterexample: extraction produces a `Finding` whose masked selected
text is the empty string (first record below), refuting the non-emptiness
invariant. -/
theorem finding_with_empty_selected_text :
    process_single_pdf [("coverage")] (fun _ => ("one")) ("T") 1 c2Doc =
      Except.ok ([(("coverage"),
        [Finding.mk ("doc_001") ("one") ("one") ("") ("coverage applies.") ("T"),
         Finding.mk ("doc_001") ("one") ("one") ("coverage applies.")
           ("coverage applies.") ("T")])], 2) ∧
    (Finding.mk ("doc_001") ("one") ("one") ("") ("coverage applies.")
      ("T")).selected_text = ("") := by
  constructor
  · decide
  · rfl

theorem subScanF_ne_nil (r : Rx) (tok : List Char) (htok : tok ≠ []) :
    ∀ fuel prevW s, s ≠ [] → subScanF r tok fuel prevW s ≠ [] := by
  intro fuel
  induction fuel with
  | zero => intro prevW s hs; simpa [subScanF] using hs
  | succ fuel ih =>
    intro prevW s hs
    match s, hs with
    | c :: cs, _ =>
      rw [subScanF]
      cases hm : (matchLens r prevW (c :: cs)).head? with
      | none => simp
      | some nw =>
        match nw with
        | (0, w) => simp
        | (n + 1, w) =>
          simp only
          intro hcontra
          rcases List.append_eq_nil.mp hcontra with ⟨htok', _⟩
          exact htok htok'

theorem maskChars_ne_nil {s : List Char} (h : s ≠ []) : maskChars s ≠ [] := by
  have hrules : ∀ rt ∈ maskRules, rt.2 ≠ [] := by decide
  unfold maskChars
  revert hrules
  generalize maskRules = rules
  intro hrules
  induction rules generalizing s with
  | nil => simpa using h
  | cons rt rules ih =>
    simp only [List.foldl_cons]
    exact ih (subScanF_ne_nil rt.1 rt.2 (hrules rt (by simp)) _ _ _ h)
      (fun rt2 h2 => hrules rt2 (by simp [h2]))

theorem mask_nonempty {s : String} (h : s ≠ ("")) :
    mask_sensitive_info s ≠ ("") := by
  unfold mask_sensitive_info
  intro hcontra
  have hl : maskChars s.toList = [] := by
    have := congrArg String.data hcontra
    simpa using this
  have hsl : s.toList ≠ [] := by
    intro he
    apply h
    apply String.ext
    simpa using he
  exact maskChars_ne_nil hsl hl

/-- Does every line that carries a non-empty span list have non-empty
stripped text?  (The configuration under which the claimed invariant
holds.) -/
def lineNonBlank (l : Line) : Bool :=
  match l.spans with
  | some (sp :: sps) => spansText (sp :: sps) ≠ ("")
  | _ => true

/-- `lineNonBlank` over a whole document. -/
def docLinesNonBlank (doc : List (List Block)) : Bool :=
  doc.all (fun pg => pg.all (fun b =>
    match b.lines with
    | none => true
    | some lines => lines.all lineNonBlank))

/-- Every finding record in the map has non-empty masked selected text. -/
def SelNonEmpty (fs : Findings) : Prop :=
  ∀ p ∈ fs, ∀ f ∈ p.2, f.selected_text ≠ ("")

theorem SelNonEmpty_appendAssoc {fs : Findings} {kw : String} {fnew : Finding}
    (hfs : SelNonEmpty fs) (hnew : fnew.selected_text ≠ ("")) :
    SelNonEmpty (appendAssoc fs kw fnew) := by
  induction fs with
  | nil =>
    intro p hp f hf
    simp only [appendAssoc, List.mem_singleton] at hp
    rw [hp] at hf
    rw [List.mem_singleton.mp hf]
    exact hnew
  | cons q fs ih =>
    intro p hp f hf
    simp only [appendAssoc] at hp
    by_cases hq : q.1 = kw
    · rw [if_pos hq] at hp
      rcases List.mem_cons.mp hp with hp | hp
      · rw [hp] at hf
        rcases List.mem_append.mp hf with hf | hf
        · exact hfs q (by simp) f hf
        · rw [List.mem_singleton.mp hf]
          exact hnew
      · exact hfs p (by simp [hp]) f hf
    · rw [if_neg hq] at hp
      rcases List.mem_cons.mp hp with hp | hp
      · exact hfs p (by simp [hp]) f hf
      · exact ih (fun r hr g hg => hfs r (by simp [hr]) g hg) p hp f hf

theorem processLineKeywords_sel {blocks : List Block} {n2w : Nat → String}
    {now docId : String} {pageNum blockNum lineNum : Nat} {text : String} :
    ∀ keywords (fs fs' : Findings), text ≠ ("") → SelNonEmpty fs →
      processLineKeywords blocks keywords n2w now docId pageNum blockNum
        lineNum text fs = Except.ok fs' → SelNonEmpty fs' := by
  intro keywords
  induction keywords with
  | nil =>
    intro fs fs' _ hfs h
    simp only [processLineKeywords, Except.ok.injEq] at h
    rw [← h]; exact hfs
  | cons kw kws ih =>
    intro fs fs' htext hfs h
    simp only [processLineKeywords] at h
    cases hctx : findKeywordContext blocks kw blockNum with
    | error e => rw [hctx] at h; exact absurd h (by simp)
    | ok ctx =>
      rw [hctx] at h
      match ctx with
      | none => exact ih fs fs' htext hfs h
      | some c =>
        simp only at h
        by_cases hce : c = ("")
        · rw [if_pos hce] at h
          exact ih fs fs' htext hfs h
        · rw [if_neg hce] at h
          refine ih _ fs' htext ?_ h
          apply SelNonEmpty_appendAssoc hfs
          exact mask_nonempty htext

theorem processBlockLines_sel {blocks : List Block} {keywords : List String}
    {n2w : Nat → String} {now docId : String} {pageNum blockNum : Nat} :
    ∀ lines lineNum (fs fs' : Findings), (∀ l ∈ lines, lineNonBlank l = true) →
      SelNonEmpty fs →
      processBlockLines blocks keywords n2w now docId pageNum blockNum lines
        lineNum fs = Except.ok fs' → SelNonEmpty fs' := by
  intro lines
  induction lines with
  | nil =>
    intro lineNum fs fs' _ hfs h
    simp only [processBlockLines, Except.ok.injEq] at h
    rw [← h]; exact hfs
  | cons l ls ih =>
    intro lineNum fs fs' hln hfs h
    simp only [processBlockLines] at h
    match hsp : l.spans with
    | none =>
      rw [hsp] at h
      exact ih _ fs fs' (fun l2 h2 => hln l2 (by simp [h2])) hfs h
    | some [] =>
      rw [hsp] at h
      exact ih _ fs fs' (fun l2 h2 => hln l2 (by simp [h2])) hfs h
    | some (sp :: sps) =>
      simp only [hsp] at h
      have htext : spansText (sp :: sps) ≠ ("") := by
        have := hln l (by simp)
        rw [lineNonBlank, hsp] at this
        simpa using this
      cases hplk : processLineKeywords blocks keywords n2w now docId pageNum
          blockNum lineNum (pyStrip (joinSpace ((sp :: sps).map (fun x => x.text)))) fs with
      | error e => rw [hplk] at h; exact absurd h (by simp)
      | ok fs2 =>
        rw [hplk] at h
        have hfs2 : SelNonEmpty fs2 :=
          processLineKeywords_sel keywords fs fs2 htext hfs hplk
        exact ih _ fs2 fs' (fun l2 h2 => hln l2 (by simp [h2])) hfs2 h

theorem processPageBlocks_sel {blocks : List Block} {keywords : List String}
    {n2w : Nat → String} {now docId : String} {pageNum : Nat} :
    ∀ bs blockNum (fs fs' : Findings),
      (∀ b ∈ bs, (match b.lines with
         | none => true
         | some lines => lines.all lineNonBlank) = true) →
      SelNonEmpty fs →
      processPageBlocks blocks keywords n2w now docId pageNum bs blockNum fs =
        Except.ok fs' → SelNonEmpty fs' := by
  intro bs
  induction bs with
  | nil =>
    intro blockNum fs fs' _ hfs h
    simp only [processPageBlocks, Except.ok.injEq] at h
    rw [← h]; exact hfs
  | cons b bs ih =>
    intro blockNum fs fs' hbs hfs h
    simp only [processPageBlocks] at h
    match hbl : b.lines with
    | none =>
      rw [hbl] at h
      exact ih _ fs fs' (fun b2 h2 => hbs b2 (by simp [h2])) hfs h
    | some lines =>
      simp only [hbl] at h
      cases hpbl : processBlockLines blocks keywords n2w now docId pageNum
          blockNum lines 1 fs with
      | error e => rw [hpbl] at h; exact absurd h (by simp)
      | ok fs2 =>
        rw [hpbl] at h
        have hlines : ∀ l ∈ lines, lineNonBlank l = true := by
          have := hbs b (by simp)
          rw [hbl] at this
          exact fun l hl => List.all_eq_true.mp this l hl
        have hfs2 : SelNonEmpty fs2 :=
          processBlockLines_sel lines 1 fs fs2 hlines hfs hpbl
        exact ih _ fs2 fs' (fun b2 h2 => hbs b2 (by simp [h2])) hfs2 h

theorem processPages_sel {keywords : List String} {n2w : Nat → String}
    {now docId : String} :
    ∀ pgs pageNum (fs fs' : Findings),
      docLinesNonBlank pgs = true → SelNonEmpty fs →
      processPages keywords n2w now docId pgs pageNum fs = Except.ok fs' →
      SelNonEmpty fs' := by
  intro pgs
  induction pgs with
  | nil =>
    intro pageNum fs fs' _ hfs h
    simp only [processPages, Except.ok.injEq] at h
    rw [← h]; exact hfs
  | cons pg pgs ih =>
    intro pageNum fs fs' hdoc hfs h
    simp only [processPages] at h
    cases hpg : processPageBlocks pg keywords n2w now docId pageNum pg 0 fs with
    | error e => rw [hpg] at h; exact absurd h (by simp)
    | ok fs2 =>
      rw [hpg] at h
      simp only [docLinesNonBlank, List.all_cons, Bool.and_eq_true] at hdoc
      have hfs2 : SelNonEmpty fs2 :=
        processPageBlocks_sel pg 0 fs fs2
          (fun b hb => List.all_eq_true.mp hdoc.1 b hb) hfs hpg
      exact ih _ fs2 fs' (by simp [docLinesNonBlank, hdoc.2]) hfs2 h

/-- C2 amended: every `Finding` produced by `process_single_pdf` has
non-empty masked selected text, provided every scanned line of the document
(one with a non-empty span list) has non-empty stripped text; a
whitespace-only line with spans inside a matched block yields a `Finding`
with empty selected text (`finding_with_empty_selected_text`). -/
theorem findings_selected_text_nonempty (keywords : List String)
    (n2w : Nat → String) (now : String) (counter : Nat)
    (doc : List (List Block)) (fs : Findings) (c : Nat)
    (hdoc : docLinesNonBlank doc = true)
    (h : process_single_pdf keywords n2w now counter doc = Except.ok (fs, c)) :
    ∀ p ∈ fs, ∀ f ∈ p.2, f.selected_text ≠ ("") := by
  unfold process_single_pdf at h
  simp only [genDocId] at h
  cases hpp : processPages keywords n2w now (docIdOf counter) doc 1 [] with
  | error e => rw [hpp] at h; exact absurd h (by simp)
  | ok fs0 =>
    rw [hpp] at h
    simp only [Except.ok.injEq, Prod.mk.injEq] at h
    have := processPages_sel doc 1 [] fs0 hdoc (by intro p hp; simp at hp) hpp
    rw [← h.1]
    exact this

/-- Witness for `findings_selected_text_nonempty` on a concrete document. -/
theorem findings_selected_text_nonempty_witness :
    docLinesNonBlank [[Block.mk (some [Line.mk (some [Span.mk
        ("coverage applies.") none none])])]] = true ∧
    ∀ p ∈ ([(("coverage"),
        [Finding.mk ("doc_001") ("one") ("one") ("coverage applies.")
          ("coverage applies.") ("T")])] : Findings),
      ∀ f ∈ p.2, f.selected_text ≠ ("") :=
  ⟨by decide,
   findings_selected_text_nonempty [("coverage")] (fun _ => ("one")) ("T") 1
     [[Block.mk (some [Line.mk (some [Span.mk ("coverage applies.") none none])])]]
     _ 2 (by decide) (by decide)⟩

/-! ## Document-id lemmas -/

/-- Decimal parse, the left inverse of `natDecimal` (leading zeros ignored). -/
def parseDecimal (cs : List Char) : Nat :=
  cs.foldl (fun acc c => 10 * acc + (c.toNat - 48)) 0

theorem parseDecimal_append (a b : List Char) :
    parseDecimal (a ++ b) =
      b.foldl (fun acc c => 10 * acc + (c.toNat - 48)) (parseDecimal a) := by
  simp [parseDecimal, List.foldl_append]

theorem natDecimalF_parse :
    ∀ n fuel : Nat, n < fuel → parseDecimal (natDecimalF fuel n) = n := by
  intro n
  induction n using Nat.strong_induction_on with
  | _ n ih =>
    intro fuel hfuel
    match fuel with
    | f + 1 =>
      by_cases h10 : n < 10
      · simp only [natDecimalF, if_pos h10]
        interval_cases n <;> rfl
      · simp only [natDecimalF, if_neg h10, parseDecimal_append]
        have hdiv : n / 10 < n := Nat.div_lt_self (by omega) (by omega)
        have hmod : n % 10 < 10 := Nat.mod_lt _ (by omega)
        have hrec : parseDecimal (natDecimalF f (n / 10)) = n / 10 :=
          ih (n / 10) hdiv f (by omega)
        have hchar : (Char.ofNat (48 + n % 10)).toNat - 48 = n % 10 := by
          have := hmod
          interval_cases h : (n % 10) <;> simp [h]
        simp only [List.foldl_cons, List.foldl_nil, hrec, hchar]
        omega

theorem parseDecimal_natDecimal (n : Nat) : parseDecimal (natDecimal n) = n :=
  natDecimalF_parse n (n + 1) (Nat.lt_succ_self n)

theorem parseDecimal_pad (z : Nat) (cs : List Char) :
    parseDecimal (List.replicate z '0' ++ cs) = parseDecimal cs := by
  induction z with
  | zero => simp
  | succ z ih =>
    simpa [List.replicate_succ, parseDecimal, List.foldl_cons] using ih

theorem pad3_inj {a b : Nat} (h : pad3 a = pad3 b) : a = b := by
  have hd : (pad3 a).data = (pad3 b).data := by rw [h]
  simp only [pad3] at hd
  have : parseDecimal (List.replicate (3 - (natDecimal a).length) '0' ++ natDecimal a) =
      parseDecimal (List.replicate (3 - (natDecimal b).length) '0' ++ natDecimal b) := by
    rw [hd]
  rwa [parseDecimal_pad, parseDecimal_pad, parseDecimal_natDecimal,
    parseDecimal_natDecimal] at this

theorem docIdOf_inj {a b : Nat} (h : docIdOf a = docIdOf b) : a = b := by
  apply pad3_inj
  have hd : (docIdOf a).data = (docIdOf b).data := by rw [h]
  simp only [docIdOf, String.data_append] at hd
  have : (pad3 a).data = (pad3 b).data := List.append_cancel_left hd
  exact String.ext this

theorem runIds_get? (k : Nat) :
    ∀ c i : Nat, (runIds k c).get? i =
      if i < k then some (docIdOf (c + i)) else none := by
  induction k with
  | zero => intro c i; simp [runIds]
  | succ k ih =>
    intro c i
    match i with
    | 0 => simp [runIds, genDocId]
    | i + 1 =>
      rw [runIds]
      simp only [genDocId, List.get?_cons_succ]
      rw [ih (c + 1) i]
      by_cases hik : i < k
      · rw [if_pos hik, if_pos (by omega)]
        have harith : c + 1 + i = c + (i + 1) := by omega
        rw [harith]
      · rw [if_neg hik, if_neg (by omega)]

/-- C8: document ids assigned during a run are strictly increasing and
unique: the `j`-th id's counter value strictly exceeds the `i`-th's for
`i < j`, the ids have the `doc_NNN` shape, and the two id strings differ —
for every run length, starting counter, and document order (the id depends
only on the call order, not on the documents). -/
theorem docIds_strictly_increasing_and_unique (k c i j : Nat)
    (hij : i < j) (hj : j < k) :
    ∃ a b : Nat, (runIds k c).get? i = some (docIdOf a) ∧
      (runIds k c).get? j = some (docIdOf b) ∧ a < b ∧ docIdOf a ≠ docIdOf b := by
  refine ⟨c + i, c + j, ?_, ?_, by omega, ?_⟩
  · rw [runIds_get?, if_pos (by omega)]
  · rw [runIds_get?, if_pos hj]
  · intro hcontra
    have := docIdOf_inj hcontra
    omega

/-- Witness for `docIds_strictly_increasing_and_unique` at a concrete run. -/
theorem docIds_strictly_increasing_and_unique_witness :
    ∃ a b : Nat, (runIds 3 1).get? 0 = some (docIdOf a) ∧
      (runIds 3 1).get? 2 = some (docIdOf b) ∧ a < b ∧ docIdOf a ≠ docIdOf b :=
  docIds_strictly_increasing_and_unique 3 1 0 2 (by omega) (by omega)

/-! ## C1: configuration validity and the entry point -/

/-- A configuration that `validate` rejects (no keywords, no default prompt)
but whose storage provider is supported. -/
def c1BadConfig : Config :=
  ⟨[], [], ⟨("local"), none, none, none⟩, 3, 1⟩

/-- C1 counterexample: an invalid configuration (no keywords, no default
prompt template) does not abort the run — `main` never calls `validate`,
extraction is invoked, and the run even completes successfully. -/
theorem invalid_config_reaches_extraction :
    configValidate c1BadConfig = false ∧
    mainSingleFile c1BadConfig (fun _ => ("")) ("T") (fun _ _ => AttemptOutcome.timeout)
      ("in.pdf") [[]] = ([RunEvent.extraction ("in.pdf")], Except.ok ()) := by
  constructor
  · rfl
  · rfl

/-- C1 amended: the entry point aborts before any processing exactly for
storage-provider construction errors (unsupported provider, or `gcp`
without project/bucket); any configuration whose provider constructs —
including ones `validate` rejects — reaches extraction as its first
operation. -/
theorem main_aborts_before_processing_iff_provider_fails (cfg : Config)
    (n2w : Nat → String) (now : String) (oracle : String → Nat → AttemptOutcome)
    (path : String) (doc : List (List Block)) :
    (∀ e, createProvider cfg.storage = Except.error e →
        mainSingleFile cfg n2w now oracle path doc = ([], Except.error e)) ∧
    ((createProvider cfg.storage).isOk = true →
        (mainSingleFile cfg n2w now oracle path doc).1.head? =
          some (RunEvent.extraction path)) := by
  constructor
  · intro e he
    simp [mainSingleFile, he]
  · intro hok
    match hp : createProvider cfg.storage with
    | Except.error e => rw [hp] at hok; simp [Except.isOk, Except.toBool] at hok
    | Except.ok p =>
      simp only [mainSingleFile, hp]
      match hps : process_single_pdf cfg.keywords n2w now 1 doc with
      | Except.error e => simp
      | Except.ok (fs, c) => simp

/-- Witness for `main_aborts_before_processing_iff_provider_fails`: an
unsupported provider aborts the run with no operation performed. -/
theorem main_aborts_witness :
    mainSingleFile ⟨[("kw")], [], ⟨("s3"), none, none, none⟩, 3, 1⟩
      (fun _ => ("")) ("T") (fun _ _ => AttemptOutcome.timeout) ("in.pdf") [[]] =
      ([], Except.error (("ValueError: Unsupported storage provider: ") ++ ("s3"))) :=
  (main_aborts_before_processing_iff_provider_fails _ _ _ _ _ _).1 _ (by rfl)

/-! ## C10: totality of the context search -/

/-- Blocks on which the embedded `spans[0]` access in `_is_header` is
reached with an empty span list: the second block's assembled text `hello`
is non-empty (from its second line), lower-case, not colon-terminated, and
its first line's `"spans"` key holds an empty list. -/
def c10Blocks : List Block :=
  [Block.mk (some [Line.mk (some [Span.mk ("the keyword here.") none none])]),
   Block.mk (some [Line.mk (some []),
                   Line.mk (some [Span.mk ("hello") none none])])]

/-- C10 counterexample: `find_window` faults (raises `IndexError`) on a
structurally well-formed input — the `spans[0]` access is reachable. -/
theorem findWindow_faults_on_empty_first_line_spans :
    findKeywordContext c10Blocks ("keyword") 0 =
      Except.error ("IndexError: list index out of range") := by
  rfl

/-- No block has a first line whose `"spans"` key is an explicitly empty
list (the configuration under which the heading classification cannot
fault). -/
def goodFirstLineSpans (b : Block) : Bool :=
  match b.lines with
  | some (l0 :: _) => l0.spans ≠ some []
  | _ => true

theorem getBlockText_ne_empty_lines {b : Block}
    (h : getBlockText b ≠ ("")) : ∃ l0 ls, b.lines = some (l0 :: ls) := by
  match hb : b.lines with
  | none => rw [getBlockText, hb] at h; simp at h
  | some [] =>
    rw [getBlockText, hb] at h
    simp [assembleLines, joinSpace, String.intercalate] at h
  | some (l0 :: ls) => exact ⟨l0, ls, rfl⟩

theorem isHeader_ok_of_spans_ne_nil (text : String) {spans : List Span}
    (h : spans ≠ []) : ∃ r, isHeader text spans = Except.ok r := by
  unfold isHeader
  by_cases h1 : text = ("")
  · exact ⟨false, by rw [if_pos h1]⟩
  · rw [if_neg h1]
    by_cases h2 : pyIsUpper text = true
    · exact ⟨true, by rw [if_pos h2]⟩
    · rw [if_neg h2]
      by_cases h3 : pyEndsWith (pyRstrip text) (":") = true
      · exact ⟨true, by rw [if_pos h3]⟩
      · rw [if_neg h3]
        match spans, h with
        | sp0 :: rest, _ => exact ⟨_, rfl⟩

theorem forwardHeaderCheck_ok {b : Block} {l0 : Line} {ls : List Line}
    (t : String) (hb : b.lines = some (l0 :: ls)) (hsp : l0.spans ≠ some []) :
    ∃ r, forwardHeaderCheck b t = Except.ok r := by
  unfold forwardHeaderCheck
  rw [hb]
  simp only [Option.getD_some, List.head?_cons]
  apply isHeader_ok_of_spans_ne_nil
  match hs : l0.spans with
  | none => simp [defaultSpan]
  | some [] => exact absurd hs hsp
  | some (x :: xs) => simp

theorem forwardParts_ok (blocks : List Block) (idx : Nat)
    (hgood : ∀ b ∈ blocks, goodFirstLineSpans b = true) :
    ∀ fuel i, ∃ ps, forwardParts blocks idx i fuel = Except.ok ps := by
  intro fuel
  induction fuel with
  | zero => intro i; exact ⟨[], rfl⟩
  | succ fuel ih =>
    intro i
    unfold forwardParts
    by_cases hin : idx + i < blocks.length
    · rw [if_pos hin]
      set nb := blocks.getD (idx + i) ⟨none⟩ with hnb
      by_cases ht : getBlockText nb = ("")
      · rw [if_pos ht]; exact ih (i + 1)
      · rw [if_neg ht]
        have hmem : nb ∈ blocks := by
          rw [hnb, List.getD_eq_get? , List.get?_eq_get hin]
          exact List.get_mem blocks (idx + i) hin
        obtain ⟨l0, ls, hb⟩ := getBlockText_ne_empty_lines ht
        have hg : goodFirstLineSpans nb = true := hgood nb hmem
        rw [goodFirstLineSpans, hb] at hg
        obtain ⟨r, hr⟩ := forwardHeaderCheck_ok (getBlockText nb) hb (by simpa using hg)
        rw [hr]
        match r with
        | true => exact ⟨[getBlockText nb], rfl⟩
        | false =>
          obtain ⟨ps, hps⟩ := ih (i + 1)
          rw [hps]
          exact ⟨getBlockText nb :: ps, rfl⟩
    · rw [if_neg hin]; exact ih (i + 1)

/-- C10 amended: `find_window` returns normally (a window or absent) for
every in-range match index, provided no block's first line carries an
explicitly empty span list; with such a line, the heading classification's
`spans[0]` access is reachable and faults
(`findWindow_faults_on_empty_first_line_spans`). -/
theorem findWindow_total (blocks : List Block) (kw : String) (idx : Nat)
    (hidx : idx < blocks.length)
    (hgood : ∀ b ∈ blocks, goodFirstLineSpans b = true) :
    (findKeywordContext blocks kw idx).isOk = true := by
  unfold findKeywordContext
  rw [List.get?_eq_get hidx]
  cases hc : strContains (getBlockText (blocks.get ⟨idx, hidx⟩)) kw
  · simp only [List.get_eq_getElem] at hc
    simp [hc, Except.isOk, Except.toBool]
  · simp only [List.get_eq_getElem] at hc
    obtain ⟨ps, hps⟩ := forwardParts_ok blocks idx hgood 3 1
    simp [hc, hps, Except.isOk, Except.toBool]

/-! ## C4: the retry loop -/

/-- C4: in the retry loop with `retries = 3`, a service failing on the first
two attempts (any failure kind: non-200 status, empty body, timeout,
connection error, other exception) and answering 200 with non-empty text on
the third makes the unit succeed with the third attempt's parsed pairs, and
exactly two backoff sleeps occur, `retry_delay * 2` then `retry_delay * 3`,
in that order (three requests in total). -/
theorem retry_two_failures_then_success (delay : Nat) (pt : PromptType)
    (o1 o2 : AttemptOutcome) (body : String)
    (h1 : attemptFails o1 = true) (h2 : attemptFails o2 = true)
    (h3 : ¬ pyStrip body = ("")) :
    genAttemptLoop delay pt
      (fun n => if n = 0 then o1 else if n = 1 then o2
                else AttemptOutcome.response 200 body) 0 3 [] 0 =
      (parse_qa_response (pyStrip body) pt, [delay * 2, delay * 3], 3) := by
  have step : ∀ (o : AttemptOutcome) (oracle : Nat → AttemptOutcome)
      (rc fuel : Nat) (sleeps : List Nat) (attempts : Nat),
      oracle rc = o → attemptFails o = true → 1 ≤ fuel →
      genAttemptLoop delay pt oracle rc (fuel + 1) sleeps attempts =
        genAttemptLoop delay pt oracle (rc + 1) fuel
          (sleeps ++ [delay * (rc + 2)]) (attempts + 1) := by
    intro o oracle rc fuel sleeps attempts ho hf hfuel
    match o with
    | AttemptOutcome.response status b =>
      simp only [genAttemptLoop]
      rw [ho]
      by_cases hs : status = 200
      · have hstrip : pyStrip b = ("") := by
          rw [hs] at hf
          simpa [attemptFails] using hf
        simp [hs, hstrip, hfuel]
      · simp [hs, hfuel]
    | AttemptOutcome.timeout =>
      simp only [genAttemptLoop]; rw [ho]; simp [hfuel]
    | AttemptOutcome.connectionError =>
      simp only [genAttemptLoop]; rw [ho]; simp [hfuel]
    | AttemptOutcome.otherError m =>
      simp only [genAttemptLoop]; rw [ho]; simp [hfuel]
  set oracle := fun n => if n = 0 then o1 else if n = 1 then o2
    else AttemptOutcome.response 200 body with horacle
  rw [step o1 oracle 0 2 [] 0 (by simp [horacle]) h1 (by omega)]
  show genAttemptLoop delay pt oracle 1 (1 + 1) [delay * 2] 1 = _
  rw [step o2 oracle 1 1 [delay * 2] 1 (by simp [horacle]) h2 (by omega)]
  show genAttemptLoop delay pt oracle 2 (0 + 1) [delay * 2, delay * 3] 2 = _
  have ho2 : oracle 2 = AttemptOutcome.response 200 body := by simp [horacle]
  simp only [genAttemptLoop]
  rw [ho2]
  simp [h3]

/-- Witness for `retry_two_failures_then_success`: timeout, then HTTP 500,
then a successful parseable reply, with `retry_delay = 5`. -/
theorem retry_two_failures_then_success_witness :
    genAttemptLoop 5 PromptType.alternative
      (fun n => if n = 0 then AttemptOutcome.timeout
                else if n = 1 then AttemptOutcome.response 500 ("x")
                else AttemptOutcome.response 200 ("Q: q\nA: a")) 0 3 [] 0 =
      (parse_qa_response (pyStrip ("Q: q\nA: a")) PromptType.alternative,
       [5 * 2, 5 * 3], 3) :=
  retry_two_failures_then_success 5 PromptType.alternative
    AttemptOutcome.timeout (AttemptOutcome.response 500 ("x")) ("Q: q\nA: a")
    (by decide) (by decide) (by decide)

/-! ## C9: the prompt's page field -/

/-- Occurrences whose page values mix a numeric string and a word-form
string (as arbitrary findings lists may). -/
def c9MixedOccs : List Occurrence :=
  [Occurrence.mk (some ("2")) none, Occurrence.mk (some ("one")) none]

/-- C9 counterexample: with one numeric and one non-numeric page value the
sort key mixes `int` and `str` and the prompt builder raises `TypeError`
instead of computing a page field. -/
theorem formattedPages_raises_on_mixed_pages :
    generate_prompt [(("default"), ("{formatted_pages}"))] ("[POLICY_DOC_001]")
      ("kw") c9MixedOccs PromptType.dflt =
      Except.error ("TypeError: '<' not supported between instances of 'str' and 'int'") := by
  rfl

/-- The page-field recipe in the specification's words (C9): collect the
distinct page values, sort numerically when the values are numeric strings
and lexicographically otherwise, take at most the first two, join with
`", "`. -/
def specPagesField (content : List Occurrence) : String :=
  let ps := pagesOf content
  let sorted :=
    if ps.all pyIsDigitStr then pySorted (fun a b => toNatDec a ≤ toNatDec b) ps
    else pySorted pyStrLe ps
  String.intercalate (", ") (sorted.take 2)

/-- C9 amended: the recipe holds whenever the distinct page values are
uniform — all numeric or all non-numeric (Python leaves the relative order
of distinct numeric strings with equal value unspecified; the model uses a
stable sort of the first-occurrence order).  A mix of the two kinds raises
`TypeError` instead (`formattedPages_raises_on_mixed_pages`). -/
theorem formattedPages_uniform_matches_spec (content : List Occurrence)
    (h : (pagesOf content).all pyIsDigitStr = true ∨
         (pagesOf content).all (fun p => !pyIsDigitStr p) = true) :
    computeFormattedPages content = Except.ok (specPagesField content) := by
  unfold computeFormattedPages sortPages specPagesField
  by_cases hd : (pagesOf content).all pyIsDigitStr = true
  · simp [hd]
  · have hnd := h.resolve_left hd
    simp [hd, hnd]

/-- Witness for `formattedPages_uniform_matches_spec` on numeric pages. -/
theorem formattedPages_uniform_matches_spec_witness :
    computeFormattedPages
      [Occurrence.mk (some ("10")) none, Occurrence.mk (some ("2")) none] =
      Except.ok (specPagesField
        [Occurrence.mk (some ("10")) none, Occurrence.mk (some ("2")) none]) :=
  formattedPages_uniform_matches_spec _ (Or.inl (by decide))

/-! ## C6: variant-asymmetric response validation -/

theorem scanLoop_acc (ls : List String) :
    ∀ q a acc, scanLoop ls q a acc = acc ++ scanLoop ls q a [] := by
  induction ls with
  | nil => intro q a acc; simp [scanLoop]
  | cons l ls ih =>
    intro q a acc
    simp only [scanLoop]
    by_cases hq : pyStartsWith l ("Q:") = true
    · rw [if_pos hq, if_pos hq, List.nil_append]
      rw [ih (some (pyStrip (pyDrop l 2))) none (acc ++ scanFlush q a)]
      conv_rhs => rw [ih (some (pyStrip (pyDrop l 2))) none (scanFlush q a)]
      rw [List.append_assoc]
    · rw [if_neg hq, if_neg hq]
      by_cases ha : pyStartsWith l ("A:") = true
      · rw [if_pos ha, if_pos ha]
        exact ih _ _ acc
      · rw [if_neg ha, if_neg ha]
        exact ih _ _ acc

theorem parseLoop_acc (pt : PromptType) (ls : List String) :
    ∀ q a acc, parseLoop pt ls q a acc = acc ++ parseLoop pt ls q a [] := by
  induction ls with
  | nil => intro q a acc; simp [parseLoop]
  | cons l ls ih =>
    intro q a acc
    simp only [parseLoop]
    by_cases hq : pyStartsWith l ("Q:") = true
    · rw [if_pos hq, if_pos hq, List.nil_append]
      rw [ih (some (pyStrip (pyDrop l 2))) none (acc ++ flushPair pt q a)]
      conv_rhs => rw [ih (some (pyStrip (pyDrop l 2))) none (flushPair pt q a)]
      rw [List.append_assoc]
    · rw [if_neg hq, if_neg hq]
      by_cases ha : pyStartsWith l ("A:") = true
      · rw [if_pos ha, if_pos ha]
        exact ih _ _ acc
      · rw [if_neg ha, if_neg ha]
        exact ih _ _ acc

theorem flushPair_eq_filter (pt : PromptType) (q a : Option String) :
    flushPair pt q a =
      ((scanFlush q a).filter (fun p => validPair pt p.1 p.2)).map
        (fun p => QAPair.mk p.1 p.2) := by
  match q, a with
  | none, none => rfl
  | none, some an => rfl
  | some qs, none => rfl
  | some qs, some an =>
    simp only [flushPair, scanFlush]
    by_cases h1 : qs = ("")
    · simp [h1]
    · by_cases h2 : an = ("")
      · simp [h1, h2]
      · by_cases h3 : validPair pt qs an = true
        · simp [h1, h2, h3, List.filter]
        · simp [h1, h2, h3, List.filter]

theorem parseLoop_eq_filter_scan (pt : PromptType) (ls : List String) :
    ∀ q a, parseLoop pt ls q a [] =
      ((scanLoop ls q a []).filter (fun p => validPair pt p.1 p.2)).map
        (fun p => QAPair.mk p.1 p.2) := by
  induction ls with
  | nil =>
    intro q a
    simp only [parseLoop, scanLoop, List.nil_append]
    exact flushPair_eq_filter pt q a
  | cons l ls ih =>
    intro q a
    simp only [parseLoop, scanLoop]
    by_cases hq : pyStartsWith l ("Q:") = true
    · rw [if_pos hq, if_pos hq, List.nil_append, List.nil_append]
      rw [parseLoop_acc pt ls _ none (flushPair pt q a)]
      rw [scanLoop_acc ls _ none (scanFlush q a)]
      rw [ih _ none]
      rw [List.filter_append, List.map_append, flushPair_eq_filter pt q a]
    · rw [if_neg hq, if_neg hq]
      by_cases ha : pyStartsWith l ("A:") = true
      · rw [if_pos ha, if_pos ha]
        exact ih _ _
      · rw [if_neg ha, if_neg ha]
        exact ih _ _

theorem parse_eq_filter_scanned (pt : PromptType) (t : String) :
    parse_qa_response t pt =
      ((scannedPairs t).filter (fun p => validPair pt p.1 p.2)).map
        (fun p => QAPair.mk p.1 p.2) :=
  parseLoop_eq_filter_scan pt (parseLines t) none none

/-- C6: variant asymmetry of response parsing — a scanned candidate pair
(question and answer both non-empty by the scan's truthiness check) whose
question does not end in `?` is excluded from the `default`-variant result
and included in the `alternative`-variant result. -/
theorem parse_variant_asymmetry (t q a : String)
    (hmem : (q, a) ∈ scannedPairs t) (hq : pyEndsWith q ("?") = false) :
    QAPair.mk q a ∉ parse_qa_response t PromptType.dflt ∧
    QAPair.mk q a ∈ parse_qa_response t PromptType.alternative := by
  constructor
  · rw [parse_eq_filter_scanned]
    intro hmemD
    obtain ⟨p, hp, hpe⟩ := List.mem_map.mp hmemD
    have hpm := List.mem_filter.mp hp
    have hq' : p.1 = q := congrArg QAPair.question hpe
    have hvalid := hpm.2
    rw [hq'] at hvalid
    simp only [validPair, Bool.and_eq_true] at hvalid
    rw [hvalid.1.1] at hq
    exact Bool.true_eq_false.mp hq
  · rw [parse_eq_filter_scanned]
    apply List.mem_map.mpr
    refine ⟨(q, a), ?_, rfl⟩
    apply List.mem_filter.mpr
    exact ⟨hmem, by rfl⟩

/-- Witness for `parse_variant_asymmetry`: the response `Q: what` / `A: yes`
parses to nothing under `default` and to the pair under `alternative`. -/
theorem parse_variant_asymmetry_witness :
    QAPair.mk ("what") ("yes") ∉ parse_qa_response ("Q: what\nA: yes") PromptType.dflt ∧
    QAPair.mk ("what") ("yes") ∈ parse_qa_response ("Q: what\nA: yes") PromptType.alternative :=
  parse_variant_asymmetry ("Q: what\nA: yes") ("what") ("yes") (by decide) (by decide)

/-! ## C5: window composition bounds and the heading stop -/

/-- The assembled text of the block at index `j` (out-of-range indices give
the empty text of the default block, which the scan never appends). -/
def blockTextAt (blocks : List Block) (j : Nat) : String :=
  getBlockText (blocks.getD j ⟨none⟩)

theorem forwardParts_spec (blocks : List Block) (idx : Nat) :
    ∀ fuel i ps, forwardParts blocks idx i fuel = Except.ok ps →
      ∃ js : List Nat,
        ps = js.map (fun j => blockTextAt blocks j) ∧
        (∀ j ∈ js, idx + i ≤ j ∧ j < idx + i + fuel ∧ j < blocks.length) ∧
        (∀ j ∈ js, ∀ m, idx + i ≤ m → m < j → blockTextAt blocks m ≠ ("") →
           forwardHeaderCheck (blocks.getD m ⟨none⟩) (blockTextAt blocks m) =
             Except.ok false) := by
  intro fuel
  induction fuel with
  | zero =>
    intro i ps h
    refine ⟨[], ?_, by simp, by simp⟩
    simpa [forwardParts] using h.symm
  | succ fuel ih =>
    intro i ps h
    simp only [forwardParts] at h
    by_cases hin : idx + i < blocks.length
    · rw [if_pos hin] at h
      by_cases ht : getBlockText (blocks.getD (idx + i) ⟨none⟩) = ("")
      · rw [if_pos ht] at h
        obtain ⟨js, hmap, hbnd, hhd⟩ := ih (i + 1) ps h
        refine ⟨js, hmap, ?_, ?_⟩
        · intro j hj
          obtain ⟨h1, h2, h3⟩ := hbnd j hj
          exact ⟨by omega, by omega, h3⟩
        · intro j hj m hm1 hm2 hmne
          by_cases hmi : m = idx + i
          · rw [hmi] at hmne
            exact absurd ht hmne
          · exact hhd j hj m (by omega) hm2 hmne
      · rw [if_neg ht] at h
        cases hhc : forwardHeaderCheck (blocks.getD (idx + i) ⟨none⟩)
            (getBlockText (blocks.getD (idx + i) ⟨none⟩)) with
        | error e => rw [hhc] at h; exact absurd h (by simp)
        | ok r =>
          rw [hhc] at h
          match r with
          | true =>
            have hps : ps = [getBlockText (blocks.getD (idx + i) ⟨none⟩)] := by
              simpa using h.symm
            refine ⟨[idx + i], by simp [hps, blockTextAt], ?_, ?_⟩
            · intro j hj
              rw [List.mem_singleton] at hj
              exact ⟨by omega, by omega, by omega⟩
            · intro j hj m hm1 hm2 _
              rw [List.mem_singleton] at hj
              omega
          | false =>
            cases hrec : forwardParts blocks idx (i + 1) fuel with
            | error e => rw [hrec] at h; exact absurd h (by simp)
            | ok rest =>
              rw [hrec] at h
              have hps : ps = getBlockText (blocks.getD (idx + i) ⟨none⟩) :: rest := by
                simpa using h.symm
              obtain ⟨js, hmap, hbnd, hhd⟩ := ih (i + 1) rest hrec
              refine ⟨(idx + i) :: js, ?_, ?_, ?_⟩
              · simp [hps, hmap, blockTextAt]
              · intro j hj
                rcases List.mem_cons.mp hj with hj | hj
                · exact ⟨by omega, by omega, by omega⟩
                · obtain ⟨h1, h2, h3⟩ := hbnd j hj
                  exact ⟨by omega, by omega, h3⟩
              · intro j hj m hm1 hm2 hmne
                rcases List.mem_cons.mp hj with hj | hj
                · omega
                · by_cases hmi : m = idx + i
                  · rw [hmi]
                    simpa [blockTextAt] using hhc
                  · exact hhd j hj m (by omega) hm2 hmne
    · rw [if_neg hin] at h
      obtain ⟨js, hmap, hbnd, hhd⟩ := ih (i + 1) ps h
      refine ⟨js, hmap, ?_, ?_⟩
      · intro j hj
        obtain ⟨h1, h2, h3⟩ := hbnd j hj
        exact ⟨by omega, by omega, h3⟩
      · intro j hj m hm1 hm2 hmne
        by_cases hmi : m = idx + i
        · exfalso
          apply hmne
          rw [hmi]
          unfold blockTextAt
          rw [List.getD_eq_default]
          · rfl
          · omega
        · exact hhd j hj m (by omega) hm2 hmne

/-- C5: any window `find_window` returns is the space-join of assembled
texts of blocks whose indices lie in `[match_index - 1, match_index + 3]`
(the matched block always among them), and no forward block beyond the
first heading block contributes: every forward block strictly before a
contributing one that has non-empty text was classified as a non-heading. -/
theorem findWindow_bounds (blocks : List Block) (kw : String) (idx : Nat)
    (w : String) (h : findKeywordContext blocks kw idx = Except.ok (some w)) :
    ∃ js : List Nat,
      w = joinSpace (js.map (fun j => blockTextAt blocks j)) ∧
      idx ∈ js ∧
      (∀ j ∈ js, idx - 1 ≤ j ∧ j ≤ idx + 3) ∧
      (∀ j ∈ js, idx < j → ∀ m, idx < m → m < j →
         blockTextAt blocks m ≠ ("") →
         forwardHeaderCheck (blocks.getD m ⟨none⟩) (blockTextAt blocks m) =
           Except.ok false) := by
  unfold findKeywordContext at h
  cases hb : blocks.get? idx with
  | none => rw [hb] at h; exact absurd h (by simp)
  | some b =>
    simp only [hb] at h
    have hbd : blocks.getD idx ⟨none⟩ = b := by
      rw [List.getD_eq_get?, hb]; rfl
    by_cases hc : (¬ strContains (getBlockText b) kw = true)
    · rw [if_pos hc] at h
      exact absurd h (by simp)
    · rw [if_neg hc] at h
      cases hfp : forwardParts blocks idx 1 3 with
      | error e => simp only [hfp] at h; exact absurd h (by simp)
      | ok nextParts =>
        simp only [hfp] at h
        simp only [Except.ok.injEq, Option.some.injEq] at h
        obtain ⟨js, hmap, hbnd, hhd⟩ := forwardParts_spec blocks idx 3 1 nextParts hfp
        let prevJs : List Nat :=
          if 0 < idx then
            if getBlockText (blocks.getD (idx - 1) ⟨none⟩) = ("") then [] else [idx - 1]
          else []
        refine ⟨prevJs ++ idx :: js, ?_, by simp, ?_, ?_⟩
        · rw [← h]
          have hcb : getBlockText b = blockTextAt blocks idx := by
            unfold blockTextAt; rw [hbd]
          have hprev : (if 0 < idx then
              if getBlockText (blocks.getD (idx - 1) ⟨none⟩) = ("") then []
              else [getBlockText (blocks.getD (idx - 1) ⟨none⟩)]
              else []) = prevJs.map (fun j => blockTextAt blocks j) := by
            show _ = (if 0 < idx then
                if getBlockText (blocks.getD (idx - 1) ⟨none⟩) = ("") then []
                else [idx - 1] else []).map (fun j => blockTextAt blocks j)
            by_cases h0 : 0 < idx
            · rw [if_pos h0, if_pos h0]
              by_cases hpe : getBlockText (blocks.getD (idx - 1) ⟨none⟩) = ("")
              · rw [if_pos hpe, if_pos hpe]; rfl
              · rw [if_neg hpe, if_neg hpe]; rfl
            · rw [if_neg h0, if_neg h0]; rfl
          rw [hmap, hcb, hprev]
          simp only [List.map_append, List.map_cons]
          rw [List.append_assoc]
          rfl
        · intro j hj
          rcases List.mem_append.mp hj with hj | hj
          · have : j = idx - 1 ∧ 0 < idx := by
              by_cases h0 : 0 < idx
              · simp only [prevJs, if_pos h0] at hj
                by_cases hpe : getBlockText (blocks.getD (idx - 1) ⟨none⟩) = ("")
                · rw [if_pos hpe] at hj; simp at hj
                · rw [if_neg hpe] at hj
                  exact ⟨List.mem_singleton.mp hj, h0⟩
              · simp only [prevJs, if_neg h0] at hj; simp at hj
            omega
          · rcases List.mem_cons.mp hj with hj | hj
            · omega
            · obtain ⟨h1, h2, h3⟩ := hbnd j hj
              omega
        · intro j hj hij m hm1 hm2 hmne
          have hjs : j ∈ js := by
            rcases List.mem_append.mp hj with hj | hj
            · exfalso
              by_cases h0 : 0 < idx
              · simp only [prevJs, if_pos h0] at hj
                by_cases hpe : getBlockText (blocks.getD (idx - 1) ⟨none⟩) = ("")
                · rw [if_pos hpe] at hj; simp at hj
                · rw [if_neg hpe] at hj
                  have := List.mem_singleton.mp hj
                  omega
              · simp only [prevJs, if_neg h0] at hj; simp at hj
            · rcases List.mem_cons.mp hj with hj | hj
              · omega
              · exact hj
          exact hhd j hjs m (by omega) hm2 hmne

/-- One-span-per-line five-block document for the C5 witness: the window at
the matched block 1 takes the previous block, the match, one following
block, and stops at the upper-case heading block (which itself
contributes), excluding block 4. -/
def c5Blocks : List Block :=
  [Block.mk (some [Line.mk (some [Span.mk ("prior text.") none none])]),
   Block.mk (some [Line.mk (some [Span.mk ("alpha keyword.") none none])]),
   Block.mk (some [Line.mk (some [Span.mk ("beta one") none none])]),
   Block.mk (some [Line.mk (some [Span.mk ("GAMMA HEAD") none none])]),
   Block.mk (some [Line.mk (some [Span.mk ("delta after") none none])])]

/-- Witness for `findWindow_bounds`: a window spanning the previous block,
the matched block, and two following blocks (the second a heading). -/
theorem findWindow_bounds_witness :
    ∃ js : List Nat,
      ("prior text. alpha keyword. beta one GAMMA HEAD") =
        joinSpace (js.map (fun j => blockTextAt c5Blocks j)) ∧
      1 ∈ js ∧
      (∀ j ∈ js, 1 - 1 ≤ j ∧ j ≤ 1 + 3) ∧
      (∀ j ∈ js, 1 < j → ∀ m, 1 < m → m < j →
         blockTextAt c5Blocks m ≠ ("") →
         forwardHeaderCheck (c5Blocks.getD m ⟨none⟩) (blockTextAt c5Blocks m) =
           Except.ok false) :=
  findWindow_bounds c5Blocks ("keyword") 1 _ (by decide)

/-! ## C3: checkpoint skip and completed-set growth -/

/-- The checkpoint key `f"{doc_id}|{keyword}|{prompt_type}"` of a processing
unit. -/
def unitKey (docId kw : String) (pt : PromptType) : String :=
  docId ++ ("|") ++ kw ++ ("|") ++ pt.name

theorem unitKey_inj {docId kw kw2 : String} {pt : PromptType}
    (h : unitKey docId kw pt = unitKey docId kw2 pt) : kw = kw2 := by
  unfold unitKey at h
  have hd := congrArg String.data h
  simp only [String.data_append] at hd
  have h1 := List.append_cancel_right hd
  have h2 := List.append_cancel_right h1
  have h3 := List.append_cancel_left h2
  exact String.ext h3

theorem mem_setAdd_iff {l : List String} {k x : String} :
    x ∈ setAdd l k ↔ x ∈ l ∨ x = k := by
  unfold setAdd
  by_cases hc : l.contains k = true
  · rw [if_pos hc]
    constructor
    · exact Or.inl
    · intro h
      rcases h with h | h
      · exact h
      · rw [h]; exact List.mem_of_elem_eq_true hc
  · rw [if_neg hc]
    constructor
    · intro h
      rcases List.mem_append.mp h with h | h
      · exact Or.inl h
      · exact Or.inr (List.mem_singleton.mp h)
    · intro h
      rcases h with h | h
      · exact List.mem_append.mpr (Or.inl h)
      · exact List.mem_append.mpr (Or.inr (by simp [h]))

theorem lookup_setAssoc_self {β : Type} (m : List (String × β)) (k : String)
    (v : β) : (setAssoc m k v).lookup k = some v := by
  induction m with
  | nil => simp [setAssoc, List.lookup]
  | cons p ps ih =>
    simp only [setAssoc]
    by_cases hp : p.1 = k
    · rw [if_pos hp]
      simp [List.lookup]
    · rw [if_neg hp]
      have : (k == p.1) = false := by
        simp only [beq_eq_false_iff_ne, ne_eq]
        exact fun hc => hp hc.symm
      simp [List.lookup, this, ih]

theorem lookup_setAssoc_other {β : Type} (m : List (String × β))
    (k k' : String) (v : β) (h : k' ≠ k) :
    (setAssoc m k v).lookup k' = m.lookup k' := by
  induction m with
  | nil =>
    have hb : (k' == k) = false := by simp [h]
    simp [setAssoc, List.lookup, hb]
  | cons p ps ih =>
    simp only [setAssoc]
    by_cases hp : p.1 = k
    · rw [if_pos hp]
      have h1 : (k' == k) = false := by simp [h]
      have h2 : (k' == p.1) = false := by simp [hp, h]
      simp [List.lookup, h1, h2]
    · rw [if_neg hp]
      by_cases hk : k' = p.1
      · simp [List.lookup, hk]
      · have : (k' == p.1) = false := by simp [hk]
        simp [List.lookup, this, ih]

/-- The Q&A-text fold only touches `qa_text`. -/
theorem foldQaPair_fields (docId : String) (qas : List QAPair) :
    ∀ s : PdkState,
      ((qas.foldl (fun s qa => addQaPair s docId
          ((("Q: ")) ++ qa.question ++ ("\nA: ") ++ qa.answer)) s).processed_sections =
        s.processed_sections) ∧
      ((qas.foldl (fun s qa => addQaPair s docId
          ((("Q: ")) ++ qa.question ++ ("\nA: ") ++ qa.answer)) s).qa_json =
        s.qa_json) := by
  induction qas with
  | nil => intro s; exact ⟨rfl, rfl⟩
  | cons qa qas ih =>
    intro s
    simp only [List.foldl_cons]
    exact ih _

/-- Runs of the keyword loop preserve already-recorded completed units:
their key stays in the completed-set and their recorded bundle is
untouched. -/
theorem pdkLoop_preserves (prompts : List (String × String)) (retries delay : Nat)
    (oracle : String → Nat → AttemptOutcome) (docId policyDocName : String)
    (findings : List (String × List Occurrence)) (originalFilename : String)
    (pt : PromptType) :
    ∀ kws (st : PdkState) (trace : List (String × Nat)) (st' : PdkState)
      (trace' : List (String × Nat)),
      pdkLoop prompts retries delay oracle docId policyDocName findings
        originalFilename pt kws st trace = Except.ok (st', trace') →
      ∀ kw (bundle : KeywordBundle), unitKey docId kw pt ∈ st.processed_sections →
        ((st.qa_json.lookup policyDocName).getD []).lookup kw = some bundle →
        unitKey docId kw pt ∈ st'.processed_sections ∧
          ((st'.qa_json.lookup policyDocName).getD []).lookup kw = some bundle := by
  intro kws
  induction kws with
  | nil =>
    intro st trace st' trace' h kw bundle hmem hrec
    simp only [pdkLoop, Except.ok.injEq, Prod.mk.injEq] at h
    rw [← h.1]
    exact ⟨hmem, hrec⟩
  | cons kw2 kws ih =>
    intro st trace st' trace' h kw bundle hmem hrec
    simp only [pdkLoop] at h
    by_cases hin : (findings.map Prod.fst).contains kw2 = true
    · rw [if_neg (by simpa using hin)] at h
      by_cases hskip : st.processed_sections.contains
          (docId ++ ("|") ++ kw2 ++ ("|") ++ pt.name) = true
      · rw [if_pos hskip] at h
        exact ih st trace st' trace' h kw bundle hmem hrec
      · rw [if_neg hskip] at h
        by_cases hocc : (findingsGet findings kw2).isEmpty = true
        · rw [if_pos hocc] at h
          exact ih st trace st' trace' h kw bundle hmem hrec
        · rw [if_neg hocc] at h
          cases hgen : generate_qa_pairs prompts retries delay
              (oracle (docId ++ ("|") ++ kw2 ++ ("|") ++ pt.name)) policyDocName
              kw2 (findingsGet findings kw2) pt with
          | error e => rw [hgen] at h; exact absurd h (by simp)
          | ok r =>
            match r with
            | (qaPairs, sleeps, attempts) =>
              simp only [hgen] at h
              by_cases hqe : qaPairs.isEmpty = true
              · rw [if_pos hqe] at h
                exact ih st _ st' trace' h kw bundle hmem hrec
              · rw [if_neg hqe] at h
                have hkw : kw ≠ kw2 := by
                  intro hcontra
                  rw [hcontra] at hmem
                  exact absurd (List.elem_eq_true_of_mem hmem) (by simpa using hskip)
                set st1 := addKeywordContent st policyDocName kw2 qaPairs
                  (findingsGet findings kw2) originalFilename with hst1
                set st2 := qaPairs.foldl (fun s qa => addQaPair s docId
                  ((("Q: ")) ++ qa.question ++ ("\nA: ") ++ qa.answer)) st1 with hst2
                refine ih _ _ st' trace' h kw bundle ?_ ?_
                · show unitKey docId kw pt ∈ setAdd st2.processed_sections
                    (docId ++ ("|") ++ kw2 ++ ("|") ++ pt.name)
                  apply mem_setAdd_iff.mpr
                  left
                  rw [(foldQaPair_fields docId qaPairs st1).1, hst1]
                  exact hmem
                · show ((st2.qa_json.lookup policyDocName).getD []).lookup kw =
                    some bundle
                  rw [(foldQaPair_fields docId qaPairs st1).2, hst1]
                  unfold addKeywordContent
                  simp only
                  rw [lookup_setAssoc_self]
                  simp only [Option.getD_some]
                  rw [lookup_setAssoc_other _ _ _ _ hkw]
                  exact hrec
    · rw [if_pos (by simpa using hin)] at h
      exact ih st trace st' trace' h kw bundle hmem hrec

/-- The keyword loop: (A) every submission it makes is for a unit not in the
entry completed-set; (B) every key it adds to the completed-set comes with a
non-empty recorded Q&A bundle in the final state. -/
theorem pdkLoop_spec (prompts : List (String × String)) (retries delay : Nat)
    (oracle : String → Nat → AttemptOutcome) (docId policyDocName : String)
    (findings : List (String × List Occurrence)) (originalFilename : String)
    (pt : PromptType) :
    ∀ kws (st : PdkState) (trace : List (String × Nat)) (st' : PdkState)
      (trace' : List (String × Nat)),
      pdkLoop prompts retries delay oracle docId policyDocName findings
        originalFilename pt kws st trace = Except.ok (st', trace') →
      (∀ p ∈ trace', p ∈ trace ∨ p.1 ∉ st.processed_sections) ∧
      (∀ key, key ∈ st'.processed_sections → key ∈ st.processed_sections ∨
        ∃ kw bundle, key = unitKey docId kw pt ∧
          ((st'.qa_json.lookup policyDocName).getD []).lookup kw = some bundle ∧
          bundle.qa_pairs ≠ []) := by
  intro kws
  induction kws with
  | nil =>
    intro st trace st' trace' h
    simp only [pdkLoop, Except.ok.injEq, Prod.mk.injEq] at h
    constructor
    · intro p hp
      rw [← h.2] at hp
      exact Or.inl hp
    · intro key hkey
      rw [← h.1] at hkey
      exact Or.inl hkey
  | cons kw2 kws ih =>
    intro st trace st' trace' h
    simp only [pdkLoop] at h
    by_cases hin : (findings.map Prod.fst).contains kw2 = true
    · rw [if_neg (by simpa using hin)] at h
      by_cases hskip : st.processed_sections.contains
          (docId ++ ("|") ++ kw2 ++ ("|") ++ pt.name) = true
      · rw [if_pos hskip] at h
        exact ih st trace st' trace' h
      · rw [if_neg hskip] at h
        have hnotmem : (docId ++ ("|") ++ kw2 ++ ("|") ++ pt.name) ∉
            st.processed_sections := by
          intro hc
          exact absurd (List.elem_eq_true_of_mem hc) (by simpa using hskip)
        by_cases hocc : (findingsGet findings kw2).isEmpty = true
        · rw [if_pos hocc] at h
          exact ih st trace st' trace' h
        · rw [if_neg hocc] at h
          cases hgen : generate_qa_pairs prompts retries delay
              (oracle (docId ++ ("|") ++ kw2 ++ ("|") ++ pt.name)) policyDocName
              kw2 (findingsGet findings kw2) pt with
          | error e => rw [hgen] at h; exact absurd h (by simp)
          | ok r =>
            match r with
            | (qaPairs, sleeps, attempts) =>
              simp only [hgen] at h
              by_cases hqe : qaPairs.isEmpty = true
              · rw [if_pos hqe] at h
                obtain ⟨ihA, ihB⟩ := ih st _ st' trace' h
                constructor
                · intro p hp
                  rcases ihA p hp with hp2 | hp2
                  · rcases List.mem_append.mp hp2 with hp3 | hp3
                    · exact Or.inl hp3
                    · right
                      rw [List.mem_singleton.mp hp3]
                      exact hnotmem
                  · exact Or.inr hp2
                · exact ihB
              · rw [if_neg hqe] at h
                set st1 := addKeywordContent st policyDocName kw2 qaPairs
                  (findingsGet findings kw2) originalFilename with hst1
                set st2 := qaPairs.foldl (fun s qa => addQaPair s docId
                  ((("Q: ")) ++ qa.question ++ ("\nA: ") ++ qa.answer)) st1 with hst2
                obtain ⟨ihA, ihB⟩ := ih _ _ st' trace' h
                have hproc2 : st2.processed_sections = st.processed_sections := by
                  rw [(foldQaPair_fields docId qaPairs st1).1, hst1]
                  rfl
                constructor
                · intro p hp
                  rcases ihA p hp with hp2 | hp2
                  · rcases List.mem_append.mp hp2 with hp3 | hp3
                    · exact Or.inl hp3
                    · right
                      rw [List.mem_singleton.mp hp3]
                      exact hnotmem
                  · right
                    intro hc
                    apply hp2
                    show p.1 ∈ setAdd st2.processed_sections _
                    apply mem_setAdd_iff.mpr
                    left
                    rw [hproc2]
                    exact hc
                · intro key hkey
                  rcases ihB key hkey with hk | hk
                  · have hk2 : key ∈ setAdd st2.processed_sections
                        (docId ++ ("|") ++ kw2 ++ ("|") ++ pt.name) := hk
                    rcases mem_setAdd_iff.mp hk2 with hk3 | hk3
                    · rw [hproc2] at hk3
                      exact Or.inl hk3
                    · right
                      refine ⟨kw2, ⟨qaPairs, findingsGet findings kw2,
                        originalFilename⟩, hk3, ?_, by simpa using hqe⟩
                      have hrec2 : ((st2.qa_json.lookup policyDocName).getD
                          []).lookup kw2 = some ⟨qaPairs, findingsGet findings kw2,
                            originalFilename⟩ := by
                        rw [(foldQaPair_fields docId qaPairs st1).2, hst1]
                        unfold addKeywordContent
                        simp only
                        rw [lookup_setAssoc_self]
                        simp only [Option.getD_some]
                        rw [lookup_setAssoc_self]
                      have hmem2 : unitKey docId kw2 pt ∈
                          (setAdd st2.processed_sections
                            (docId ++ ("|") ++ kw2 ++ ("|") ++ pt.name)) := by
                        apply mem_setAdd_iff.mpr
                        right
                        rfl
                      exact (pdkLoop_preserves prompts retries delay oracle docId
                        policyDocName findings originalFilename pt kws _ _ st'
                        trace' h kw2 _ hmem2 hrec2).2
                  · exact Or.inr hk
    · rw [if_pos (by simpa using hin)] at h
      exact ih st trace st' trace' h

/-- C3: (A) a unit whose checkpoint key is already in the completed-set is
never submitted to the generation service — on any (in particular a
repeated) call of the driver with that state, no submission carries its
key; (B) a key is in the resulting completed-set only if it was already
completed or a non-empty Q&A result for its keyword was produced and is
recorded in the resulting output state (an empty result adds nothing). -/
theorem checkpoint_skip_and_completed_growth (cfgKeywords : List String)
    (prompts : List (String × String)) (retries delay : Nat)
    (oracle : String → Nat → AttemptOutcome) (docId : String)
    (findings : List (String × List Occurrence)) (originalFilename : String)
    (pt : PromptType) (st : PdkState) (res : PdkState × List (String × Nat))
    (h : process_document_keywords cfgKeywords prompts retries delay oracle
      docId findings originalFilename pt st = Except.ok res) :
    (∀ key ∈ st.processed_sections, ∀ p ∈ res.2, p.1 ≠ key) ∧
    (∀ key, key ∈ res.1.processed_sections → key ∈ st.processed_sections ∨
      ∃ kw bundle pdn, getPolicyDocName docId = Except.ok pdn ∧
        key = unitKey docId kw pt ∧
        ((res.1.qa_json.lookup pdn).getD []).lookup kw = some bundle ∧
        bundle.qa_pairs ≠ []) := by
  unfold process_document_keywords at h
  cases hpdn : getPolicyDocName docId with
  | error e => rw [hpdn] at h; exact absurd h (by simp)
  | ok pdn =>
    simp only [hpdn] at h
    obtain ⟨hA, hB⟩ := pdkLoop_spec prompts retries delay oracle docId pdn
      findings originalFilename pt cfgKeywords st [] res.1 res.2 (by rw [h])
    constructor
    · intro key hkey p hp
      rcases hA p hp with hc | hc
      · exact absurd hc (by simp)
      · intro he
        rw [he] at hc
        exact hc hkey
    · intro key hkey
      rcases hB key hkey with hc | ⟨kw, bundle, hkeq, hrec, hne⟩
      · exact Or.inl hc
      · exact Or.inr ⟨kw, bundle, pdn, rfl, hkeq, hrec, hne⟩

/-- The concrete driver state of the C3 witness run: one pre-completed unit
for another keyword, then keyword `kw1` succeeds and is completed. -/
def c3Res : PdkState × List (String × Nat) :=
  (PdkState.mk [("doc_001|kwX|default"), ("doc_001|kw1|default")]
    [(("doc_001"), [("Q: q based on x?\nA: a (p. 1)")])]
    [(("[POLICY_DOC_001]"),
      [(("kw1"), KeywordBundle.mk
        [QAPair.mk ("q based on x?") ("a (p. 1)")]
        [Occurrence.mk (some ("one"))
          (some (OccContent.mk (some ("sel")) (some ("ctx"))))]
        ("f.pdf"))])],
   [(("doc_001|kw1|default"), 1)])

/-- Witness for `checkpoint_skip_and_completed_growth` at a concrete run. -/
theorem checkpoint_skip_and_completed_growth_witness :
    (∀ key ∈ (PdkState.mk [("doc_001|kwX|default")] [] []).processed_sections,
      ∀ p ∈ c3Res.2, p.1 ≠ key) ∧
    (∀ key, key ∈ c3Res.1.processed_sections →
      key ∈ (PdkState.mk [("doc_001|kwX|default")] [] []).processed_sections ∨
      ∃ kw bundle pdn, getPolicyDocName ("doc_001") = Except.ok pdn ∧
        key = unitKey ("doc_001") kw PromptType.dflt ∧
        ((c3Res.1.qa_json.lookup pdn).getD []).lookup kw = some bundle ∧
        bundle.qa_pairs ≠ []) :=
  checkpoint_skip_and_completed_growth [("kw1")] [(("default"), ("t"))] 3 1
    (fun _ _ => AttemptOutcome.response 200 ("Q: q based on x?\nA: a (p. 1)"))
    ("doc_001")
    [(("kw1"), [Occurrence.mk (some ("one"))
      (some (OccContent.mk (some ("sel")) (some ("ctx"))))])]
    ("f.pdf") PromptType.dflt (PdkState.mk [("doc_001|kwX|default")] [] [])
    c3Res (by decide)

/-- Witness for `findWindow_total` at a concrete document. -/
theorem findWindow_total_witness :
    (findKeywordContext
      [Block.mk (some [Line.mk (some [Span.mk ("alpha keyword.") none none])]),
       Block.mk (some [Line.mk (some [Span.mk ("GAMMA HEAD") none none])])]
      ("keyword") 0).isOk = true :=
  findWindow_total _ _ 0 (by decide) (by decide)

/-! ## Masking idempotence: static analyses of the regex engine -/

/-- Can the expression match the empty string? -/
def nullable : Rx → Bool
  | .eps => true
  | .wb => true
  | .lit _ _ => false
  | .str _ cs => cs.isEmpty
  | .cls _ lo _ => lo == 0
  | .cat r1 r2 => nullable r1 && nullable r2
  | .alt r1 r2 => nullable r1 || nullable r2

/-- Over-approximation of the characters a parse of the expression can consume. -/
def acceptable : Rx → Char → Bool
  | .eps, _ => false
  | .wb, _ => false
  | .lit ci c, d => charEq ci c d
  | .str ci cs, d => cs.any (fun c => charEq ci c d)
  | .cls p _ _, d => p d
  | .cat r1 r2, d => acceptable r1 d || acceptable r2 d
  | .alt r1 r2, d => acceptable r1 d || acceptable r2 d

/-- The expression consumes nothing and passes the word-ness state through. -/
def epsOnly : Rx → Bool
  | .eps => true
  | .wb => true
  | .lit _ _ => false
  | .str _ cs => cs.isEmpty
  | .cls _ _ _ => false
  | .cat r1 r2 => epsOnly r1 && epsOnly r2
  | .alt r1 r2 => epsOnly r1 && epsOnly r2

/-- Every parse of the expression begins with a successful `\b` assertion. -/
def LeadsWb : Rx → Prop
  | .eps => False
  | .wb => True
  | .lit _ _ => False
  | .str _ _ => False
  | .cls _ _ _ => False
  | .cat r1 _ => LeadsWb r1
  | .alt r1 r2 => LeadsWb r1 ∧ LeadsWb r2

/-- Every parse of the expression ends with a successful `\b` assertion at
its right end. -/
def TrailsWb : Rx → Prop
  | .eps => False
  | .wb => True
  | .lit _ _ => False
  | .str _ _ => False
  | .cls _ _ _ => False
  | .cat r1 r2 => TrailsWb r2 ∨ (TrailsWb r1 ∧ epsOnly r2 = true)
  | .alt r1 r2 => TrailsWb r1 ∧ TrailsWb r2

/-- Whenever a parse consumes at least one character, the last consumed
character is a word character. -/
def EndsWord : Rx → Prop
  | .eps => True
  | .wb => True
  | .lit ci c => ∀ d, charEq ci c d = true → isWordChar d = true
  | .str ci cs => ∀ c, cs.getLast? = some c → ∀ d, charEq ci c d = true → isWordChar d = true
  | .cls p _ _ => ∀ c, p c = true → isWordChar c = true
  | .cat r1 r2 => EndsWord r2 ∧ (nullable r2 = true → EndsWord r1)
  | .alt r1 r2 => EndsWord r1 ∧ EndsWord r2

/-- Every parse of the expression consumes at least one character
satisfying `p`. -/
def Needs (p : Char → Bool) : Rx → Prop
  | .eps => False
  | .wb => False
  | .lit ci c => ∀ d, charEq ci c d = true → p d = true
  | .str ci cs => ∃ c ∈ cs, ∀ d, charEq ci c d = true → p d = true
  | .cls q lo _ => 1 ≤ lo ∧ ∀ d, q d = true → p d = true
  | .cat r1 r2 => Needs p r1 ∨ Needs p r2
  | .alt r1 r2 => Needs p r1 ∧ Needs p r2

/-- Membership in the descending interval list. -/
theorem mem_downFrom {k top lo : Nat} : k ∈ downFrom top lo ↔ lo ≤ k ∧ k ≤ top := by
  simp only [downFrom, List.mem_reverse, List.mem_range'_1]
  omega

/-- A matched literal is no longer than the subject. -/
theorem strMatch_length {ci : Bool} : ∀ {cs s : List Char},
    strMatch ci cs s = true → cs.length ≤ s.length := by
  intro cs
  induction cs with
  | nil => intro s _; simp
  | cons c cs ih =>
    intro s h
    match s with
    | [] => simp [strMatch] at h
    | d :: ds =>
      simp only [strMatch, Bool.and_eq_true] at h
      simpa using ih h.2

/-- The class run is bounded by the subject length. -/
theorem clsRun_le_length (p : Char → Bool) : ∀ s : List Char, clsRun p s ≤ s.length := by
  intro s
  induction s with
  | nil => simp [clsRun]
  | cons c cs ih =>
    simp only [clsRun, List.length_cons]
    split
    · omega
    · omega

/-- The class run dominates `k` exactly when the first `k` characters are
all in the class. -/
theorem le_clsRun_iff {p : Char → Bool} : ∀ {s : List Char} {k : Nat}, k ≤ s.length →
    (k ≤ clsRun p s ↔ ∀ c ∈ s.take k, p c = true) := by
  intro s
  induction s with
  | nil =>
    intro k hk
    have hk0 : k = 0 := by simpa using hk
    subst hk0
    simp
  | cons c cs ih =>
    intro k hk
    match k with
    | 0 => simp
    | j + 1 =>
      simp only [clsRun]
      by_cases hc : p c = true
      · rw [if_pos hc]
        simp only [List.take_succ_cons, List.mem_cons]
        constructor
        · intro h x hx
          rcases hx with rfl | hx
          · exact hc
          · exact ((ih (by simpa using hk)).mp (by omega)) x hx
        · intro h
          have hj : j ≤ clsRun p cs :=
            (ih (by simpa using hk)).mpr (fun x hx => h x (Or.inr hx))
          omega
      · rw [if_neg hc]
        constructor
        · omega
        · intro h
          exact absurd (h c (by simp)) hc

/-- Unpacking a concatenation parse. -/
theorem mem_matchLens_cat {r1 r2 : Rx} {prevW : Bool} {s : List Char} {n : Nat} {w : Bool} :
    (n, w) ∈ matchLens (Rx.cat r1 r2) prevW s ↔
      ∃ n1 w1 n2, (n1, w1) ∈ matchLens r1 prevW s ∧
        (n2, w) ∈ matchLens r2 w1 (s.drop n1) ∧ n = n1 + n2 := by
  simp only [matchLens, List.mem_flatMap, List.mem_map, Prod.exists]
  constructor
  · rintro ⟨n1, w1, h1, n2, w2, h2, heq⟩
    have hn : n1 + n2 = n := congrArg Prod.fst heq
    have hw : w2 = w := congrArg Prod.snd heq
    subst hw
    exact ⟨n1, w1, n2, h1, h2, hn.symm⟩
  · rintro ⟨n1, w1, n2, h1, h2, rfl⟩
    exact ⟨n1, w1, h1, n2, w, h2, rfl⟩

/-- Unpacking an alternation parse. -/
theorem mem_matchLens_alt {r1 r2 : Rx} {prevW : Bool} {s : List Char} {n : Nat} {w : Bool} :
    (n, w) ∈ matchLens (Rx.alt r1 r2) prevW s ↔
      (n, w) ∈ matchLens r1 prevW s ∨ (n, w) ∈ matchLens r2 prevW s := by
  simp [matchLens]

/-- Unpacking a bounded class parse. -/
theorem mem_matchLens_cls_some {p : Char → Bool} {lo h : Nat} {prevW : Bool}
    {s : List Char} {n : Nat} {w : Bool} :
    (n, w) ∈ matchLens (Rx.cls p lo (some h)) prevW s ↔
      lo ≤ n ∧ n ≤ clsRun p s ∧ n ≤ h ∧ w = lastWordness prevW s n := by
  simp only [matchLens, List.mem_map]
  constructor
  · rintro ⟨k, hk, heq⟩
    have hn : k = n := congrArg Prod.fst heq
    have hw : lastWordness prevW s k = w := congrArg Prod.snd heq
    subst hn
    rw [mem_downFrom] at hk
    exact ⟨hk.1, by omega, by omega, hw.symm⟩
  · rintro ⟨h1, h2, h3, rfl⟩
    exact ⟨n, by rw [mem_downFrom]; omega, rfl⟩

/-- Unpacking an unbounded class parse. -/
theorem mem_matchLens_cls_none {p : Char → Bool} {lo : Nat} {prevW : Bool}
    {s : List Char} {n : Nat} {w : Bool} :
    (n, w) ∈ matchLens (Rx.cls p lo none) prevW s ↔
      lo ≤ n ∧ n ≤ clsRun p s ∧ w = lastWordness prevW s n := by
  simp only [matchLens, List.mem_map]
  constructor
  · rintro ⟨k, hk, heq⟩
    have hn : k = n := congrArg Prod.fst heq
    have hw : lastWordness prevW s k = w := congrArg Prod.snd heq
    subst hn
    rw [mem_downFrom] at hk
    exact ⟨hk.1, hk.2, hw.symm⟩
  · rintro ⟨h1, h2, rfl⟩
    exact ⟨n, by rw [mem_downFrom]; omega, rfl⟩

/-- Every parse consumes at most the whole subject. -/
theorem mem_matchLens_length : ∀ (r : Rx) {prevW : Bool} {s : List Char} {n : Nat} {w : Bool},
    (n, w) ∈ matchLens r prevW s → n ≤ s.length := by
  intro r
  induction r with
  | eps =>
    intro prevW s n w h
    simp only [matchLens, List.mem_singleton, Prod.mk.injEq] at h
    omega
  | wb =>
    intro prevW s n w h
    simp only [matchLens] at h
    split at h
    · simp only [List.mem_singleton, Prod.mk.injEq] at h
      omega
    · simp at h
  | lit ci c =>
    intro prevW s n w h
    match s with
    | [] => simp [matchLens] at h
    | d :: ds =>
      simp only [matchLens] at h
      by_cases hc : charEq ci c d = true
      · rw [if_pos hc] at h
        simp only [List.mem_singleton, Prod.mk.injEq] at h
        rw [h.1]
        simp
      · rw [if_neg hc] at h
        simp at h
  | str ci cs =>
    intro prevW s n w h
    match cs with
    | [] =>
      simp only [matchLens, List.mem_singleton, Prod.mk.injEq] at h
      omega
    | c :: cs =>
      simp only [matchLens] at h
      split at h
      · simp only [List.mem_singleton, Prod.mk.injEq] at h
        rename_i hm
        rw [h.1]
        exact strMatch_length hm
      · simp at h
  | cls p lo hi =>
    intro prevW s n w h
    match hi with
    | none =>
      rw [mem_matchLens_cls_none] at h
      have := clsRun_le_length p s
      omega
    | some hb =>
      rw [mem_matchLens_cls_some] at h
      have := clsRun_le_length p s
      omega
  | cat r1 r2 ih1 ih2 =>
    intro prevW s n w h
    rw [mem_matchLens_cat] at h
    obtain ⟨n1, w1, n2, h1, h2, rfl⟩ := h
    have a1 := ih1 h1
    have a2 := ih2 h2
    rw [List.length_drop] at a2
    omega
  | alt r1 r2 ih1 ih2 =>
    intro prevW s n w h
    rw [mem_matchLens_alt] at h
    rcases h with h | h
    · exact ih1 h
    · exact ih2 h

/-- `getD` through `drop`. -/
theorem getD_drop (l : List Char) (m i : Nat) (d : Char) :
    (l.drop m).getD i d = l.getD (m + i) d := by
  simp [List.getD_eq_getElem?_getD, List.getElem?_drop]

/-- Word-ness state composes over consecutive consumed ranges. -/
theorem lastWordness_add (prevW : Bool) (s : List Char) (n1 n2 : Nat) :
    lastWordness (lastWordness prevW s n1) (s.drop n1) n2 = lastWordness prevW s (n1 + n2) := by
  match n2 with
  | 0 => simp [lastWordness]
  | j + 1 =>
    simp only [lastWordness, if_neg (by omega : ¬(j + 1 = 0)),
               if_neg (by omega : ¬(n1 + (j + 1) = 0))]
    rw [getD_drop]
    congr 1

/-- The word-ness component of a parse is the word-ness of the last
consumed character. -/
theorem mem_matchLens_wordness : ∀ (r : Rx) {prevW : Bool} {s : List Char} {n : Nat} {w : Bool},
    (n, w) ∈ matchLens r prevW s → w = lastWordness prevW s n := by
  intro r
  induction r with
  | eps =>
    intro prevW s n w h
    simp only [matchLens, List.mem_singleton, Prod.mk.injEq] at h
    rw [h.2, h.1]
    simp [lastWordness]
  | wb =>
    intro prevW s n w h
    simp only [matchLens] at h
    split at h
    · simp only [List.mem_singleton, Prod.mk.injEq] at h
      rw [h.2, h.1]
      simp [lastWordness]
    · simp at h
  | lit ci c =>
    intro prevW s n w h
    match s with
    | [] => simp [matchLens] at h
    | d :: ds =>
      simp only [matchLens] at h
      by_cases hc : charEq ci c d = true
      · rw [if_pos hc] at h
        simp only [List.mem_singleton, Prod.mk.injEq] at h
        rw [h.2, h.1]
        simp [lastWordness]
      · rw [if_neg hc] at h
        simp at h
  | str ci cs =>
    intro prevW s n w h
    match cs with
    | [] =>
      simp only [matchLens, List.mem_singleton, Prod.mk.injEq] at h
      rw [h.2, h.1]
      simp [lastWordness]
    | c :: cs =>
      simp only [matchLens] at h
      split at h
      · simp only [List.mem_singleton, Prod.mk.injEq] at h
        obtain ⟨h1, h2⟩ := h
        subst h1
        exact h2
      · simp at h
  | cls p lo hi =>
    intro prevW s n w h
    match hi with
    | none => exact (mem_matchLens_cls_none.mp h).2.2
    | some hb => exact (mem_matchLens_cls_some.mp h).2.2.2
  | cat r1 r2 ih1 ih2 =>
    intro prevW s n w h
    rw [mem_matchLens_cat] at h
    obtain ⟨n1, w1, n2, h1, h2, rfl⟩ := h
    have a1 := ih1 h1
    have a2 := ih2 h2
    rw [a2, a1, lastWordness_add]
  | alt r1 r2 ih1 ih2 =>
    intro prevW s n w h
    rw [mem_matchLens_alt] at h
    rcases h with h | h
    · exact ih1 h
    · exact ih2 h

/-- A zero-length parse forces syntactic nullability. -/
theorem mem_matchLens_nullable : ∀ (r : Rx) {prevW : Bool} {s : List Char} {w : Bool},
    (0, w) ∈ matchLens r prevW s → nullable r = true := by
  intro r
  induction r with
  | eps => intro prevW s w _; rfl
  | wb => intro prevW s w _; rfl
  | lit ci c =>
    intro prevW s w h
    match s with
    | [] => simp [matchLens] at h
    | d :: ds =>
      simp only [matchLens] at h
      by_cases hc : charEq ci c d = true
      · rw [if_pos hc] at h
        simp at h
      · rw [if_neg hc] at h
        simp at h
  | str ci cs =>
    intro prevW s w h
    match cs with
    | [] => rfl
    | c :: cs =>
      simp only [matchLens] at h
      split at h
      · simp at h
      · simp at h
  | cls p lo hi =>
    intro prevW s w h
    match hi with
    | none =>
      have := (mem_matchLens_cls_none.mp h).1
      simp only [nullable, beq_iff_eq]
      omega
    | some hb =>
      have := (mem_matchLens_cls_some.mp h).1
      simp only [nullable, beq_iff_eq]
      omega
  | cat r1 r2 ih1 ih2 =>
    intro prevW s w h
    rw [mem_matchLens_cat] at h
    obtain ⟨n1, w1, n2, h1, h2, hn⟩ := h
    have e1 : n1 = 0 := by omega
    have e2 : n2 = 0 := by omega
    subst e1
    subst e2
    simp only [nullable, Bool.and_eq_true]
    exact ⟨ih1 h1, ih2 h2⟩
  | alt r1 r2 ih1 ih2 =>
    intro prevW s w h
    rw [mem_matchLens_alt] at h
    simp only [nullable, Bool.or_eq_true]
    rcases h with h | h
    · exact Or.inl (ih1 h)
    · exact Or.inr (ih2 h)

/-- An `epsOnly` expression consumes nothing and preserves the word-ness
state. -/
theorem epsOnly_matchLens : ∀ (r : Rx), epsOnly r = true →
    ∀ {prevW : Bool} {s : List Char} {n : Nat} {w : Bool},
    (n, w) ∈ matchLens r prevW s → n = 0 ∧ w = prevW := by
  intro r
  induction r with
  | eps =>
    intro _ prevW s n w h
    simp only [matchLens, List.mem_singleton, Prod.mk.injEq] at h
    exact h
  | wb =>
    intro _ prevW s n w h
    simp only [matchLens] at h
    split at h
    · simp only [List.mem_singleton, Prod.mk.injEq] at h
      exact h
    · simp at h
  | lit ci c =>
    intro he
    simp [epsOnly] at he
  | str ci cs =>
    intro he prevW s n w h
    match cs with
    | [] =>
      simp only [matchLens, List.mem_singleton, Prod.mk.injEq] at h
      exact h
    | c :: cs => simp [epsOnly] at he
  | cls p lo hi =>
    intro he
    simp [epsOnly] at he
  | cat r1 r2 ih1 ih2 =>
    intro he prevW s n w h
    simp only [epsOnly, Bool.and_eq_true] at he
    rw [mem_matchLens_cat] at h
    obtain ⟨n1, w1, n2, h1, h2, rfl⟩ := h
    obtain ⟨e1, e2⟩ := ih1 he.1 h1
    subst e1
    subst e2
    rw [List.drop_zero] at h2
    obtain ⟨e3, e4⟩ := ih2 he.2 h2
    exact ⟨by omega, e4⟩
  | alt r1 r2 ih1 ih2 =>
    intro he prevW s n w h
    simp only [epsOnly, Bool.and_eq_true] at he
    rw [mem_matchLens_alt] at h
    rcases h with h | h
    · exact ih1 he.1 h
    · exact ih2 he.2 h

/-- A parse of an expression with a leading `\b` certifies a word boundary
at its start. -/
theorem leadsWb_boundary : ∀ (r : Rx), LeadsWb r →
    ∀ {prevW : Bool} {s : List Char} {n : Nat} {w : Bool},
    (n, w) ∈ matchLens r prevW s → boundaryOk prevW s = true := by
  intro r
  induction r with
  | eps => intro hl; exact hl.elim
  | wb =>
    intro _ prevW s n w h
    simp only [matchLens] at h
    split at h
    · rename_i hb
      exact hb
    · simp at h
  | lit ci c => intro hl; exact hl.elim
  | str ci cs => intro hl; exact hl.elim
  | cls p lo hi => intro hl; exact hl.elim
  | cat r1 r2 ih1 ih2 =>
    intro hl prevW s n w h
    rw [mem_matchLens_cat] at h
    obtain ⟨n1, w1, n2, h1, h2, rfl⟩ := h
    exact ih1 hl h1
  | alt r1 r2 ih1 ih2 =>
    intro hl prevW s n w h
    rw [mem_matchLens_alt] at h
    rcases h with h | h
    · exact ih1 hl.1 h
    · exact ih2 hl.2 h

/-- A parse of an expression with a trailing `\b` certifies a word boundary
at its end. -/
theorem trailsWb_boundary : ∀ (r : Rx), TrailsWb r →
    ∀ {prevW : Bool} {s : List Char} {n : Nat} {w : Bool},
    (n, w) ∈ matchLens r prevW s → boundaryOk w (s.drop n) = true := by
  intro r
  induction r with
  | eps => intro hl; exact hl.elim
  | wb =>
    intro _ prevW s n w h
    simp only [matchLens] at h
    split at h
    · rename_i hb
      simp only [List.mem_singleton, Prod.mk.injEq] at h
      rw [h.2, h.1, List.drop_zero]
      exact hb
    · simp at h
  | lit ci c => intro hl; exact hl.elim
  | str ci cs => intro hl; exact hl.elim
  | cls p lo hi => intro hl; exact hl.elim
  | cat r1 r2 ih1 ih2 =>
    intro hl prevW s n w h
    rw [mem_matchLens_cat] at h
    obtain ⟨n1, w1, n2, h1, h2, rfl⟩ := h
    rcases hl with hl | ⟨hl1, he2⟩
    · have := ih2 hl h2
      rw [List.drop_drop] at this
      exact this
    · obtain ⟨e1, e2⟩ := epsOnly_matchLens r2 he2 h2
      subst e1
      subst e2
      have := ih1 hl1 h1
      simpa using this
  | alt r1 r2 ih1 ih2 =>
    intro hl prevW s n w h
    rw [mem_matchLens_alt] at h
    rcases h with h | h
    · exact ih1 hl.1 h
    · exact ih2 hl.2 h

/-- `Char.toNat` of a character built from a valid scalar value. -/
theorem toNat_ofNat_valid (n : Nat) (h : n.isValidChar) : (Char.ofNat n).toNat = n := by
  unfold Char.ofNat
  rw [dif_pos h]
  unfold Char.ofNatAux
  simp [Char.toNat, UInt32.toNat]

/-- `isWordChar` in terms of the scalar value. -/
theorem isWordChar_iff (c : Char) : isWordChar c = true ↔
    (48 ≤ c.toNat ∧ c.toNat ≤ 57) ∨ (65 ≤ c.toNat ∧ c.toNat ≤ 90) ∨
    (97 ≤ c.toNat ∧ c.toNat ≤ 122) ∨ c.toNat = 95 := by
  have h95 : (c = '_') ↔ c.toNat = 95 := by
    constructor
    · rintro rfl; rfl
    · intro h
      have : c.val.toBitVec = ('_' : Char).val.toBitVec := by
        apply BitVec.eq_of_toNat_eq
        exact h
      exact Char.eq_of_val_eq (UInt32.eq_of_toBitVec_eq this)
  simp only [isWordChar, Char.isAlphanum, Char.isAlpha, Char.isUpper, Char.isLower,
             Char.isDigit, Bool.or_eq_true, Bool.and_eq_true, decide_eq_true_eq,
             ge_iff_le, h95]
  simp only [UInt32.le_def, BitVec.le_def, UInt32.toNat, Char.toNat]
  norm_num
  omega

/-- The scalar value of the lower-cased character. -/
theorem toLower_toNat (c : Char) : (c.toLower).toNat =
    if 65 ≤ c.toNat ∧ c.toNat ≤ 90 then c.toNat + 32 else c.toNat := by
  simp only [Char.toLower]
  split
  · rename_i h
    rw [toNat_ofNat_valid _ (by left; omega)]
  · rfl

/-- Lower-casing does not change word-character status. -/
theorem isWordChar_toLower (c : Char) : isWordChar c.toLower = isWordChar c := by
  have h1 := isWordChar_iff c.toLower
  have h2 := isWordChar_iff c
  have h3 := toLower_toNat c
  by_cases h : 65 ≤ c.toNat ∧ c.toNat ≤ 90
  · rw [if_pos h] at h3
    have hL : isWordChar c.toLower = true := h1.mpr (by omega)
    have hR : isWordChar c = true := h2.mpr (by omega)
    rw [hL, hR]
  · rw [if_neg h] at h3
    by_cases hc : isWordChar c = true
    · rw [hc]
      exact h1.mpr (by have := h2.mp hc; omega)
    · have hc2 : isWordChar c = false := by simpa using hc
      rw [hc2]
      by_cases hd : isWordChar c.toLower = true
      · exfalso
        exact hc (h2.mpr (by have := h1.mp hd; omega))
      · simpa using hd

/-- A character equal (possibly case-insensitively) to a word character is
itself a word character. -/
theorem charEq_word {ci : Bool} {c d : Char} (h : charEq ci c d = true)
    (hc : isWordChar c = true) : isWordChar d = true := by
  unfold charEq at h
  split at h
  · have he : c.toLower = d.toLower := by simpa using h
    rw [← isWordChar_toLower d, ← he, isWordChar_toLower c]
    exact hc
  · have he : c = d := by simpa using h
    rw [← he]
    exact hc

/-- Digits are word characters. -/
theorem isDigit_isWordChar {c : Char} (h : c.isDigit = true) : isWordChar c = true := by
  simp [isWordChar, Char.isAlphanum, h]

/-- Letters are word characters. -/
theorem isAlpha_isWordChar {c : Char} (h : c.isAlpha = true) : isWordChar c = true := by
  simp [isWordChar, Char.isAlphanum, h]

/-- Lower-case letters are word characters. -/
theorem isLower_isWordChar {c : Char} (h : c.isLower = true) : isWordChar c = true := by
  simp [isWordChar, Char.isAlphanum, Char.isAlpha, h]

/-- An element of an indexed position is a member. -/
theorem getD_mem : ∀ {s : List Char} {i : Nat}, i < s.length → s.getD i ' ' ∈ s := by
  intro s
  induction s with
  | nil => intro i h; simp at h
  | cons c cs ih =>
    intro i h
    match i with
    | 0 => simp
    | j + 1 =>
      rw [List.getD_cons_succ]
      exact List.mem_cons_of_mem c (ih (by simpa using h))

/-- An indexed position inside the taken prefix is a member of it. -/
theorem getD_mem_take : ∀ {s : List Char} {i n : Nat}, i < n → i < s.length →
    s.getD i ' ' ∈ s.take n := by
  intro s
  induction s with
  | nil => intro i n _ h; simp at h
  | cons c cs ih =>
    intro i n hin hil
    match n, i with
    | 0, _ => omega
    | m + 1, 0 => simp
    | m + 1, j + 1 =>
      rw [List.getD_cons_succ, List.take_succ_cons]
      exact List.mem_cons_of_mem c (ih (by omega) (by simpa using hil))

/-- Every member of a taken prefix sits at an index inside it. -/
theorem mem_take_getD {x : Char} : ∀ {s : List Char} {n : Nat}, x ∈ s.take n →
    ∃ i, i < n ∧ i < s.length ∧ s.getD i ' ' = x := by
  intro s
  induction s with
  | nil => intro n h; simp at h
  | cons c cs ih =>
    intro n h
    match n with
    | 0 => simp at h
    | j + 1 =>
      rw [List.take_succ_cons] at h
      rcases List.mem_cons.mp h with rfl | h
      · exact ⟨0, by omega, by simp, rfl⟩
      · obtain ⟨i, h1, h2, h3⟩ := ih h
        exact ⟨i + 1, by omega, by simpa using h2, by simpa using h3⟩

/-- Every member sits at an index. -/
theorem mem_getD_index {x : Char} : ∀ {s : List Char}, x ∈ s →
    ∃ i, i < s.length ∧ s.getD i ' ' = x := by
  intro s
  induction s with
  | nil => intro h; simp at h
  | cons c cs ih =>
    intro h
    rcases List.mem_cons.mp h with rfl | h
    · exact ⟨0, by simp, rfl⟩
    · obtain ⟨i, h1, h2⟩ := ih h
      exact ⟨i + 1, by simpa using h1, by simpa using h2⟩

/-- A literal match constrains the subject position-by-position. -/
theorem strMatch_pointwise {ci : Bool} : ∀ {cs s : List Char}, strMatch ci cs s = true →
    ∀ i, i < cs.length → charEq ci (cs.getD i ' ') (s.getD i ' ') = true := by
  intro cs
  induction cs with
  | nil => intro s _ i hi; simp at hi
  | cons c cs ih =>
    intro s h i hi
    match s with
    | [] => simp [strMatch] at h
    | d :: ds =>
      simp only [strMatch, Bool.and_eq_true] at h
      match i with
      | 0 => simpa using h.1
      | j + 1 =>
        rw [List.getD_cons_succ, List.getD_cons_succ]
        exact ih h.2 j (by simpa using hi)

/-- Every character consumed by a parse is acceptable to the expression. -/
theorem mem_matchLens_acceptable : ∀ (r : Rx) {prevW : Bool} {s : List Char} {n : Nat}
    {w : Bool}, (n, w) ∈ matchLens r prevW s → ∀ c ∈ s.take n, acceptable r c = true := by
  intro r
  induction r with
  | eps =>
    intro prevW s n w h
    simp only [matchLens, List.mem_singleton, Prod.mk.injEq] at h
    rw [h.1]
    simp
  | wb =>
    intro prevW s n w h
    simp only [matchLens] at h
    split at h
    · simp only [List.mem_singleton, Prod.mk.injEq] at h
      rw [h.1]
      simp
    · simp at h
  | lit ci c =>
    intro prevW s n w h
    match s with
    | [] => simp [matchLens] at h
    | d :: ds =>
      simp only [matchLens] at h
      by_cases hc : charEq ci c d = true
      · rw [if_pos hc] at h
        simp only [List.mem_singleton, Prod.mk.injEq] at h
        rw [h.1]
        intro x hx
        simp only [List.take_succ_cons, List.take_zero, List.mem_singleton] at hx
        subst hx
        exact hc
      · rw [if_neg hc] at h
        simp at h
  | str ci cs =>
    intro prevW s n w h
    match cs with
    | [] =>
      simp only [matchLens, List.mem_singleton, Prod.mk.injEq] at h
      rw [h.1]
      simp
    | c :: cs =>
      simp only [matchLens] at h
      split at h
      · rename_i hm
        simp only [List.mem_singleton, Prod.mk.injEq] at h
        rw [h.1]
        intro x hx
        obtain ⟨i, hi1, hi2, hi3⟩ := mem_take_getD hx
        simp only [acceptable, List.any_eq_true]
        refine ⟨(c :: cs).getD i ' ', getD_mem hi1, ?_⟩
        rw [← hi3]
        exact strMatch_pointwise hm i hi1
      · simp at h
  | cls p lo hi =>
    intro prevW s n w h
    have hrun : n ≤ clsRun p s := by
      match hi with
      | none => exact (mem_matchLens_cls_none.mp h).2.1
      | some hb => exact (mem_matchLens_cls_some.mp h).2.1
    have hlen : n ≤ s.length := le_trans hrun (clsRun_le_length p s)
    intro x hx
    exact (le_clsRun_iff hlen).mp hrun x hx
  | cat r1 r2 ih1 ih2 =>
    intro prevW s n w h
    rw [mem_matchLens_cat] at h
    obtain ⟨n1, w1, n2, h1, h2, rfl⟩ := h
    intro x hx
    rw [List.take_add] at hx
    simp only [acceptable, Bool.or_eq_true]
    rcases List.mem_append.mp hx with hx | hx
    · exact Or.inl (ih1 h1 x hx)
    · exact Or.inr (ih2 h2 x hx)
  | alt r1 r2 ih1 ih2 =>
    intro prevW s n w h
    rw [mem_matchLens_alt] at h
    intro x hx
    simp only [acceptable, Bool.or_eq_true]
    rcases h with h | h
    · exact Or.inl (ih1 h x hx)
    · exact Or.inr (ih2 h x hx)

/-- A parse of an expression that needs a `p`-character consumes one. -/
theorem needs_matchLens : ∀ (r : Rx) {p : Char → Bool}, Needs p r →
    ∀ {prevW : Bool} {s : List Char} {n : Nat} {w : Bool},
    (n, w) ∈ matchLens r prevW s → ∃ c ∈ s.take n, p c = true := by
  intro r
  induction r with
  | eps => intro p hN; exact hN.elim
  | wb => intro p hN; exact hN.elim
  | lit ci c =>
    intro p hN prevW s n w h
    match s with
    | [] => simp [matchLens] at h
    | d :: ds =>
      simp only [matchLens] at h
      by_cases hc : charEq ci c d = true
      · rw [if_pos hc] at h
        simp only [List.mem_singleton, Prod.mk.injEq] at h
        rw [h.1]
        exact ⟨d, by simp, hN d hc⟩
      · rw [if_neg hc] at h
        simp at h
  | str ci cs =>
    intro p hN prevW s n w h
    match cs with
    | [] =>
      obtain ⟨c0, hc0, _⟩ := hN
      simp at hc0
    | c :: cs =>
      simp only [matchLens] at h
      split at h
      · rename_i hm
        simp only [List.mem_singleton, Prod.mk.injEq] at h
        rw [h.1]
        obtain ⟨c0, hc0, hc0p⟩ := hN
        obtain ⟨i, hi1, hi2⟩ := mem_getD_index hc0
        have hlen := strMatch_length hm
        refine ⟨s.getD i ' ', getD_mem_take hi1 (by omega), ?_⟩
        apply hc0p
        rw [← hi2]
        exact strMatch_pointwise hm i hi1
      · simp at h
  | cls q lo hi =>
    intro p hN prevW s n w h
    obtain ⟨hlo, hsub⟩ := hN
    have hd : lo ≤ n ∧ n ≤ clsRun q s := by
      match hi with
      | none =>
        have := mem_matchLens_cls_none.mp h
        exact ⟨this.1, this.2.1⟩
      | some hb =>
        have := mem_matchLens_cls_some.mp h
        exact ⟨this.1, this.2.1⟩
    have hlen : n ≤ s.length := le_trans hd.2 (clsRun_le_length q s)
    refine ⟨s.getD 0 ' ', getD_mem_take (by omega) (by omega), ?_⟩
    exact hsub _ ((le_clsRun_iff hlen).mp hd.2 _ (getD_mem_take (by omega) (by omega)))
  | cat r1 r2 ih1 ih2 =>
    intro p hN prevW s n w h
    rw [mem_matchLens_cat] at h
    obtain ⟨n1, w1, n2, h1, h2, rfl⟩ := h
    rcases hN with hN | hN
    · obtain ⟨c, hc, hcp⟩ := ih1 hN h1
      refine ⟨c, ?_, hcp⟩
      have he : s.take n1 = (s.take (n1 + n2)).take n1 := by
        rw [List.take_take]
        congr 1
        omega
      rw [he] at hc
      exact List.take_subset _ _ hc
    · obtain ⟨c, hc, hcp⟩ := ih2 hN h2
      refine ⟨c, ?_, hcp⟩
      rw [List.take_add]
      exact List.mem_append_right _ hc
  | alt r1 r2 ih1 ih2 =>
    intro p hN prevW s n w h
    rw [mem_matchLens_alt] at h
    rcases h with h | h
    · exact ih1 hN.1 h
    · exact ih2 hN.2 h

/-- The last character consumed by the last consumed item. -/
theorem getLast?_cons_getD (c : Char) (cs : List Char) :
    (c :: cs).getLast? = some ((c :: cs).getD ((c :: cs).length - 1) ' ') := by
  rw [List.getLast?_eq_getElem?, List.getD_eq_getElem?_getD]
  rw [List.getElem?_eq_getElem (by simp)]
  rfl

/-- A non-empty parse of an `EndsWord` expression ends on a word character. -/
theorem endsWord_matchLens : ∀ (r : Rx), EndsWord r →
    ∀ {prevW : Bool} {s : List Char} {n : Nat} {w : Bool},
    (n, w) ∈ matchLens r prevW s → 1 ≤ n → w = true := by
  intro r
  induction r with
  | eps =>
    intro hE prevW s n w h hn
    simp only [matchLens, List.mem_singleton, Prod.mk.injEq] at h
    omega
  | wb =>
    intro hE prevW s n w h hn
    simp only [matchLens] at h
    split at h
    · simp only [List.mem_singleton, Prod.mk.injEq] at h
      omega
    · simp at h
  | lit ci c =>
    intro hE prevW s n w h hn
    match s with
    | [] => simp [matchLens] at h
    | d :: ds =>
      simp only [matchLens] at h
      by_cases hc : charEq ci c d = true
      · rw [if_pos hc] at h
        simp only [List.mem_singleton, Prod.mk.injEq] at h
        rw [h.2]
        exact hE d hc
      · rw [if_neg hc] at h
        simp at h
  | str ci cs =>
    intro hE prevW s n w h hn
    match cs with
    | [] =>
      simp only [matchLens, List.mem_singleton, Prod.mk.injEq] at h
      omega
    | c :: cs =>
      simp only [matchLens] at h
      split at h
      · rename_i hm
        simp only [List.mem_singleton, Prod.mk.injEq] at h
        have hlen := strMatch_length hm
        have hL : (c :: cs).length - 1 < (c :: cs).length := by simp
        rw [h.2]
        unfold lastWordness
        rw [if_neg (by simp)]
        apply hE ((c :: cs).getD ((c :: cs).length - 1) ' ') (getLast?_cons_getD c cs)
        exact strMatch_pointwise hm _ hL
      · simp at h
  | cls p lo hi =>
    intro hE prevW s n w h hn
    have hd : n ≤ clsRun p s ∧ w = lastWordness prevW s n := by
      match hi with
      | none =>
        have := mem_matchLens_cls_none.mp h
        exact ⟨this.2.1, this.2.2⟩
      | some hb =>
        have := mem_matchLens_cls_some.mp h
        exact ⟨this.2.1, this.2.2.2⟩
    have hlen : n ≤ s.length := le_trans hd.1 (clsRun_le_length p s)
    rw [hd.2]
    unfold lastWordness
    rw [if_neg (by omega)]
    apply hE
    exact (le_clsRun_iff hlen).mp hd.1 _ (getD_mem_take (by omega) (by omega))
  | cat r1 r2 ih1 ih2 =>
    intro hE prevW s n w h hn
    rw [mem_matchLens_cat] at h
    obtain ⟨n1, w1, n2, h1, h2, rfl⟩ := h
    by_cases h20 : 1 ≤ n2
    · exact ih2 hE.1 h2 h20
    · have e2 : n2 = 0 := by omega
      subst e2
      have hw : w = w1 := by
        have := mem_matchLens_wordness r2 h2
        simpa [lastWordness] using this
      rw [hw]
      have hnull : nullable r2 = true := mem_matchLens_nullable r2 h2
      exact ih1 (hE.2 hnull) h1 (by omega)
  | alt r1 r2 ih1 ih2 =>
    intro hE prevW s n w h hn
    rw [mem_matchLens_alt] at h
    rcases h with h | h
    · exact ih1 hE.1 h hn
    · exact ih2 hE.2 h hn

/-- Equal prefixes give equal indexed access below the prefix length. -/
theorem getElem?_eq_of_take_eq {s s2 : List Char} {n i : Nat} (h : s.take n = s2.take n)
    (hi : i < n) : s[i]? = s2[i]? := by
  rw [← @List.getElem?_take_of_lt _ s n i hi, ← @List.getElem?_take_of_lt _ s2 n i hi, h]

/-- Equal prefixes give equal `getD` below the prefix length. -/
theorem getD_eq_of_take_eq {s s2 : List Char} {n i : Nat} (h : s.take n = s2.take n)
    (hi : i < n) : s.getD i ' ' = s2.getD i ' ' := by
  rw [List.getD_eq_getElem?_getD, List.getD_eq_getElem?_getD, getElem?_eq_of_take_eq h hi]

/-- Equal prefixes preserve the word-ness state after `n` characters. -/
theorem lastWordness_eq_of_take_eq {prevW : Bool} {s s2 : List Char} {n : Nat}
    (h : s.take n = s2.take n) : lastWordness prevW s n = lastWordness prevW s2 n := by
  match n with
  | 0 => rfl
  | j + 1 =>
    unfold lastWordness
    rw [if_neg (by omega), if_neg (by omega)]
    rw [getD_eq_of_take_eq h (by omega)]

/-- `headIsWord` through optional indexing. -/
theorem headIsWord_eq_getElem? (s : List Char) :
    headIsWord s = (s[0]?.map isWordChar).getD false := by
  cases s <;> simp [headIsWord]

/-- Equal characters at position `k` give equal head-word-ness after `drop k`. -/
theorem headIsWord_drop_congr {s s2 : List Char} {k : Nat} (h : s[k]? = s2[k]?) :
    headIsWord (s.drop k) = headIsWord (s2.drop k) := by
  rw [headIsWord_eq_getElem?, headIsWord_eq_getElem?,
      List.getElem?_drop, List.getElem?_drop]
  rw [Nat.add_zero, h]

/-- A shorter equal prefix from a longer one. -/
theorem take_eq_of_take_eq_le {s s2 : List Char} {n m : Nat} (h : s.take n = s2.take n)
    (hm : m ≤ n) : s.take m = s2.take m := by
  have h1 : (s.take n).take m = (s2.take n).take m := by rw [h]
  rw [List.take_take, List.take_take] at h1
  have he : m ⊓ n = m := by omega
  rw [he] at h1
  exact h1

/-- Equal prefixes restrict to equal middle segments. -/
theorem take_drop_of_take_eq {s s2 : List Char} {n1 n2 : Nat}
    (h : s.take (n1 + n2) = s2.take (n1 + n2)) :
    (s.drop n1).take n2 = (s2.drop n1).take n2 := by
  have h1 : s.take n1 ++ (s.drop n1).take n2 = s2.take n1 ++ (s2.drop n1).take n2 := by
    rw [← List.take_add, ← List.take_add, h]
  have h2 : s.take n1 = s2.take n1 := take_eq_of_take_eq_le h (by omega)
  rw [h2] at h1
  exact List.append_cancel_left h1

/-- Equal prefixes imply a length bound transfer. -/
theorem le_length_of_take_eq {s s2 : List Char} {n : Nat} (h : s.take n = s2.take n)
    (hl : n ≤ s.length) : n ≤ s2.length := by
  have h1 : (s.take n).length = (s2.take n).length := by rw [h]
  rw [List.length_take, List.length_take] at h1
  omega

/-- Literal matching only looks at the prefix of the literal's length. -/
theorem strMatch_congr {ci : Bool} : ∀ {cs s s2 : List Char}, strMatch ci cs s = true →
    s.take cs.length = s2.take cs.length → strMatch ci cs s2 = true := by
  intro cs
  induction cs with
  | nil => intro s s2 _ _; rfl
  | cons c cs ih =>
    intro s s2 h ht
    match s with
    | [] => simp [strMatch] at h
    | d :: ds =>
      match s2 with
      | [] =>
        simp only [List.length_cons, List.take_succ_cons] at ht
        simp at ht
      | e :: es =>
        simp only [List.length_cons, List.take_succ_cons] at ht
        simp only [List.cons.injEq] at ht
        simp only [strMatch, Bool.and_eq_true] at h ⊢
        exact ⟨ht.1 ▸ h.1, ih h.2 ht.2⟩

/-- A parse depends only on the consumed prefix and on the word-ness of the
first character after it. -/
theorem matchLens_local : ∀ (r : Rx) {prevW : Bool} {s s2 : List Char} {n : Nat} {w : Bool},
    (n, w) ∈ matchLens r prevW s → s.take n = s2.take n →
    headIsWord (s.drop n) = headIsWord (s2.drop n) →
    (n, w) ∈ matchLens r prevW s2 := by
  intro r
  induction r with
  | eps =>
    intro prevW s s2 n w h ht hh
    simp only [matchLens, List.mem_singleton, Prod.mk.injEq] at h ⊢
    exact h
  | wb =>
    intro prevW s s2 n w h ht hh
    simp only [matchLens] at h ⊢
    split at h
    · rename_i hb
      simp only [List.mem_singleton, Prod.mk.injEq] at h
      obtain ⟨rfl, rfl⟩ := h
      rw [List.drop_zero, List.drop_zero] at hh
      rw [if_pos (by unfold boundaryOk at hb ⊢; rw [← hh]; exact hb)]
      simp
    · simp at h
  | lit ci c =>
    intro prevW s s2 n w h ht hh
    match s with
    | [] => simp [matchLens] at h
    | d :: ds =>
      simp only [matchLens] at h
      by_cases hc : charEq ci c d = true
      · rw [if_pos hc] at h
        simp only [List.mem_singleton, Prod.mk.injEq] at h
        obtain ⟨rfl, rfl⟩ := h
        match s2 with
        | [] => simp at ht
        | e :: es =>
          simp only [List.take_succ_cons, List.take_zero, List.cons.injEq] at ht
          obtain ⟨rfl, -⟩ := ht
          simp only [matchLens]
          rw [if_pos hc]
          simp
      · rw [if_neg hc] at h
        simp at h
  | str ci cs =>
    intro prevW s s2 n w h ht hh
    match cs with
    | [] =>
      simp only [matchLens, List.mem_singleton, Prod.mk.injEq] at h ⊢
      exact h
    | c :: cs =>
      simp only [matchLens] at h ⊢
      split at h
      · rename_i hm
        simp only [List.mem_singleton, Prod.mk.injEq] at h
        obtain ⟨rfl, rfl⟩ := h
        rw [if_pos (strMatch_congr hm ht)]
        simp only [List.mem_singleton, Prod.mk.injEq, true_and]
        exact lastWordness_eq_of_take_eq ht
      · simp at h
  | cls p lo hi =>
    intro prevW s s2 n w h ht hh
    have hrun : lo ≤ n ∧ n ≤ clsRun p s ∧ w = lastWordness prevW s n := by
      match hi with
      | none =>
        have := mem_matchLens_cls_none.mp h
        exact ⟨this.1, this.2.1, this.2.2⟩
      | some hb =>
        have := mem_matchLens_cls_some.mp h
        exact ⟨this.1, this.2.1, this.2.2.2⟩
    have hlen : n ≤ s.length := le_trans hrun.2.1 (clsRun_le_length p s)
    have hlen2 : n ≤ s2.length := le_length_of_take_eq ht hlen
    have hrun2 : n ≤ clsRun p s2 := by
      rw [le_clsRun_iff hlen2, ← ht]
      exact (le_clsRun_iff hlen).mp hrun.2.1
    have hw2 : w = lastWordness prevW s2 n := by
      rw [hrun.2.2]
      exact lastWordness_eq_of_take_eq ht
    match hi with
    | none => exact mem_matchLens_cls_none.mpr ⟨hrun.1, hrun2, hw2⟩
    | some hb =>
      have hnb : n ≤ hb := (mem_matchLens_cls_some.mp h).2.2.1
      exact mem_matchLens_cls_some.mpr ⟨hrun.1, hrun2, hnb, hw2⟩
  | cat r1 r2 ih1 ih2 =>
    intro prevW s s2 n w h ht hh
    rw [mem_matchLens_cat] at h ⊢
    obtain ⟨n1, w1, n2, h1, h2, rfl⟩ := h
    have hl1 : n1 ≤ s.length := mem_matchLens_length r1 h1
    have hl2 : n2 ≤ (s.drop n1).length := mem_matchLens_length r2 h2
    have hlen : n1 + n2 ≤ s.length := by
      rw [List.length_drop] at hl2
      omega
    have hd1 : headIsWord (s.drop n1) = headIsWord (s2.drop n1) := by
      by_cases hc : n1 < n1 + n2
      · exact headIsWord_drop_congr (getElem?_eq_of_take_eq ht hc)
      · have e : n2 = 0 := by omega
        subst e
        exact hh
    refine ⟨n1, w1, n2, ih1 h1 (take_eq_of_take_eq_le ht (by omega)) hd1, ?_, rfl⟩
    apply ih2 h2 (take_drop_of_take_eq ht)
    rw [List.drop_drop, List.drop_drop]
    exact hh
  | alt r1 r2 ih1 ih2 =>
    intro prevW s s2 n w h ht hh
    rw [mem_matchLens_alt] at h ⊢
    rcases h with h | h
    · exact Or.inl (ih1 h ht hh)
    · exact Or.inr (ih2 h ht hh)

/-- The word-ness state after scanning list `a`, starting from `prevW`. -/
def wordAfter (prevW : Bool) (a : List Char) : Bool :=
  match a.getLast? with
  | none => prevW
  | some c => isWordChar c

/-- `r` finds no match at any position while scanning `s` with initial
word-ness state `prevW`. -/
def CleanR (r : Rx) : Bool → List Char → Prop
  | _, [] => True
  | prevW, c :: cs => matchLens r prevW (c :: cs) = [] ∧ CleanR r (isWordChar c) cs

/-- `wordAfter` over a consumed prefix is the word-ness state. -/
theorem wordAfter_take (prevW : Bool) (s : List Char) (n : Nat) (h : n ≤ s.length) :
    wordAfter prevW (s.take n) = lastWordness prevW s n := by
  match n with
  | 0 => rfl
  | j + 1 =>
    unfold wordAfter lastWordness
    rw [if_neg (by omega)]
    have h1 : (s.take (j + 1)).getLast? = s[j]? := by
      rw [List.getLast?_eq_getElem?, List.length_take]
      have h2 : (j + 1) ⊓ s.length - 1 = j := by omega
      rw [h2, List.getElem?_take_of_lt (by omega)]
    rw [h1, List.getD_eq_getElem?_getD]
    match hj : s[j]? with
    | some c => rfl
    | none =>
      rw [List.getElem?_eq_none_iff] at hj
      omega

/-- Scanning one more character composes. -/
theorem wordAfter_cons (prevW : Bool) (c : Char) (u : List Char) :
    wordAfter prevW (c :: u) = wordAfter (isWordChar c) u := by
  match u with
  | [] => rfl
  | d :: ds =>
    unfold wordAfter
    rw [List.getLast?_cons_cons]
    match hd : (d :: ds).getLast? with
    | some e => rfl
    | none => simp at hd

/-- Word-ness threading through a `cons`. -/
theorem lastWordness_cons (prevW : Bool) (c : Char) (cs : List Char) (j : Nat) :
    lastWordness prevW (c :: cs) (j + 1) = lastWordness (isWordChar c) cs j := by
  match j with
  | 0 => rfl
  | i + 1 =>
    unfold lastWordness
    rw [if_neg (by omega), if_neg (by omega)]
    rfl

/-- The head of a non-nullable expression's match list is never empty. -/
theorem head?_not_zero {r : Rx} (hnull : nullable r = false) {prevW : Bool}
    {s : List Char} {w : Bool} : (matchLens r prevW s).head? ≠ some (0, w) := by
  intro h
  have hm := List.mem_of_mem_head? h
  have := mem_matchLens_nullable r hm
  rw [hnull] at this
  exact Bool.false_ne_true this

/-- One scan step on a leading match. -/
theorem subScanF_cons_match {r : Rx} {tok : List Char} {fuel : Nat} {prevW : Bool}
    {c : Char} {cs : List Char} {n : Nat} {w : Bool}
    (hm : (matchLens r prevW (c :: cs)).head? = some (n + 1, w)) :
    subScanF r tok (fuel + 1) prevW (c :: cs) = tok ++ subScanF r tok fuel w (cs.drop n) := by
  simp only [subScanF]
  rw [hm]

/-- One scan step without a leading match. -/
theorem subScanF_cons_nomatch {r : Rx} {tok : List Char} {fuel : Nat} {prevW : Bool}
    {c : Char} {cs : List Char}
    (hm : (matchLens r prevW (c :: cs)).head? = none) :
    subScanF r tok (fuel + 1) prevW (c :: cs) =
      c :: subScanF r tok fuel (isWordChar c) cs := by
  simp only [subScanF]
  rw [hm]

/-- Scanning the empty subject gives the empty result. -/
theorem subScanF_nil {r : Rx} {tok : List Char} {fuel : Nat} {prevW : Bool} :
    subScanF r tok fuel prevW [] = [] := by
  match fuel with
  | 0 => rfl
  | f + 1 => rfl

/-- The scan output of a subject with a non-word head character (and a
non-word-headed token) again has a non-word head character. -/
theorem subScanF_headIsWord {r : Rx} {tok : List Char} {fuel : Nat} {prevW : Bool}
    {s : List Char} (hnull : nullable r = false) (htokne : tok ≠ [])
    (hs : headIsWord s = false) (htok : headIsWord tok = false) :
    headIsWord (subScanF r tok fuel prevW s) = false := by
  match s, fuel with
  | [], 0 => exact hs
  | [], f + 1 => exact hs
  | c :: cs, 0 => exact hs
  | c :: cs, f + 1 =>
    match hm : (matchLens r prevW (c :: cs)).head? with
    | some (0, w) => exact absurd hm (head?_not_zero hnull)
    | some (n + 1, w) =>
      rw [subScanF_cons_match hm]
      match tok, htokne with
      | t :: ts, _ => exact htok
    | none =>
      rw [subScanF_cons_nomatch hm]
      exact hs

/-- Re-point the position-0 obligation of a clean scan. -/
theorem cleanR_first {r : Rx} {pw1 pw2 : Bool} {s : List Char}
    (h0 : matchLens r pw2 s = []) (h : CleanR r pw1 s) : CleanR r pw2 s := by
  match s with
  | [] => trivial
  | c :: cs => exact ⟨h0, h.2⟩

/-- A clean subject stays clean on every suffix, with the threaded
word-ness state. -/
theorem cleanR_drop {r : Rx} : ∀ {s : List Char} {prevW : Bool}, CleanR r prevW s →
    ∀ k : Nat, CleanR r (lastWordness prevW s k) (s.drop k) := by
  intro s
  induction s with
  | nil =>
    intro prevW h k
    rw [List.drop_nil]
    trivial
  | cons c cs ih =>
    intro prevW h k
    match k with
    | 0 => exact h
    | j + 1 =>
      rw [lastWordness_cons, List.drop_succ_cons]
      exact ih h.2 j

/-- Head-word-ness of an append with non-empty left part. -/
theorem headIsWord_append_left {a b : List Char} (ha : a ≠ []) :
    headIsWord (a ++ b) = headIsWord a := by
  match a, ha with
  | t :: ts, _ => rfl

/-- Structure of one scan pass: either no position matches and the subject
is returned unchanged, or the output is an unchanged prefix `u` followed by
the token, and some match of the rule begins in the subject right after
`u`. -/
theorem subScanF_shape (rs : Rx) (tok : List Char) (hnull : nullable rs = false) :
    ∀ (fuel : Nat) (s : List Char) (prevW : Bool), s.length ≤ fuel →
    subScanF rs tok fuel prevW s = s ∨
    ∃ u v rest, s = u ++ v ∧
      subScanF rs tok fuel prevW s = u ++ (tok ++ rest) ∧
      ∃ mlen w2, 1 ≤ mlen ∧ (mlen, w2) ∈ matchLens rs (wordAfter prevW u) v := by
  intro fuel
  induction fuel with
  | zero =>
    intro s prevW hl
    left
    rfl
  | succ f ih =>
    intro s prevW hl
    match s with
    | [] =>
      left
      exact subScanF_nil
    | c :: cs =>
      match hm : (matchLens rs prevW (c :: cs)).head? with
      | some (0, w) => exact absurd hm (head?_not_zero hnull)
      | some (n + 1, w) =>
        right
        refine ⟨[], c :: cs, subScanF rs tok f w (cs.drop n), rfl, ?_, n + 1, w,
                by omega, ?_⟩
        · rw [subScanF_cons_match hm]
          rfl
        · exact List.mem_of_mem_head? hm
      | none =>
        have hl2 : cs.length ≤ f := by
          simp only [List.length_cons] at hl
          omega
        rcases ih cs (isWordChar c) hl2 with h | ⟨u, v, rest, he, ho, mlen, w2, hm1, hm2⟩
        · left
          rw [subScanF_cons_nomatch hm, h]
        · right
          refine ⟨c :: u, v, rest, by rw [he, List.cons_append], ?_, mlen, w2, hm1, ?_⟩
          · rw [subScanF_cons_nomatch hm, ho]
            rfl
          · rw [wordAfter_cons]
            exact hm2

/-- One scan pass never creates a fresh position-0 match of a compatible
checked rule on a subject that had none. -/
theorem matchLens_subScan_nil {rc rs : Rx} {tok : List Char}
    (hnullc : nullable rc = false) (htrc : TrailsWb rc)
    (hnulls : nullable rs = false) (hlws : LeadsWb rs)
    (htokne : tok ≠ []) (htokhead : headIsWord tok = false)
    (hacc : ∀ c, tok.head? = some c → acceptable rc c = false)
    {prevW : Bool} {s : List Char} (hin : matchLens rc prevW s = [])
    {fuel : Nat} (hfuel : s.length ≤ fuel) :
    matchLens rc prevW (subScanF rs tok fuel prevW s) = [] := by
  rcases subScanF_shape rs tok hnulls fuel s prevW hfuel with
    h | ⟨u, v, rest, he, ho, mlen, w2, hm1, hm2⟩
  · rw [h]
    exact hin
  · rw [ho]
    apply List.eq_nil_iff_forall_not_mem.mpr
    rintro ⟨n, w⟩ hnw
    have hn1 : 1 ≤ n := by
      rcases Nat.eq_zero_or_pos n with h0 | h1
      · subst h0
        have hb := mem_matchLens_nullable rc hnw
        rw [hnullc] at hb
        simp at hb
      · exact h1
    have hno : n ≤ (u ++ (tok ++ rest)).length := mem_matchLens_length rc hnw
    by_cases hcase : n ≤ u.length
    · have htake : (u ++ (tok ++ rest)).take n = s.take n := by
        rw [he, List.take_append_of_le_length hcase, List.take_append_of_le_length hcase]
      have hhead : headIsWord ((u ++ (tok ++ rest)).drop n) = headIsWord (s.drop n) := by
        by_cases hlt : n < u.length
        · apply headIsWord_drop_congr
          rw [he, List.getElem?_append, if_pos hlt, List.getElem?_append, if_pos hlt]
        · have hne : n = u.length := by omega
          have hdo : (u ++ (tok ++ rest)).drop n = tok ++ rest := by
            rw [hne, List.drop_left]
          have hds : s.drop n = v := by
            rw [he, hne, List.drop_left]
          have hw : w = wordAfter prevW u := by
            have h3 := mem_matchLens_wordness rc hnw
            rw [h3, ← wordAfter_take prevW _ n (by omega), htake, he,
                List.take_append_of_le_length hcase, hne, List.take_length]
          have hwt : w = true := by
            have h4 := trailsWb_boundary rc htrc hnw
            rw [hdo] at h4
            unfold boundaryOk at h4
            rw [headIsWord_append_left htokne, htokhead] at h4
            simpa using h4
          have hv : headIsWord v = false := by
            have h5 := leadsWb_boundary rs hlws hm2
            unfold boundaryOk at h5
            rw [← hw, hwt] at h5
            simpa using h5
          rw [hdo, hds, headIsWord_append_left htokne, htokhead, hv]
      have hpull := matchLens_local rc hnw htake hhead
      rw [hin] at hpull
      exact absurd hpull (List.not_mem_nil _)
    · match tok, htokne, htokhead, hacc with
      | t :: ts, _, htokhead, hacc =>
        have hat : acceptable rc t = false := hacc t rfl
        have hgd : (u ++ ((t :: ts) ++ rest)).getD u.length ' ' = t := by
          rw [List.getD_eq_getElem?_getD, List.getElem?_append,
              if_neg (by omega)]
          simp
        have hmem : (u ++ ((t :: ts) ++ rest)).getD u.length ' ' ∈
            (u ++ ((t :: ts) ++ rest)).take n := by
          apply getD_mem_take (by omega)
          simp only [List.length_append, List.length_cons]
          omega
        rw [hgd] at hmem
        have := mem_matchLens_acceptable rc hnw t hmem
        rw [hat] at this
        simp at this

/-- A clean continuation extends backwards through the token: the checked
rule cannot match starting inside the token. -/
theorem cleanR_tok_append {rc : Rx} {tok : List Char}
    (htokok : ∀ (w : Bool) (out t2 : List Char), t2 ≠ [] → t2.IsSuffix tok →
      matchLens rc w (t2 ++ out) = [])
    (htoklast : ∀ c, tok.getLast? = some c → isWordChar c = false) :
    ∀ (t2 : List Char), t2 ≠ [] → t2.IsSuffix tok → ∀ (pw : Bool) (out : List Char),
    CleanR rc false out → CleanR rc pw (t2 ++ out) := by
  intro t2
  induction t2 with
  | nil => intro h; exact absurd rfl h
  | cons c t2 ih =>
    intro _ hsuf pw out hout
    refine ⟨htokok pw out (c :: t2) (by simp) hsuf, ?_⟩
    match t2 with
    | [] =>
      have hlast : tok.getLast? = some c := by
        obtain ⟨pre, hpre⟩ := hsuf
        rw [← hpre, List.getLast?_append]
        rfl
      have hcw : isWordChar c = false := htoklast c hlast
      rw [hcw]
      show CleanR rc false out
      exact hout
    | d :: t2 =>
      exact ih (by simp) (List.IsSuffix.trans ⟨[c], rfl⟩ hsuf) (isWordChar c) out hout

/-- Main theorem of one scan pass: scanning with a good substituting rule
establishes cleanness for the rule itself and preserves cleanness of any
compatible checked rule. -/
theorem cleanR_subScanF {rc rs : Rx} {tok : List Char}
    (hnullc : nullable rc = false) (hldc : LeadsWb rc) (htrc : TrailsWb rc)
    (hnulls : nullable rs = false) (hlws : LeadsWb rs) (htws : TrailsWb rs)
    (hews : EndsWord rs)
    (htokne : tok ≠ []) (htokhead : headIsWord tok = false)
    (hacchead : ∀ c, tok.head? = some c → acceptable rc c = false)
    (htoklast : ∀ c, tok.getLast? = some c → isWordChar c = false)
    (htokok : ∀ (w : Bool) (out t2 : List Char), t2 ≠ [] → t2.IsSuffix tok →
      matchLens rc w (t2 ++ out) = []) :
    ∀ (fuel : Nat) (s : List Char) (prevW : Bool), s.length ≤ fuel →
    (rc = rs ∨ CleanR rc prevW s) →
    CleanR rc prevW (subScanF rs tok fuel prevW s) := by
  intro fuel
  induction fuel with
  | zero =>
    intro s prevW hl hd
    have hs : s = [] := by
      cases s with
      | nil => rfl
      | cons c cs => simp at hl
    subst hs
    exact True.intro
  | succ f ih =>
    intro s prevW hl hd
    match s with
    | [] =>
      rw [subScanF_nil]
      exact True.intro
    | c :: cs =>
      have hl2 : cs.length ≤ f := by
        simp only [List.length_cons] at hl
        omega
      match hm : (matchLens rs prevW (c :: cs)).head? with
      | some (0, w) => exact absurd hm (head?_not_zero hnulls)
      | some (n + 1, w) =>
        rw [subScanF_cons_match hm]
        have hmm := List.mem_of_mem_head? hm
        have hwt : w = true := endsWord_matchLens rs hews hmm (by omega)
        have hlen : n + 1 ≤ (c :: cs).length := mem_matchLens_length rs hmm
        have hldrop : (cs.drop n).length ≤ f := by
          rw [List.length_drop]
          simp only [List.length_cons] at hl
          omega
        have hrem : headIsWord (cs.drop n) = false := by
          have h4 := trailsWb_boundary rs htws hmm
          rw [List.drop_succ_cons] at h4
          unfold boundaryOk at h4
          rw [hwt] at h4
          simpa using h4
        have hout : CleanR rc w (subScanF rs tok f w (cs.drop n)) := by
          apply ih (cs.drop n) w hldrop
          rcases hd with hd | hd
          · exact Or.inl hd
          · right
            have h5 := cleanR_drop hd (n + 1)
            rw [List.drop_succ_cons] at h5
            rw [(mem_matchLens_wordness rs hmm).symm] at h5
            exact h5
        have hout0 : matchLens rc false (subScanF rs tok f w (cs.drop n)) = [] := by
          apply List.eq_nil_iff_forall_not_mem.mpr
          rintro ⟨n2, w2⟩ hn2
          have hb := leadsWb_boundary rc hldc hn2
          unfold boundaryOk at hb
          rw [subScanF_headIsWord hnulls htokne hrem htokhead] at hb
          simp at hb
        have houtF : CleanR rc false (subScanF rs tok f w (cs.drop n)) :=
          cleanR_first hout0 hout
        exact cleanR_tok_append htokok htoklast tok htokne (List.suffix_refl tok)
          prevW _ houtF
      | none =>
        rw [subScanF_cons_nomatch hm]
        have hin0 : matchLens rc prevW (c :: cs) = [] := by
          rcases hd with hd | hd
          · rw [hd]
            exact List.head?_eq_none_iff.mp hm
          · exact hd.1
        have htail : rc = rs ∨ CleanR rc (isWordChar c) cs := by
          rcases hd with hd | hd
          · exact Or.inl hd
          · exact Or.inr hd.2
        constructor
        · have hres := matchLens_subScan_nil hnullc htrc hnulls hlws htokne htokhead
            hacchead hin0 hl
          rw [subScanF_cons_nomatch hm] at hres
          exact hres
        · exact ih cs (isWordChar c) hl2 htail

/-- A clean subject is returned unchanged by the scan. -/
theorem subScanF_clean_id {r : Rx} {tok : List Char} :
    ∀ (fuel : Nat) (s : List Char) (prevW : Bool), s.length ≤ fuel →
    CleanR r prevW s → subScanF r tok fuel prevW s = s := by
  intro fuel
  induction fuel with
  | zero =>
    intro s prevW hl hc
    rfl
  | succ f ih =>
    intro s prevW hl hc
    match s with
    | [] => exact subScanF_nil
    | c :: cs =>
      have hm : (matchLens r prevW (c :: cs)).head? = none := by
        rw [hc.1]
        rfl
      rw [subScanF_cons_nomatch hm]
      rw [ih cs (isWordChar c) (by simp only [List.length_cons] at hl; omega) hc.2]

/-- Unpacking a word-boundary parse. -/
theorem mem_matchLens_wb {prevW : Bool} {s : List Char} {n : Nat} {w : Bool}
    (h : (n, w) ∈ matchLens Rx.wb prevW s) : n = 0 ∧ w = prevW := by
  simp only [matchLens] at h
  split at h
  · simpa using h
  · simp at h

/-- Unpacking an epsilon parse. -/
theorem mem_matchLens_eps {prevW : Bool} {s : List Char} {n : Nat} {w : Bool}
    (h : (n, w) ∈ matchLens Rx.eps prevW s) : n = 0 ∧ w = prevW := by
  simpa [matchLens] using h

/-- The last element of a non-empty suffix is the last element of the whole. -/
theorem getLast?_of_suffix {t2 tok : List Char} (hsuf : t2.IsSuffix tok)
    {cl : Char} (ht : t2.getLast? = some cl) : tok.getLast? = some cl := by
  obtain ⟨pre, hpre⟩ := hsuf
  rw [← hpre, List.getLast?_append, ht]
  rfl

/-- Indexing below the left part of an append. -/
theorem getD_append_left {a b : List Char} {i : Nat} (h : i < a.length) :
    (a ++ b).getD i ' ' = a.getD i ' ' := by
  rw [List.getD_eq_getElem?_getD, List.getD_eq_getElem?_getD, List.getElem?_append,
      if_pos h]

/-- Indexing into the right part of an append. -/
theorem getD_append_right {a b : List Char} {i : Nat} (h : a.length ≤ i) :
    (a ++ b).getD i ' ' = b.getD (i - a.length) ' ' := by
  rw [List.getD_eq_getElem?_getD, List.getD_eq_getElem?_getD, List.getElem?_append,
      if_neg (by omega)]

/-- `getD` at the last position. -/
theorem getLast?_getD {t2 : List Char} {cl : Char} (ht : t2.getLast? = some cl) :
    t2.getD (t2.length - 1) ' ' = cl := by
  rw [List.getLast?_eq_getElem?] at ht
  rw [List.getD_eq_getElem?_getD, ht]
  rfl

/-- A checked rule that needs a character absent from the token, and cannot
accept the token's final character, never matches from inside the token. -/
theorem tokok_of_needs {rc : Rx} {p : Char → Bool} (hN : Needs p rc)
    {tok : List Char}
    (hnp : ∀ c ∈ tok, p c = false)
    (hlast : ∀ c, tok.getLast? = some c → acceptable rc c = false) :
    ∀ (w : Bool) (out t2 : List Char), t2 ≠ [] → t2.IsSuffix tok →
    matchLens rc w (t2 ++ out) = [] := by
  intro w out t2 ht2 hsuf
  apply List.eq_nil_iff_forall_not_mem.mpr
  rintro ⟨n, w2⟩ hnw
  by_cases hc : n ≤ t2.length
  · obtain ⟨ch, hch, hchp⟩ := needs_matchLens rc hN hnw
    have hcht2 : ch ∈ t2 := by
      have h1 : (t2 ++ out).take n = t2.take n := List.take_append_of_le_length hc
      rw [h1] at hch
      exact List.take_subset _ _ hch
    have hf : p ch = false := hnp ch (hsuf.subset hcht2)
    rw [hf] at hchp
    exact Bool.false_ne_true hchp
  · match ht : t2.getLast? with
    | none => exact ht2 (List.getLast?_eq_none_iff.mp ht)
    | some cl =>
      have htl : tok.getLast? = some cl := getLast?_of_suffix hsuf ht
      have hal := hlast cl htl
      have ht2len : 1 ≤ t2.length := by
        match t2, ht2 with
        | x :: xs, _ => simp
      have hidx : (t2 ++ out).getD (t2.length - 1) ' ' = cl := by
        rw [getD_append_left (by omega), getLast?_getD ht]
      have hmem : (t2 ++ out).getD (t2.length - 1) ' ' ∈ (t2 ++ out).take n := by
        apply getD_mem_take (by omega)
        rw [List.length_append]
        omega
      rw [hidx] at hmem
      have hacc := mem_matchLens_acceptable rc hnw cl hmem
      rw [hal] at hacc
      exact Bool.false_ne_true hacc

/-- Any parse of a `\b literal \b` rule consumes exactly a case-blind copy
of the literal. -/
theorem chunk_matchLens (ci : Bool) (cs : List Char) {prevW : Bool} {s : List Char}
    {n : Nat} {w : Bool}
    (h : (n, w) ∈ matchLens (catL [Rx.wb, Rx.str ci cs, Rx.wb]) prevW s) :
    n = cs.length ∧ (cs ≠ [] → strMatch ci cs s = true) := by
  simp only [catL, List.foldr] at h
  rw [mem_matchLens_cat] at h
  obtain ⟨n1, w1, n2, h1, h2, rfl⟩ := h
  obtain ⟨e1, e2⟩ := mem_matchLens_wb h1
  subst e1
  rw [List.drop_zero] at h2
  rw [mem_matchLens_cat] at h2
  obtain ⟨n3, w3, n4, h3, h4, rfl⟩ := h2
  rw [mem_matchLens_cat] at h4
  obtain ⟨n5, w5, n6, h5, h6, rfl⟩ := h4
  obtain ⟨e5, _⟩ := mem_matchLens_wb h5
  obtain ⟨e6, _⟩ := mem_matchLens_eps h6
  subst e5
  subst e6
  match cs with
  | [] =>
    simp only [matchLens, List.mem_singleton, Prod.mk.injEq] at h3
    refine ⟨by simp [h3.1], by intro hh; exact absurd rfl hh⟩
  | c :: cs2 =>
    simp only [matchLens] at h3
    split at h3
    · rename_i hsm
      simp only [List.mem_singleton, Prod.mk.injEq] at h3
      have hn3 := h3.1
      exact ⟨by omega, fun _ => hsm⟩
    · simp at h3

/-- A chunk rule (case-blind literal between word boundaries) never matches
from inside a token that holds no case-blind copy of the literal and whose
final character occurs (case-blind) nowhere in the literal. -/
theorem tokok_of_chunk (nm : List Char) {tok : List Char}
    (hlast : ∀ c, tok.getLast? = some c →
      nm.any (fun x => charEq true x c) = false)
    (hsub : ∀ k, k < tok.length + 1 → k + nm.length ≤ tok.length →
      ∃ i, i < nm.length ∧ charEq true (nm.getD i ' ') (tok.getD (k + i) ' ') = false) :
    ∀ (w : Bool) (out t2 : List Char), t2 ≠ [] → t2.IsSuffix tok →
    matchLens (catL [Rx.wb, Rx.str true nm, Rx.wb]) w (t2 ++ out) = [] := by
  intro w out t2 ht2 hsuf
  apply List.eq_nil_iff_forall_not_mem.mpr
  rintro ⟨n, w2⟩ hnw
  obtain ⟨hn, hsm⟩ := chunk_matchLens true nm hnw
  match hcs : nm, hn with
  | [], hn =>
    obtain ⟨pre, hpre⟩ := hsuf
    have h0 := hsub (tok.length) (by omega) (by simp)
    obtain ⟨i, hi, _⟩ := h0
    simp at hi
  | c :: nm2, hn =>
    have hsm2 := hsm (by simp)
    have ht2len : 1 ≤ t2.length := by
      match t2, ht2 with
      | x :: xs, _ => simp
    obtain ⟨pre, hpre⟩ := hsuf
    by_cases hc : n ≤ t2.length
    · have hk := hsub pre.length (by
        have : pre.length ≤ tok.length := by rw [← hpre]; simp
        omega) (by rw [← hpre, List.length_append]; omega)
      obtain ⟨i, hi, hbad⟩ := hk
      have hgood := strMatch_pointwise hsm2 i (by omega)
      have he1 : (t2 ++ out).getD i ' ' = t2.getD i ' ' :=
        getD_append_left (by omega)
      have he2 : tok.getD (pre.length + i) ' ' = t2.getD i ' ' := by
        rw [← hpre, getD_append_right (by omega)]
        congr 1
        omega
      rw [he1] at hgood
      rw [he2] at hbad
      rw [hgood] at hbad
      simp at hbad
    · match ht : t2.getLast? with
      | none => exact ht2 (List.getLast?_eq_none_iff.mp ht)
      | some cl =>
        have htl : tok.getLast? = some cl := getLast?_of_suffix ⟨pre, hpre⟩ ht
        have hal := hlast cl htl
        have hgood := strMatch_pointwise hsm2 (t2.length - 1) (by omega)
        have he1 : (t2 ++ out).getD (t2.length - 1) ' ' = cl := by
          rw [getD_append_left (by omega), getLast?_getD ht]
        rw [he1] at hgood
        have hmem : (c :: nm2).getD (t2.length - 1) ' ' ∈ (c :: nm2) :=
          getD_mem (by omega)
        have hany : (c :: nm2).any (fun x => charEq true x cl) = true :=
          List.any_eq_true.mpr ⟨_, hmem, hgood⟩
        rw [hal] at hany
        exact Bool.false_ne_true hany

theorem nullable_rxEmail : nullable rxEmail = false := rfl

theorem leadsWb_rxEmail : LeadsWb rxEmail := True.intro

theorem trailsWb_rxEmail : TrailsWb rxEmail := by
  simp [rxEmail, catL, TrailsWb, epsOnly]

theorem endsWord_rxEmail : EndsWord rxEmail := by
  simp [rxEmail, catL, EndsWord, nullable]

theorem needs_rxEmail : Needs (fun c => c == '@') rxEmail := by
  simp [rxEmail, catL, Needs, charEq]

theorem acc_rxEmail_open : acceptable rxEmail '[' = false := by decide

theorem acc_rxEmail_close : acceptable rxEmail ']' = false := by decide

theorem nullable_rxPhone : nullable rxPhone = false := rfl

theorem leadsWb_rxPhone : LeadsWb rxPhone := True.intro

theorem trailsWb_rxPhone : TrailsWb rxPhone := by
  simp [rxPhone, catL, TrailsWb, epsOnly]

theorem endsWord_rxPhone : EndsWord rxPhone := by
  simp [rxPhone, catL, EndsWord, nullable, Rx.opt, dEx]
  exact fun c h => isDigit_isWordChar h

theorem needs_rxPhone : Needs Char.isDigit rxPhone := by
  simp [rxPhone, catL, Needs, dEx, Rx.opt]

theorem acc_rxPhone_open : acceptable rxPhone '[' = false := by decide

theorem acc_rxPhone_close : acceptable rxPhone ']' = false := by decide

theorem nullable_rxSSN : nullable rxSSN = false := rfl

theorem leadsWb_rxSSN : LeadsWb rxSSN := True.intro

theorem trailsWb_rxSSN : TrailsWb rxSSN := by
  simp [rxSSN, catL, TrailsWb, epsOnly]

theorem endsWord_rxSSN : EndsWord rxSSN := by
  simp [rxSSN, catL, EndsWord, nullable, dEx]
  exact fun c h => isDigit_isWordChar h

theorem needs_rxSSN : Needs Char.isDigit rxSSN := by
  simp [rxSSN, catL, Needs, dEx]

theorem acc_rxSSN_open : acceptable rxSSN '[' = false := by decide

theorem acc_rxSSN_close : acceptable rxSSN ']' = false := by decide

theorem nullable_rxAddress : nullable rxAddress = false := rfl

theorem leadsWb_rxAddress : LeadsWb rxAddress := True.intro

theorem trailsWb_rxAddress : TrailsWb rxAddress := by
  simp [rxAddress, catL, TrailsWb, epsOnly]

theorem endsWord_rxAddress : EndsWord rxAddress := by
  simp [rxAddress, catL, EndsWord, nullable, dEx, dPlus, wsStar, wsPlus, Rx.opt]
  exact fun c h => isDigit_isWordChar h

theorem needs_rxAddress : Needs Char.isDigit rxAddress := by
  simp [rxAddress, catL, Needs, dEx, dPlus, wsStar, wsPlus, Rx.opt]

theorem acc_rxAddress_open : acceptable rxAddress '[' = false := by decide

theorem acc_rxAddress_close : acceptable rxAddress ']' = false := by decide

theorem nullable_rxZip : nullable rxZip = false := rfl

theorem leadsWb_rxZip : LeadsWb rxZip := True.intro

theorem trailsWb_rxZip : TrailsWb rxZip := by
  simp [rxZip, catL, TrailsWb, epsOnly]

theorem endsWord_rxZip : EndsWord rxZip := by
  simp [rxZip, catL, EndsWord, nullable, dEx, Rx.opt]
  exact fun c h => isDigit_isWordChar h

theorem needs_rxZip : Needs Char.isDigit rxZip := by
  simp [rxZip, catL, Needs, dEx, Rx.opt]

theorem acc_rxZip_open : acceptable rxZip '[' = false := by decide

theorem acc_rxZip_close : acceptable rxZip ']' = false := by decide

theorem nullable_rxPolicy : nullable rxPolicy = false := rfl

theorem leadsWb_rxPolicy : LeadsWb rxPolicy := True.intro

theorem trailsWb_rxPolicy : TrailsWb rxPolicy := by
  simp [rxPolicy, catL, TrailsWb, epsOnly]

theorem endsWord_rxPolicy : EndsWord rxPolicy := by
  simp [rxPolicy, catL, EndsWord, nullable]
  exact fun c h => isDigit_isWordChar h

theorem needs_rxPolicy : Needs Char.isDigit rxPolicy := by
  simp [rxPolicy, catL, Needs]

theorem acc_rxPolicy_open : acceptable rxPolicy '[' = false := by decide

theorem acc_rxPolicy_close : acceptable rxPolicy ']' = false := by decide

theorem nullable_rxDateName : nullable rxDateName = false := rfl

theorem leadsWb_rxDateName : LeadsWb rxDateName := True.intro

theorem trailsWb_rxDateName : TrailsWb rxDateName := by
  simp [rxDateName, catL, TrailsWb, epsOnly]

theorem endsWord_rxDateName : EndsWord rxDateName := by
  simp [rxDateName, catL, EndsWord, nullable, dEx, Rx.opt, monthAlt, altL]
  exact fun c h => isDigit_isWordChar h

theorem needs_rxDateName : Needs Char.isDigit rxDateName := by
  simp [rxDateName, catL, Needs, dEx, Rx.opt, monthAlt, altL]

theorem acc_rxDateName_open : acceptable rxDateName '[' = false := by decide

theorem acc_rxDateName_close : acceptable rxDateName ']' = false := by decide

theorem nullable_rxDateNum : nullable rxDateNum = false := rfl

theorem leadsWb_rxDateNum : LeadsWb rxDateNum := True.intro

theorem trailsWb_rxDateNum : TrailsWb rxDateNum := by
  simp [rxDateNum, catL, TrailsWb, epsOnly]

theorem endsWord_rxDateNum : EndsWord rxDateNum := by
  simp [rxDateNum, catL, EndsWord, nullable]
  exact fun c h => isDigit_isWordChar h

theorem needs_rxDateNum : Needs Char.isDigit rxDateNum := by
  simp [rxDateNum, catL, Needs]

theorem acc_rxDateNum_open : acceptable rxDateNum '[' = false := by decide

theorem acc_rxDateNum_close : acceptable rxDateNum ']' = false := by decide

theorem nullable_rxTime : nullable rxTime = false := rfl

theorem leadsWb_rxTime : LeadsWb rxTime := True.intro

theorem trailsWb_rxTime : TrailsWb rxTime := by
  simp [rxTime, catL, TrailsWb, epsOnly, altL, Rx.opt]

theorem endsWord_rxTime : EndsWord rxTime := by
  simp [rxTime, catL, EndsWord, nullable, dPlus, wsStar, Rx.opt, altL, deadRx]
  exact ⟨fun d hd => charEq_word hd (by decide), fun d hd => charEq_word hd (by decide),
         fun d hd => charEq_word hd (by decide), fun d hd => charEq_word hd (by decide),
         fun d hd => charEq_word hd (by decide)⟩

theorem needs_rxTime : Needs Char.isDigit rxTime := by
  simp [rxTime, catL, Needs, dPlus, wsStar, Rx.opt, altL]

theorem acc_rxTime_open : acceptable rxTime '[' = false := by decide

theorem acc_rxTime_close : acceptable rxTime ']' = false := by decide

theorem nullable_rxUnum : nullable (rxCompany ("Unum")) = false := rfl

theorem nullable_rxHartford : nullable (rxCompany ("Hartford")) = false := rfl

theorem nullable_rxLincoln : nullable (rxCompany ("Lincoln")) = false := rfl

theorem leadsWb_rxCompany (nm : String) : LeadsWb (rxCompany nm) := True.intro

theorem trailsWb_rxCompany (nm : String) : TrailsWb (rxCompany nm) := by
  simp [rxCompany, catL, TrailsWb, epsOnly]

theorem endsWord_rxUnum : EndsWord (rxCompany ("Unum")) := by
  simp [rxCompany, catL, EndsWord, nullable]
  exact fun d hd => charEq_word hd (by decide)

theorem endsWord_rxHartford : EndsWord (rxCompany ("Hartford")) := by
  simp [rxCompany, catL, EndsWord, nullable]
  exact fun d hd => charEq_word hd (by decide)

theorem endsWord_rxLincoln : EndsWord (rxCompany ("Lincoln")) := by
  simp [rxCompany, catL, EndsWord, nullable]
  exact fun d hd => charEq_word hd (by decide)

theorem acc_rxUnum_open : acceptable (rxCompany ("Unum")) '[' = false := by decide

theorem acc_rxUnum_close : acceptable (rxCompany ("Unum")) ']' = false := by decide

theorem acc_rxHartford_open : acceptable (rxCompany ("Hartford")) '[' = false := by decide

theorem acc_rxHartford_close : acceptable (rxCompany ("Hartford")) ']' = false := by decide

theorem acc_rxLincoln_open : acceptable (rxCompany ("Lincoln")) '[' = false := by decide

theorem acc_rxLincoln_close : acceptable (rxCompany ("Lincoln")) ']' = false := by decide

/-- The replacement tokens of the masking rules. -/
def ruleToks : List (List Char) := maskRules.map Prod.snd

theorem toks_head : ∀ tok ∈ ruleToks, tok.head? = some '[' := by decide

theorem toks_last : ∀ tok ∈ ruleToks, tok.getLast? = some ']' := by decide

theorem toks_no_digit : ∀ tok ∈ ruleToks, ∀ c ∈ tok, Char.isDigit c = false := by decide

theorem toks_no_at : ∀ tok ∈ ruleToks, ∀ c ∈ tok, (c == '@') = false := by decide

theorem unum_any_close : (("Unum").toList).any (fun x => charEq true x ']') = false := by
  decide

theorem hartford_any_close : (("Hartford").toList).any (fun x => charEq true x ']') = false := by
  decide

theorem lincoln_any_close : (("Lincoln").toList).any (fun x => charEq true x ']') = false := by
  decide

theorem unum_no_sub : ∀ tok ∈ ruleToks, ∀ k, k < tok.length + 1 →
    k + ("Unum").toList.length ≤ tok.length →
    ∃ i, i < ("Unum").toList.length ∧
      charEq true ((("Unum").toList).getD i ' ') (tok.getD (k + i) ' ') = false := by
  decide

theorem hartford_no_sub : ∀ tok ∈ ruleToks, ∀ k, k < tok.length + 1 →
    k + ("Hartford").toList.length ≤ tok.length →
    ∃ i, i < ("Hartford").toList.length ∧
      charEq true ((("Hartford").toList).getD i ' ') (tok.getD (k + i) ' ') = false := by
  decide

theorem lincoln_no_sub : ∀ tok ∈ ruleToks, ∀ k, k < tok.length + 1 →
    k + ("Lincoln").toList.length ≤ tok.length →
    ∃ i, i < ("Lincoln").toList.length ∧
      charEq true ((("Lincoln").toList).getD i ' ') (tok.getD (k + i) ' ') = false := by
  decide

/-- All side conditions the idempotence argument needs of one masking rule. -/
def GoodMaskRule (rt : Rx × List Char) : Prop :=
  nullable rt.1 = false ∧ LeadsWb rt.1 ∧ TrailsWb rt.1 ∧ EndsWord rt.1 ∧
  acceptable rt.1 '[' = false ∧ acceptable rt.1 ']' = false ∧
  rt.2.head? = some '[' ∧ rt.2.getLast? = some ']' ∧
  (∀ tok ∈ ruleToks, ∀ (w : Bool) (out t2 : List Char), t2 ≠ [] → t2.IsSuffix tok →
    matchLens rt.1 w (t2 ++ out) = [])

/-- Token compatibility for a rule that needs a character no token has. -/
theorem tokok_A {rc : Rx} {p : Char → Bool} (hN : Needs p rc)
    (hclose : acceptable rc ']' = false)
    (hnp : ∀ tok ∈ ruleToks, ∀ c ∈ tok, p c = false) :
    ∀ tok ∈ ruleToks, ∀ (w : Bool) (out t2 : List Char), t2 ≠ [] → t2.IsSuffix tok →
    matchLens rc w (t2 ++ out) = [] := by
  intro tok htok
  apply tokok_of_needs hN (hnp tok htok)
  intro c hc
  rw [toks_last tok htok] at hc
  have he : c = ']' := by
    injection hc with h
    exact h.symm
  rw [he]
  exact hclose

/-- Token compatibility for a company rule. -/
theorem tokok_B (nm : String)
    (hany : ((nm).toList).any (fun x => charEq true x ']') = false)
    (hsub : ∀ tok ∈ ruleToks, ∀ k, k < tok.length + 1 →
      k + (nm).toList.length ≤ tok.length →
      ∃ i, i < (nm).toList.length ∧
        charEq true (((nm).toList).getD i ' ') (tok.getD (k + i) ' ') = false) :
    ∀ tok ∈ ruleToks, ∀ (w : Bool) (out t2 : List Char), t2 ≠ [] → t2.IsSuffix tok →
    matchLens (rxCompany nm) w (t2 ++ out) = [] := by
  intro tok htok
  apply tokok_of_chunk (nm.toList) ?_ (hsub tok htok)
  intro c hc
  rw [toks_last tok htok] at hc
  have he : c = ']' := by
    injection hc with h
    exact h.symm
  rw [he]
  exact hany

/-- Every masking rule satisfies the side conditions. -/
theorem maskRules_good : ∀ rt ∈ maskRules, GoodMaskRule rt := by
  intro rt h
  simp only [maskRules, companyNames, List.map, List.mem_append, List.mem_cons,
             List.not_mem_nil, or_false] at h
  rcases h with (rfl | rfl | rfl | rfl | rfl | rfl | rfl | rfl | rfl) | (rfl | rfl | rfl)
  · exact ⟨nullable_rxEmail, leadsWb_rxEmail, trailsWb_rxEmail, endsWord_rxEmail,
      acc_rxEmail_open, acc_rxEmail_close, rfl, by decide,
      tokok_A needs_rxEmail acc_rxEmail_close (fun tok htok c hc => toks_no_at tok htok c hc)⟩
  · exact ⟨nullable_rxPhone, leadsWb_rxPhone, trailsWb_rxPhone, endsWord_rxPhone,
      acc_rxPhone_open, acc_rxPhone_close, rfl, by decide,
      tokok_A needs_rxPhone acc_rxPhone_close toks_no_digit⟩
  · exact ⟨nullable_rxSSN, leadsWb_rxSSN, trailsWb_rxSSN, endsWord_rxSSN,
      acc_rxSSN_open, acc_rxSSN_close, rfl, by decide,
      tokok_A needs_rxSSN acc_rxSSN_close toks_no_digit⟩
  · exact ⟨nullable_rxAddress, leadsWb_rxAddress, trailsWb_rxAddress, endsWord_rxAddress,
      acc_rxAddress_open, acc_rxAddress_close, rfl, by decide,
      tokok_A needs_rxAddress acc_rxAddress_close toks_no_digit⟩
  · exact ⟨nullable_rxZip, leadsWb_rxZip, trailsWb_rxZip, endsWord_rxZip,
      acc_rxZip_open, acc_rxZip_close, rfl, by decide,
      tokok_A needs_rxZip acc_rxZip_close toks_no_digit⟩
  · exact ⟨nullable_rxPolicy, leadsWb_rxPolicy, trailsWb_rxPolicy, endsWord_rxPolicy,
      acc_rxPolicy_open, acc_rxPolicy_close, rfl, by decide,
      tokok_A needs_rxPolicy acc_rxPolicy_close toks_no_digit⟩
  · exact ⟨nullable_rxDateName, leadsWb_rxDateName, trailsWb_rxDateName, endsWord_rxDateName,
      acc_rxDateName_open, acc_rxDateName_close, rfl, by decide,
      tokok_A needs_rxDateName acc_rxDateName_close toks_no_digit⟩
  · exact ⟨nullable_rxDateNum, leadsWb_rxDateNum, trailsWb_rxDateNum, endsWord_rxDateNum,
      acc_rxDateNum_open, acc_rxDateNum_close, rfl, by decide,
      tokok_A needs_rxDateNum acc_rxDateNum_close toks_no_digit⟩
  · exact ⟨nullable_rxTime, leadsWb_rxTime, trailsWb_rxTime, endsWord_rxTime,
      acc_rxTime_open, acc_rxTime_close, rfl, by decide,
      tokok_A needs_rxTime acc_rxTime_close toks_no_digit⟩
  · exact ⟨nullable_rxUnum, leadsWb_rxCompany _, trailsWb_rxCompany _, endsWord_rxUnum,
      acc_rxUnum_open, acc_rxUnum_close, rfl, by decide,
      tokok_B ("Unum") unum_any_close unum_no_sub⟩
  · exact ⟨nullable_rxHartford, leadsWb_rxCompany _, trailsWb_rxCompany _, endsWord_rxHartford,
      acc_rxHartford_open, acc_rxHartford_close, rfl, by decide,
      tokok_B ("Hartford") hartford_any_close hartford_no_sub⟩
  · exact ⟨nullable_rxLincoln, leadsWb_rxCompany _, trailsWb_rxCompany _, endsWord_rxLincoln,
      acc_rxLincoln_open, acc_rxLincoln_close, rfl, by decide,
      tokok_B ("Lincoln") lincoln_any_close lincoln_no_sub⟩

/-- A token with a specific head is non-empty. -/
theorem head?_ne_nil {tok : List Char} (h : tok.head? = some '[') : tok ≠ [] := by
  intro he
  rw [he] at h
  simp at h

/-- A token headed by an opening bracket has a non-word head. -/
theorem headIsWord_of_head? {tok : List Char} (h : tok.head? = some '[') :
    headIsWord tok = false := by
  match tok, h with
  | c :: cs, h =>
    have he : c = '[' := by simpa using h
    show isWordChar c = false
    rw [he]
    decide

/-- One scan by a good rule preserves (or establishes) cleanness of a good
checked rule. -/
theorem clean_step {rtc rts : Rx × List Char} (hgc : GoodMaskRule rtc)
    (hgs : GoodMaskRule rts) (htokmem : rts.2 ∈ ruleToks) {acc : List Char}
    (hd : rtc.1 = rts.1 ∨ CleanR rtc.1 false acc) :
    CleanR rtc.1 false (subScan rts.1 rts.2 false acc) := by
  obtain ⟨hn1, hl1, ht1, he1, hao1, hac1, hh1, hg1, hk1⟩ := hgc
  obtain ⟨hn2, hl2, ht2, he2, hao2, hac2, hh2, hg2, hk2⟩ := hgs
  unfold subScan
  apply cleanR_subScanF hn1 hl1 ht1 hn2 hl2 ht2 he2 (head?_ne_nil hh2)
    (headIsWord_of_head? hh2) ?_ ?_ (hk1 rts.2 htokmem) acc.length acc false
    (le_refl _) hd
  · intro c hc
    rw [hh2] at hc
    have he : c = '[' := by
      injection hc with h
      exact h.symm
    rw [he]
    exact hao1
  · intro c hc
    rw [hg2] at hc
    have he : c = ']' := by
      injection hc with h
      exact h.symm
    rw [he]
    decide

/-- Folding a batch of good rules establishes cleanness for all of them and
preserves it for already-applied ones. -/
theorem foldl_clean :
    ∀ (pending done : List (Rx × List Char)) (acc : List Char),
    (∀ rt ∈ done ++ pending, GoodMaskRule rt) →
    (∀ rt ∈ done ++ pending, rt.2 ∈ ruleToks) →
    (∀ rt ∈ done, CleanR rt.1 false acc) →
    ∀ rt ∈ done ++ pending,
      CleanR rt.1 false (pending.foldl (fun a rt2 => subScan rt2.1 rt2.2 false a) acc) := by
  intro pending
  induction pending with
  | nil =>
    intro done acc hg hm hc rt hrt
    rw [List.append_nil] at hrt
    exact hc rt hrt
  | cons rt0 pending ih =>
    intro done acc hg hm hc rt hrt
    rw [List.foldl_cons]
    have hassoc : done ++ rt0 :: pending = (done ++ [rt0]) ++ pending := by
      rw [List.append_assoc]
      rfl
    rw [hassoc] at hg hm hrt
    apply ih (done ++ [rt0]) _ hg hm ?_ rt hrt
    intro rt2 hrt2
    have hmem0 : rt0 ∈ (done ++ [rt0]) ++ pending :=
      List.mem_append_left _ (List.mem_append_right _ (by simp))
    rcases List.mem_append.mp hrt2 with h2 | h2
    · exact clean_step (hg rt2 (List.mem_append_left _ (List.mem_append_left _ h2)))
        (hg rt0 hmem0) (hm rt0 hmem0) (Or.inr (hc rt2 h2))
    · have he : rt2 = rt0 := by simpa using h2
      subst he
      exact clean_step (hg rt2 (List.mem_append_left _ (List.mem_append_right _ h2)))
        (hg rt2 hmem0) (hm rt2 hmem0) (Or.inl rfl)

/-- Folding rules over an already-clean subject changes nothing. -/
theorem foldl_clean_id :
    ∀ (pending : List (Rx × List Char)) (acc : List Char),
    (∀ rt ∈ pending, CleanR rt.1 false acc) →
    pending.foldl (fun a rt2 => subScan rt2.1 rt2.2 false a) acc = acc := by
  intro pending
  induction pending with
  | nil => intro acc h; rfl
  | cons rt0 pending ih =>
    intro acc h
    rw [List.foldl_cons]
    have h0 : subScan rt0.1 rt0.2 false acc = acc := by
      unfold subScan
      exact subScanF_clean_id acc.length acc false (le_refl _) (h rt0 (by simp))
    rw [h0]
    exact ih acc (fun rt hrt => h rt (List.mem_cons_of_mem _ hrt))

/-- `maskChars` as a fold. -/
theorem maskChars_eq_foldl (s : List Char) :
    maskChars s = maskRules.foldl (fun a rt2 => subScan rt2.1 rt2.2 false a) s := rfl

attribute [irreducible] subScan subScanF matchLens maskChars

/-- After one full masking pass the text is clean for every rule. -/
theorem maskChars_clean (s : List Char) :
    ∀ rt ∈ maskRules, CleanR rt.1 false (maskChars s) := by
  have hA : ∀ rt ∈ ([] : List (Rx × List Char)) ++ maskRules, GoodMaskRule rt := by
    intro rt2 h2
    rw [List.nil_append] at h2
    exact maskRules_good rt2 h2
  have hB : ∀ rt ∈ ([] : List (Rx × List Char)) ++ maskRules, rt.2 ∈ ruleToks := by
    intro rt2 h2
    rw [List.nil_append] at h2
    exact List.mem_map_of_mem Prod.snd h2
  have hC : ∀ rt ∈ ([] : List (Rx × List Char)), CleanR rt.1 false s := by
    intro rt2 h2
    simp at h2
  intro rt hrt
  have hres := foldl_clean maskRules [] s hA hB hC rt
    (by rw [List.nil_append]; exact hrt)
  exact Eq.mpr (congrArg (CleanR rt.1 false) (maskChars_eq_foldl s)) hres

/-- The masking pass is idempotent at the character-list level. -/
theorem maskChars_idem (s : List Char) : maskChars (maskChars s) = maskChars s :=
  (maskChars_eq_foldl (maskChars s)).trans
    (foldl_clean_id maskRules (maskChars s) (maskChars_clean s))

/-- Masking a constructed string. -/
theorem mask_sensitive_info_mk (l : List Char) :
    mask_sensitive_info (String.mk l) = String.mk (maskChars l) := rfl

/-- **C7.** `ContentMasker.mask_sensitive_info` is idempotent: for every
input text `x`, `mask(mask(x)) = mask(x)` — applying the full ordered
sequence of masking rules a second time to already-masked text changes
nothing.  (Each replacement token starts with `[`, which no rule can
consume; token interiors contain no digit, no `@`, and no case-blind copy
of a company name, so no rule matches inside a token; every rule is
bracketed by `\b` and every match ends on a word character, so the
boundary structure at the junctions of substituted tokens blocks any new
match that a substitution could otherwise create.) -/
theorem mask_idempotent (x : String) :
    mask_sensitive_info (mask_sensitive_info x) = mask_sensitive_info x :=
  (mask_sensitive_info_mk (maskChars x.toList)).trans
    (congrArg String.mk (maskChars_idem x.toList))

end MGIS
